import Mathlib

/-!
# Everlax: a shallow embedding of the animation geometry

The repository ships two variants of one jQuery plugin: the current one,
`src/about/scripts/everlax.js`, and a legacy one, `src/everlax.js`.  The
definitions of the namespace `Everlax` embed the current variant, those of
`Everlax.Legacy` the functions of the legacy one that differ.

Conventions of the embedding

* A JavaScript number is a `JSNum`: a rational, `Infinity`, `-Infinity` or
  `NaN`; the sign of zero is not represented.  Arithmetic follows the
  ECMAScript tables for the special values.  The operators of `JSNum` are
  exact on finite values.  The namespace `Binary64` holds the operators
  rounded to the nearest binary64 value (ties to even, overflow to an
  infinity) and, over them, the functions `calculateDuration`, `calcUnit`,
  `calcSize` and `calcPosition` of the source.
* A JavaScript string is a `List Char`; literals are written `"px".toList`.
* `undefined` reaching an arithmetic position is `JSNum.nan` (its `ToNumber`);
  `undefined` reaching a string position is `Option.none`.
* A call that can throw returns `Except JSError _`.
-/

namespace Everlax

/-! ## Numbers -/

/-- A JavaScript number: exact finite values and the three special values. -/
inductive JSNum where
  | fin (q : ℚ)
  | pinf
  | ninf
  | nan
  deriving DecidableEq

namespace JSNum

instance : OfNat JSNum n := ⟨fin n⟩

instance : Inhabited JSNum := ⟨nan⟩

/-- Unary minus. -/
def neg : JSNum → JSNum
  | fin q => fin (-q)
  | pinf => ninf
  | ninf => pinf
  | nan => nan

/-- Addition of numbers (`Infinity + -Infinity` is `NaN`). -/
def add : JSNum → JSNum → JSNum
  | nan, _ => nan
  | _, nan => nan
  | fin a, fin b => fin (a + b)
  | fin _, pinf => pinf
  | fin _, ninf => ninf
  | pinf, ninf => nan
  | ninf, pinf => nan
  | pinf, _ => pinf
  | ninf, _ => ninf

/-- Subtraction, `a - b = a + (-b)`. -/
def sub (a b : JSNum) : JSNum := add a (neg b)

/-- Sign of an infinite product or quotient: `Infinity` when `pos`. -/
def signedInf (pos : Bool) : JSNum := if pos then pinf else ninf

/-- Multiplication of numbers (`0 * Infinity` is `NaN`). -/
def mul : JSNum → JSNum → JSNum
  | nan, _ => nan
  | _, nan => nan
  | fin a, fin b => fin (a * b)
  | fin a, pinf => if a = 0 then nan else signedInf (decide (0 < a))
  | fin a, ninf => if a = 0 then nan else signedInf (decide (a < 0))
  | pinf, fin b => if b = 0 then nan else signedInf (decide (0 < b))
  | ninf, fin b => if b = 0 then nan else signedInf (decide (b < 0))
  | pinf, pinf => pinf
  | ninf, ninf => pinf
  | pinf, ninf => ninf
  | ninf, pinf => ninf

/-- Division of numbers (`x / 0` is infinite for `x ≠ 0`, `0 / 0` is `NaN`;
the zero divisor is taken as `+0`). -/
def div : JSNum → JSNum → JSNum
  | nan, _ => nan
  | _, nan => nan
  | fin a, fin b =>
      if b = 0 then (if a = 0 then nan else signedInf (decide (0 < a))) else fin (a / b)
  | fin _, pinf => fin 0
  | fin _, ninf => fin 0
  | pinf, fin b => signedInf (decide (0 ≤ b))
  | ninf, fin b => signedInf (decide (b < 0))
  | pinf, _ => nan
  | ninf, _ => nan

/-- Truncation toward zero of a rational. -/
def truncQ (q : ℚ) : ℤ := if 0 ≤ q then ⌊q⌋ else -⌊-q⌋

/-- The remainder operator `%`: the result takes the sign of the dividend. -/
def mod : JSNum → JSNum → JSNum
  | nan, _ => nan
  | _, nan => nan
  | pinf, _ => nan
  | ninf, _ => nan
  | fin a, pinf => fin a
  | fin a, ninf => fin a
  | fin a, fin b => if b = 0 then nan else fin (a - b * (truncQ (a / b) : ℚ))

instance : Neg JSNum := ⟨neg⟩
instance : Add JSNum := ⟨add⟩
instance : Sub JSNum := ⟨sub⟩
instance : Mul JSNum := ⟨mul⟩
instance : Div JSNum := ⟨div⟩
instance : Mod JSNum := ⟨mod⟩

/-- The function `Math.abs`. -/
def abs : JSNum → JSNum
  | fin q => fin |q|
  | pinf => pinf
  | ninf => pinf
  | nan => nan

/-- The function `Math.floor`. -/
def floor : JSNum → JSNum
  | fin q => fin (⌊q⌋ : ℤ)
  | x => x

/-- The function `Math.round`: the nearest integer, ties toward `+Infinity`. -/
def mathRound : JSNum → JSNum
  | fin q => fin (⌊q + 1 / 2⌋ : ℤ)
  | x => x

/-- The function `Math.min` of two arguments. -/
def min : JSNum → JSNum → JSNum
  | nan, _ => nan
  | _, nan => nan
  | ninf, _ => ninf
  | _, ninf => ninf
  | pinf, y => y
  | x, pinf => x
  | fin a, fin b => fin (Min.min a b)

/-- The comparison `a < b` (false as soon as one side is `NaN`). -/
def lt : JSNum → JSNum → Bool
  | nan, _ => false
  | _, nan => false
  | fin a, fin b => decide (a < b)
  | ninf, ninf => false
  | ninf, _ => true
  | _, ninf => false
  | pinf, _ => false
  | fin _, pinf => true

/-- The comparison `a == b` on numbers (`NaN` equals nothing). -/
def eq : JSNum → JSNum → Bool
  | fin a, fin b => decide (a = b)
  | pinf, pinf => true
  | ninf, ninf => true
  | _, _ => false

end JSNum

open JSNum

/-! ## Strings -/

/-- The characters `String.prototype.trim` strips: ECMAScript `WhiteSpace` and
`LineTerminator` code points. -/
def isWhiteSpace (c : Char) : Bool :=
  let n := c.toNat
  n == 9 || n == 10 || n == 11 || n == 12 || n == 13 || n == 32 || n == 160 ||
  n == 5760 || (8192 ≤ n && n ≤ 8202) || n == 8232 || n == 8233 || n == 8239 ||
  n == 8287 || n == 12288 || n == 65279

/-- The method `String.prototype.trim`. -/
def trim (s : List Char) : List Char :=
  ((s.dropWhile isWhiteSpace).reverse.dropWhile isWhiteSpace).reverse

/-- The method `String.prototype.endsWith`. -/
def endsWith (s suffix : List Char) : Bool :=
  decide (s.reverse.take suffix.length = suffix.reverse)

/-- The method `String.prototype.split` with a one-character separator. -/
def split (sep : Char) : List Char → List (List Char)
  | [] => [[]]
  | c :: cs =>
    if c = sep then [] :: split sep cs
    else
      match split sep cs with
      | [] => [[c]]
      | p :: ps => (c :: p) :: ps

/-- The method `Array.prototype.join` with an explicit separator. -/
def join (sep : List Char) : List (List Char) → List Char
  | [] => []
  | [x] => x
  | x :: y :: rest => x ++ sep ++ join sep (y :: rest)

/-- Value of `c` as a digit of the given radix, when it is one. -/
def digitValue (radix : Nat) (c : Char) : Option Nat :=
  let n := c.toNat
  let v : Option Nat :=
    if 48 ≤ n ∧ n ≤ 57 then some (n - 48)
    else if 97 ≤ n ∧ n ≤ 122 then some (n - 87)
    else if 65 ≤ n ∧ n ≤ 90 then some (n - 55)
    else none
  match v with
  | some d => if d < radix then some d else none
  | none => none

/-- Digit values of the longest prefix of `s` made of digits of the radix. -/
def leadingDigits (radix : Nat) : List Char → List Nat
  | [] => []
  | c :: cs =>
    match digitValue radix c with
    | some d => d :: leadingDigits radix cs
    | none => []

/-- The number written by a big-endian list of digit values. -/
def digitsToNat (radix : Nat) (ds : List Nat) : Nat :=
  ds.foldl (fun acc d => acc * radix + d) 0

/-- An optional leading `+` or `-`: whether it was `-`, and the rest. -/
def stripSign : List Char → Bool × List Char
  | [] => (false, [])
  | c :: r => if c = '-' then (true, r) else if c = '+' then (false, r) else (false, c :: r)

/-- The radix `parseInt` infers when called without one: 16 after a leading
`0x` or `0X` (which is removed), 10 otherwise. -/
def stripHexPrefix : List Char → Nat × List Char
  | c0 :: c1 :: r =>
    if c0 = '0' ∧ (c1 = 'x' ∨ c1 = 'X') then (16, r) else (10, c0 :: c1 :: r)
  | s => (10, s)

/-- The global function `parseInt` called with one string argument. -/
def parseInt (s : List Char) : JSNum :=
  let s := s.dropWhile isWhiteSpace
  let signed := stripSign s
  let radixed := stripHexPrefix signed.2
  let ds := leadingDigits radixed.1 radixed.2
  if ds = [] then nan
  else
    let m : ℚ := (digitsToNat radixed.1 ds : ℚ)
    fin (if signed.1 then -m else m)

/-- The exponent part of a decimal literal, `0` when `s` does not start with
`e` or `E` followed by an optionally signed, non-empty run of digits. -/
def exponentPart : List Char → Int
  | [] => 0
  | c :: r =>
    if c = 'e' ∨ c = 'E' then
      let signed := stripSign r
      let ds := leadingDigits 10 signed.2
      if ds = [] then 0
      else if signed.1 then -(digitsToNat 10 ds : Int) else (digitsToNat 10 ds : Int)
    else 0

/-- The global function `parseFloat`: the value of the longest prefix that is a
decimal literal (`Infinity` included), `NaN` when there is none. -/
def parseFloat (s : List Char) : JSNum :=
  let s := s.dropWhile isWhiteSpace
  let signed := stripSign s
  let body := signed.2
  if body.take 8 = "Infinity".toList then (if signed.1 then ninf else pinf)
  else
    let ip := leadingDigits 10 body
    let r1 := body.drop ip.length
    let fp : List Nat :=
      match r1 with
      | [] => []
      | c :: r => if c = '.' then leadingDigits 10 r else []
    let r2 : List Char :=
      match r1 with
      | [] => []
      | c :: r => if c = '.' then r.drop (leadingDigits 10 r).length else c :: r
    if ip = [] ∧ fp = [] then nan
    else
      let m : ℚ := (digitsToNat 10 (ip ++ fp) : ℚ) * (10 : ℚ) ^ (exponentPart r2 - (fp.length : Int))
      fin (if signed.1 then -m else m)

/-- The decimal digit character of `d < 10`. -/
def digitChar (d : Nat) : Char := Char.ofNat (48 + d)

/-- Decimal digits of `n`, most significant first; `fuel > n` always suffices. -/
def natDigits : Nat → Nat → List Char
  | 0, _ => []
  | fuel + 1, n =>
    if n < 10 then [digitChar n] else natDigits fuel (n / 10) ++ [digitChar (n % 10)]

/-- Decimal text of a natural number. -/
def natToText (n : Nat) : List Char := natDigits (n + 1) n

/-- Decimal text of an integer, as `Number.prototype.toString` writes one. -/
def intToText : Int → List Char
  | Int.ofNat n => natToText n
  | Int.negSucc n => '-' :: natToText (n + 1)

/-- The conversion `ToString` of a number.  An integer of magnitude at most
`2^53` is written in plain decimal, all its digits being significant; every
other finite value (a fraction, or a larger integer, of which ECMAScript
writes the shortest round-trip digits and, from `10^21` on, an exponent) is
written by `render`, a parameter of the embedding. -/
def numberToString (render : ℚ → List Char) : JSNum → List Char
  | nan => "NaN".toList
  | pinf => "Infinity".toList
  | ninf => "-Infinity".toList
  | fin q => if q.den = 1 ∧ q.num.natAbs ≤ 2 ^ 53 then intToText q.num else render q

/-! ## Direction vector -/

/-- The constant `Math.PI`, the binary64 value nearest to π, as a rational. -/
def mathPI : JSNum := fin (884279719003555 / 281474976710656)

/-- Source `round`, lines 257-259: round to four decimals. -/
def round (number : JSNum) : JSNum :=
  JSNum.mathRound (number * 10000) / 10000

/-- The record `{ x, y, itterations }` returned by `calculateDirectionVector`. -/
structure Direction where
  x : JSNum
  y : JSNum
  itterations : JSNum
  deriving DecidableEq

/-- Source `calculateDirectionVector`, lines 167-186.  The library functions
`Math.cos` and `Math.sin` are parameters of the embedding. -/
def calculateDirectionVector (cos sin : JSNum → JSNum) (direction : JSNum) : Direction :=
  let radians := mathPI / 180 * direction
  let plotx := round (cos radians)
  let ploty := round (sin radians)
  let adjustMinor := JSNum.min (1 - JSNum.abs plotx) (1 - JSNum.abs ploty)
  let plotx := plotx + (if JSNum.lt plotx 0 then -adjustMinor else adjustMinor)
  let ploty := ploty + (if JSNum.lt ploty 0 then -adjustMinor else adjustMinor)
  let itterations := JSNum.floor (1 / JSNum.min (JSNum.abs plotx) (JSNum.abs ploty))
  let isInfinite := JSNum.eq itterations pinf || JSNum.eq itterations ninf
  let itterations := if isInfinite then 1 else itterations
  { x := plotx, y := ploty, itterations := itterations }

/-! ## Destination of one axis (current variant) -/

/-- Source `getNormalizer` of `src/about/scripts/everlax.js`, lines 261-266. -/
def getNormalizer (number target : JSNum) : JSNum :=
  let value := target - JSNum.abs number % JSNum.abs target
  let value := if JSNum.lt number 0 then -JSNum.abs value else JSNum.abs value
  if JSNum.eq value target then 0 else value

/-- The destination of one axis, lines 84-87 (and 88-91) of the load callback
in `src/about/scripts/everlax.js`: `d` is the direction component, `size` the
tile length, `start` the start offset of that axis. -/
def destinationAxis (d size itterations start : JSNum) : JSNum :=
  let dest := JSNum.floor (d * size * itterations)
  let target := if JSNum.lt d 0 then -size else size
  let adjustMajor := getNormalizer dest target
  dest + (adjustMajor + start)

/-! ## Duration -/

/-- What a call can throw: a `TypeError` raised by the engine, or the value of
a `throw` statement of the source. -/
inductive JSError where
  | typeError
  | thrown (value : List Char)
  deriving DecidableEq

/-- The call `(/m?s$/i).exec(duration)`: `none` for `null`, otherwise the match
array, whose only entry is the matched text (an optional `m` or `M`, then `s`
or `S`, at the very end of the input). -/
def execDurationUnit (duration : List Char) : Option (List (List Char)) :=
  match duration.reverse with
  | [] => none
  | c :: rest =>
    if c = 's' ∨ c = 'S' then
      match rest with
      | [] => some [[c]]
      | b :: _ => if b = 'm' ∨ b = 'M' then some [[b, c]] else some [[c]]
    else none

/-- Source `parseFloatOrDefault`, lines 253-255, on a string argument: neither
`toString`, `trim` nor `parseFloat` throws, so the `catch` branch is dead. -/
def parseFloatOrDefault (value : List Char) : JSNum :=
  parseFloat (trim value)

/-- Source `calculateDuration`, lines 158-165.  Reading `.length` of the `null`
that `exec` returns on a failed match raises a `TypeError`. -/
def calculateDuration (render : ℚ → List Char) (duration : List Char) (itterations : JSNum) :
    Except JSError (List Char) :=
  match execDurationUnit duration with
  | none => .error JSError.typeError
  | some durationUnit =>
    if durationUnit.length = 0 then .error (JSError.thrown "everlax: invalid duration unit".toList)
    else
      let durationUnit := durationUnit.headD []
      .ok (numberToString render (parseFloatOrDefault duration * itterations) ++ durationUnit)

/-- The six spellings of the unit suffix `s` or `ms`. -/
def durationUnits : List (List Char) :=
  ["s".toList, "S".toList, "ms".toList, "mS".toList, "Ms".toList, "MS".toList]

/-! ## Units, sizes and positions (current variant) -/

/-- Source `normalizeUnit`, lines 228-234. -/
def normalizeUnit (unit : Option (List Char)) : List Char :=
  let unit := trim (unit.getD [])
  if unit = [] then "0px".toList
  else if unit = "left".toList ∨ unit = "top".toList then "0%".toList
  else if unit = "right".toList ∨ unit = "bottom".toList then "100%".toList
  else unit

/-- Source `calcUnit`, lines 236-247.  `parseInt` never throws, so `unitValue`
is always its result. -/
def calcUnit (unit : Option (List Char)) (length containerLength : JSNum) : JSNum :=
  let unit := trim (unit.getD [])
  let unitValue := parseInt unit
  let value :=
    if endsWith unit "px".toList then unitValue
    else if endsWith unit "%".toList then containerLength * (unitValue / 100)
    else if unit = "center".toList then containerLength / 2 - length / 2
    else 0
  JSNum.floor value

/-- A pair `{ width, height }`. -/
structure Size where
  width : JSNum
  height : JSNum
  deriving DecidableEq

/-- A pair `{ x, y }`. -/
structure Point where
  x : JSNum
  y : JSNum
  deriving DecidableEq

/-- Pad an array of tokens with `filler` up to two entries
(`while (parts.length < 2) { parts.push(filler); }`). -/
def padParts (filler : List Char) (parts : List (List Char)) : List (List Char) :=
  parts ++ List.replicate (2 - parts.length) filler

/-- Source `getBgSize`, lines 108-115; `css` is the value of
`element.css('background-size') || ''`. -/
def getBgSize (css : List Char) (index : Nat) : List Char :=
  let styles := split ',' (trim css)
  if styles.length ≤ index then "auto auto".toList
  else
    let parts := padParts "auto".toList (split ' ' (trim (styles.getD index [])))
    let left := normalizeUnit parts[0]?
    let right := normalizeUnit parts[1]?
    left ++ " ".toList ++ right

/-- Source `getBgPosition`, lines 117-126; `css` is the value of
`element.css('background-position') || ''`. -/
def getBgPosition (css : List Char) (index : Nat) : List Char :=
  let positions := split ',' (trim css)
  if positions.length ≤ index then "0px 0px".toList
  else
    let parts := padParts "0px".toList (split ' ' (trim (positions.getD index [])))
    let p0 := trim (parts.getD 0 [])
    let p1 := trim (parts.getD 1 [])
    let swap : Bool :=
      decide (p0 = "top".toList) || decide (p0 = "bottom".toList) ||
      decide (p1 = "left".toList) || decide (p1 = "right".toList)
    let left := normalizeUnit (if swap then parts[1]? else parts[0]?)
    let right := normalizeUnit (if swap then parts[0]? else parts[1]?)
    left ++ " ".toList ++ right

/-- Source `calcSize`, lines 196-217.  In the last branch `calcUnit` is called
with one argument, so its `length` and `containerLength` are `undefined`. -/
def calcSize (style : List Char) (actual container : Size) : Size :=
  let parts := split ' ' style
  let left := parts[0]?
  let right := parts[1]?
  if left = some "auto".toList ∧ right = some "auto".toList then actual
  else if left = some "auto".toList then
    let height := calcUnit right actual.height container.height
    let scale := height / actual.height
    let width := actual.width * scale
    { width := width, height := height }
  else if right = some "auto".toList then
    let width := calcUnit left actual.width container.width
    let scale := width / actual.width
    let height := actual.height * scale
    { width := width, height := height }
  else
    let width := calcUnit left nan nan
    let height := calcUnit right nan nan
    { width := width, height := height }

/-- Source `calcPosition`, lines 219-226. -/
def calcPosition (style : List Char) (size container : Size) : Point :=
  let parts := split ' ' style
  let left := parts[0]?
  let right := parts[1]?
  { x := calcUnit left size.width (container.width - size.width),
    y := calcUnit right size.height (container.height - size.height) }

/-! ## The join of the image probes (current variant) -/

/-- The constant `defaultCoords`, line 36. -/
def defaultCoords : List Char := "0px 0px".toList

/-- The six arguments `prefixVendor` hands to its callback, lines 149-156. -/
def vendors : List (List Char) :=
  ["-webkit-".toList, "-khtml-".toList, "-moz-".toList, "-ms-".toList, "-o-".toList, []]

/-- What one invocation shares with its callbacks and with the page: the two
slot arrays of the closure, the counter `styleIndex`, the calls made to
`styleSheet.insertRule` (latest first, as each is inserted at index 0) and the
class names given to `element.addClass`. -/
structure Plan where
  startPoints : List (List Char)
  destinations : List (List Char)
  styleIndex : Nat
  sheet : List (List Char)
  classes : List (List Char)
  deriving DecidableEq

/-- Source `tryStartAnimation`, lines 129-147.  A string is falsy exactly when
it is empty.  `sheet` records every `insertRule` call; a prefixed rule the
engine rejects throws inside `prefixVendor` and is skipped there. -/
def tryStartAnimation (p : Plan) (duration : List Char) : Plan :=
  if p.destinations.any (fun d => decide (d = [])) then p
  else
    let ruleName := "everlax".toList ++ natToText p.styleIndex
    let ruleBody := "keyframes ".toList ++ ruleName
      ++ " \x7b 0% \x7b background-position: ".toList ++ join ",".toList p.startPoints ++ "; \x7d".toList
      ++ " 100% \x7b background-position: ".toList ++ join ",".toList p.destinations ++ "; \x7d \x7d".toList
    let sheet := vendors.foldl (fun sh vendor => ("@".toList ++ vendor ++ ruleBody) :: sh) p.sheet
    let styleBody := vendors.foldl
      (fun body vendor => body ++ (vendor ++ "animation: ".toList ++ ruleName ++ " ".toList
        ++ duration ++ " infinite linear".toList ++ "; ".toList))
      (".".toList ++ ruleName ++ " \x7b".toList)
    let styleBody := styleBody ++ " \x7d".toList
    { p with styleIndex := p.styleIndex + 1, sheet := styleBody :: sheet,
             classes := p.classes ++ [ruleName] }

/-- What the load callback reads besides the image: the two computed style
strings, the rendered size of the element, the direction vector and the scaled
duration. -/
structure Env where
  bgSize : List Char
  bgPosition : List Char
  container : Size
  direction : Direction
  duration : List Char

/-- The callback handed to `loadImage`, lines 65-96: `image` is `none` when the
probe failed (`onerror`), the natural size of the image when it loaded.  The
index is always within the arrays (they have one slot per image). -/
def onImage (render : ℚ → List Char) (env : Env) (p : Plan)
    (image : Option Size) (index : Nat) : Plan :=
  match image with
  | none =>
    tryStartAnimation { p with destinations := p.destinations.set index defaultCoords }
      env.duration
  | some imageSize =>
    let styleSize := getBgSize env.bgSize index
    let size := calcSize styleSize imageSize env.container
    let stylePosition := getBgPosition env.bgPosition index
    let start := calcPosition stylePosition size env.container
    let startPoints := p.startPoints.set index
      (numberToString render start.x ++ "px ".toList ++ numberToString render start.y ++ "px".toList)
    let destX := destinationAxis env.direction.x size.width env.direction.itterations start.x
    let destY := destinationAxis env.direction.y size.height env.direction.itterations start.y
    let destinations := p.destinations.set index
      (numberToString render destX ++ "px ".toList ++ numberToString render destY ++ "px".toList)
    tryStartAnimation { p with startPoints := startPoints, destinations := destinations }
      env.duration

/-- The plan an invocation starts from, lines 54-59: `n` empty slots in each
array, with the page as it stands (`styleIndex`, `sheet`, `classes`). -/
def initialPlan (n styleIndex : Nat) (sheet classes : List (List Char)) : Plan :=
  { startPoints := List.replicate n [], destinations := List.replicate n [],
    styleIndex := styleIndex, sheet := sheet, classes := classes }

/-- The plan after the probes settle in the order listed: each entry is the
index of the layer and the outcome of its probe. -/
def settleAll (render : ℚ → List Char) (env : Env) (p : Plan)
    (events : List (Nat × Option Size)) : Plan :=
  events.foldl (fun q e => onImage render env q e.2 e.1) p

/-! ## The list of images -/

/-- The characters the pattern `.` refuses: ECMAScript `LineTerminator`. -/
def isLineTerminator (c : Char) : Bool :=
  let n := c.toNat
  n == 10 || n == 13 || n == 8232 || n == 8233

/-- Membership in the class `[^'"\)]`. -/
def isUrlChar (c : Char) : Bool :=
  !(decide (c = '\'') || decide (c = '"') || decide (c = ')'))

/-- The part `url\s*\(\s*['"]?([^'"\)]+)` of the pattern of `getBgImages`
(flag `i`), matched at the head of `s`: the text of group 1 and the number of
characters the match takes.  Of the ways to match, the first in the order of
backtracking is taken: all the white space after `(`, then the quote when the
class can follow it; when the class finds nothing after the white space, the
white space gives back its last character, which becomes the whole group. -/
def matchUrlGroup : List Char → Option (List Char × Nat)
  | c0 :: c1 :: c2 :: rest =>
    if (c0 = 'u' ∨ c0 = 'U') ∧ (c1 = 'r' ∨ c1 = 'R') ∧ (c2 = 'l' ∨ c2 = 'L') then
      let ws1 := rest.takeWhile isWhiteSpace
      match rest.dropWhile isWhiteSpace with
      | [] => none
      | p :: afterParen =>
        if p = '(' then
          let ws2 := afterParen.takeWhile isWhiteSpace
          let body := afterParen.dropWhile isWhiteSpace
          let afterQuote : List Char :=
            match body with
            | [] => []
            | q :: r => if q = '\'' ∨ q = '"' then r.takeWhile isUrlChar else []
          let direct := body.takeWhile isUrlChar
          if afterQuote ≠ [] then
            some (afterQuote, 3 + ws1.length + 1 + ws2.length + 1 + afterQuote.length)
          else if direct ≠ [] then
            some (direct, 3 + ws1.length + 1 + ws2.length + direct.length)
          else
            match ws2.getLast? with
            | some w => some ([w], 3 + ws1.length + 1 + ws2.length)
            | none => none
        else none
    else none
  | _ => none

/-- The call `.replace(/(?:.*?url\s*\(\s*['"]?)([^'"\)]+)/gi, '$1,')`, read
left to right: `skip` characters still belong to the match just replaced, and
`seg` is the text read since the last line terminator or match.  A match
starts where `seg` starts (the lazy `.*?` takes `seg`) and ends with its group,
and is replaced by the group and a comma; text that no match covers is kept. -/
def replaceUrlGroups : List Char → Nat → List Char → List Char
  | [], _, seg => seg
  | _ :: cs, skip + 1, seg => replaceUrlGroups cs skip seg
  | c :: cs, 0, seg =>
    match matchUrlGroup (c :: cs) with
    | some (group, taken) => group ++ ',' :: replaceUrlGroups cs (taken - 1) []
    | none =>
      if isLineTerminator c then seg ++ c :: replaceUrlGroups cs 0 []
      else replaceUrlGroups cs 0 (seg ++ [c])

/-- The array `imageSources` after `imageSources.pop()`, line 103 (and line
163 of `src/everlax.js`); `css` is `element.css('background-image') || ''`. -/
def imageSources (css : List Char) : List (List Char) :=
  (split ',' (replaceUrlGroups css 0 [])).dropLast

/-- Source `getBgImages`, lines 101-106: `none` is `null`. -/
def getBgImages (css : List Char) : Option (List (List Char)) :=
  let sources := imageSources css
  if (sources.length = 1 ∧ trim (sources.headD []) = []) ∨ sources.length = 0 then none
  else some sources

/-! ## One invocation (current variant) -/

/-- The value of `a || b || c` on settings that are a string or `undefined`:
the first that is neither `undefined` nor empty, else the last. -/
def firstSetting (a b : Option (List Char)) (c : List Char) : List Char :=
  match a with
  | some x => if x = [] then (match b with | some y => if y = [] then c else y | none => c) else x
  | none => match b with
    | some y => if y = [] then c else y
    | none => c

/-- Source `parseIntOrDefault`, lines 249-251, on a string argument (the
`catch` branch is dead). -/
def parseIntOrDefault (value : List Char) : JSNum :=
  parseInt (trim value)

/-- What the body of `$.fn.everlax` has built for one element when the probes
are dispatched. -/
structure Invocation where
  images : List (List Char)
  direction : Direction
  duration : List Char
  plan : Plan

/-- Source `$.fn.everlax` for one element, lines 45-59, up to the dispatch of
the probes: `.ok none` when there is no image (line 48), `.error` when
`calculateDuration` throws.  The settings are the option of `configuration`
and the attribute of the element, each possibly absent. -/
def everlax (render : ℚ → List Char) (cos sin : JSNum → JSNum) (bgImage : List Char)
    (configDirection attrDirection configDuration attrDuration : Option (List Char))
    (styleIndex : Nat) (sheet classes : List (List Char)) : Except JSError (Option Invocation) :=
  match getBgImages bgImage with
  | none => .ok none
  | some images =>
    let direction := calculateDirectionVector cos sin
      (parseIntOrDefault (firstSetting configDirection attrDirection "0".toList))
    match calculateDuration render
        (trim (firstSetting configDuration attrDuration "10s".toList)) direction.itterations with
    | .error e => .error e
    | .ok duration =>
      .ok (some { images := images, direction := direction, duration := duration,
                  plan := initialPlan images.length styleIndex sheet classes })

/-! ## The legacy variant, `src/everlax.js` -/

namespace Legacy

/-- The record `{ images, sizes, startPoints, destinations }` that
`parseBackground` returns. -/
structure Background where
  images : List (List Char)
  sizes : List (List Char)
  startPoints : List (List Char)
  destinations : List (List Char)
  deriving DecidableEq

/-- The value of `text.trim() || fallback`. -/
def trimOr (text fallback : List Char) : List Char :=
  if trim text = [] then fallback else trim text

/-- One statement of the loop of `parseBackground`, lines 171-172 (and
173-174): at index `i` the entry is replaced when it exists, and the fallback
is pushed when it does not. -/
def padEntry (fallback : List Char) (entries : List (List Char)) (i : Nat) :
    List (List Char) :=
  if i < entries.length then entries.set i (trimOr (entries.getD i []) fallback)
  else entries ++ [fallback]

/-- One turn of the loop of `parseBackground`, lines 170-176. -/
def padStep (b : Background) (i : Nat) : Background :=
  { b with startPoints := padEntry defaultCoords b.startPoints i,
           sizes := padEntry "auto".toList b.sizes i,
           destinations := b.destinations ++ [[]] }

/-- Source `parseBackground`, lines 159-183: `none` is `false`; the three
arguments are the values of `element.css(...) || ''`. -/
def parseBackground (bgImage bgSize bgPosition : List Char) : Option Background :=
  let sources := imageSources bgImage
  if (sources.length = 1 ∧ trim (sources.headD []) = []) ∨ sources.length = 0 then none
  else
    some ((List.range sources.length).foldl padStep
      { images := sources, sizes := split ',' bgSize, startPoints := split ',' bgPosition,
        destinations := [] })

/-- Source `getNormalizer`, lines 247-251. -/
def getNormalizer (number target : JSNum) : JSNum :=
  let value := target - number % target
  if JSNum.eq value target then 0 else value

/-- Source `calcUnit`, lines 221-233: calling `trim` on `undefined` raises a
`TypeError`. -/
def calcUnit (unit : Option (List Char)) (length containerLength : JSNum) :
    Except JSError JSNum :=
  match unit with
  | none => .error JSError.typeError
  | some unit =>
    let unit := trim unit
    let unitValue := parseInt unit
    .ok (if endsWith unit "px".toList then unitValue
      else if endsWith unit "%".toList then containerLength * (unitValue / 100)
      else if unit = "left".toList ∨ unit = "top".toList then 0
      else if unit = "bottom".toList ∨ unit = "right".toList then containerLength - length
      else 0)

/-- Source `calcSize`, lines 197-219. -/
def calcSize (style : List Char) (actual container : Size) : Except JSError Size :=
  let parts := padParts "auto".toList (split ' ' style)
  let left := trim (parts.getD 0 [])
  let right := trim (parts.getD 1 [])
  if left = "auto".toList ∧ right = "auto".toList then .ok actual
  else if left = "auto".toList then
    match calcUnit (some right) actual.height container.height with
    | .error e => .error e
    | .ok height =>
      let scale := height / actual.height
      .ok { width := actual.width * scale, height := height }
  else if right = "auto".toList then
    match calcUnit (some left) actual.width container.width with
    | .error e => .error e
    | .ok width =>
      let scale := width / actual.width
      .ok { width := width, height := actual.height * scale }
  else
    match calcUnit (some left) nan nan, calcUnit (some right) nan nan with
    | .ok width, .ok height => .ok { width := width, height := height }
    | .error e, _ => .error e
    | _, .error e => .error e

/-- The state one legacy invocation shares with its callbacks: the arrays of
`background` (`images` and `sizes` are only read) and the page. -/
structure State where
  images : List (List Char)
  sizes : List (List Char)
  plan : Plan

/-- What the legacy load callback reads besides the image. -/
structure Env where
  container : Size
  direction : Direction
  duration : List Char

/-- The destination of one axis, lines 82-84 (and 85-87). -/
def destinationAxis (d size itterations start : JSNum) : JSNum :=
  let dest := JSNum.floor (d * size * itterations)
  let adjustMajor := getNormalizer dest size
  dest + (adjustMajor + start)

/-- The callback handed to `loadImage`, lines 61-92: `image` is `none` when the
probe failed.  The index is within the arrays; an exception leaves the callback
before anything is written. -/
def onImage (render : ℚ → List Char) (env : Env) (st : State)
    (image : Option Size) (index : Nat) : Except JSError State :=
  match image with
  | none =>
    let destinations := st.plan.destinations.set index defaultCoords
    let plan := tryStartAnimation { st.plan with destinations := destinations } env.duration
    .ok { st with plan := plan }
  | some imageSize =>
    match calcSize (st.sizes.getD index []) imageSize env.container with
    | .error e => .error e
    | .ok size =>
      let startParts := split ' ' (st.plan.startPoints.getD index [])
      match calcUnit startParts[0]? size.width env.container.width,
            calcUnit startParts[1]? size.height env.container.height with
      | .ok startX, .ok startY =>
        let startPoints := st.plan.startPoints.set index
          (numberToString render startX ++ "px ".toList
            ++ numberToString render startY ++ "px".toList)
        let destX := destinationAxis env.direction.x size.width env.direction.itterations startX
        let destY := destinationAxis env.direction.y size.height env.direction.itterations startY
        let destinations := st.plan.destinations.set index
          (numberToString render destX ++ "px ".toList
            ++ numberToString render destY ++ "px".toList)
        let plan := tryStartAnimation
          { st.plan with startPoints := startPoints, destinations := destinations } env.duration
        .ok { st with plan := plan }
      | .error e, _ => .error e
      | _, .error e => .error e

end Legacy

/-! ## Keywords of a position -/

/-- The keywords of the horizontal axis. -/
inductive HorizontalKeyword where
  | left
  | right
  | center
  deriving DecidableEq

/-- The keywords of the vertical axis. -/
inductive VerticalKeyword where
  | top
  | bottom
  | center
  deriving DecidableEq

/-- The text of a horizontal keyword. -/
def HorizontalKeyword.text : HorizontalKeyword → List Char
  | .left => "left".toList
  | .right => "right".toList
  | .center => "center".toList

/-- The text of a vertical keyword. -/
def VerticalKeyword.text : VerticalKeyword → List Char
  | .top => "top".toList
  | .bottom => "bottom".toList
  | .center => "center".toList

/-! ## Binary64 arithmetic

The functions of this section round as an IEEE 754 binary64 unit does, to the
nearest value with ties to the even significand.  The sign of zero is not
represented. -/

/-- The integer nearest to `q`, a tie going to the even one. -/
def roundHalfEven (q : ℚ) : ℤ :=
  if q - (⌊q⌋ : ℤ) < 1 / 2 then ⌊q⌋
  else if 1 / 2 < q - (⌊q⌋ : ℤ) then ⌊q⌋ + 1
  else if ⌊q⌋ % 2 = 0 then ⌊q⌋ else ⌊q⌋ + 1

/-- The binary exponent of the binade of `q`: `⌊log₂ |q|⌋`, and `-1022` (the
exponent of the subnormal values) below `2^-1022`. -/
def binade (q : ℚ) : ℤ := max (Int.log 2 |q|) (-1022)

/-- The binary64 value nearest to the real number `q`: a multiple of
`2^(binade q - 52)`, the spacing of the values of its binade, and an infinity
when the rounded magnitude reaches `2^1024`. -/
def binary64 (q : ℚ) : JSNum :=
  if q = 0 then fin 0
  else
    let ulp : ℚ := (2 : ℚ) ^ (binade q - 52)
    let r : ℚ := (roundHalfEven (q / ulp) : ℚ) * ulp
    if (2 : ℚ) ^ (1024 : ℕ) ≤ |r| then (if 0 < q then pinf else ninf) else fin r

/-- Rounding of the exact result of an operation to binary64. -/
def JSNum.round64 : JSNum → JSNum
  | fin q => binary64 q
  | x => x

namespace Binary64

/-- The operator `+` on numbers. -/
def add (a b : JSNum) : JSNum := JSNum.round64 (a + b)

/-- The operator `-` on numbers. -/
def sub (a b : JSNum) : JSNum := JSNum.round64 (a - b)

/-- The operator `*`. -/
def mul (a b : JSNum) : JSNum := JSNum.round64 (a * b)

/-- The operator `/`. -/
def div (a b : JSNum) : JSNum := JSNum.round64 (a / b)

/-- The global function `parseInt` called with one string argument: the
binary64 value nearest to the integer that the digits write (ECMAScript lets
an engine approximate a decimal integer after its 20th significant digit). -/
def parseInt (s : List Char) : JSNum := JSNum.round64 (Everlax.parseInt s)

/-- The global function `parseFloat`: the binary64 value nearest to the
decimal literal read (ECMAScript lets an engine approximate a literal after
its 20th significant digit). -/
def parseFloat (s : List Char) : JSNum := JSNum.round64 (Everlax.parseFloat s)

/-- Source `parseFloatOrDefault`, lines 253-255, on a string argument. -/
def parseFloatOrDefault (value : List Char) : JSNum :=
  parseFloat (trim value)

/-- Source `calculateDuration`, lines 158-165, the product rounded to
binary64. -/
def calculateDuration (render : ℚ → List Char) (duration : List Char) (itterations : JSNum) :
    Except JSError (List Char) :=
  match execDurationUnit duration with
  | none => .error JSError.typeError
  | some durationUnit =>
    if durationUnit.length = 0 then .error (JSError.thrown "everlax: invalid duration unit".toList)
    else
      let durationUnit := durationUnit.headD []
      .ok (numberToString render (mul (parseFloatOrDefault duration) itterations) ++ durationUnit)

/-- Source `calcUnit`, lines 236-247, every operation rounded to binary64
(`Math.floor` of a binary64 value is exact). -/
def calcUnit (unit : Option (List Char)) (length containerLength : JSNum) : JSNum :=
  let unit := trim (unit.getD [])
  let unitValue := parseInt unit
  let value :=
    if endsWith unit "px".toList then unitValue
    else if endsWith unit "%".toList then mul containerLength (div unitValue 100)
    else if unit = "center".toList then sub (div containerLength 2) (div length 2)
    else 0
  JSNum.floor value

/-- Source `calcSize`, lines 196-217, every operation rounded to binary64. -/
def calcSize (style : List Char) (actual container : Size) : Size :=
  let parts := split ' ' style
  let left := parts[0]?
  let right := parts[1]?
  if left = some "auto".toList ∧ right = some "auto".toList then actual
  else if left = some "auto".toList then
    let height := calcUnit right actual.height container.height
    let scale := div height actual.height
    let width := mul actual.width scale
    { width := width, height := height }
  else if right = some "auto".toList then
    let width := calcUnit left actual.width container.width
    let scale := div width actual.width
    let height := mul actual.height scale
    { width := width, height := height }
  else
    let width := calcUnit left nan nan
    let height := calcUnit right nan nan
    { width := width, height := height }

/-- Source `calcPosition`, lines 219-226, every operation rounded to
binary64. -/
def calcPosition (style : List Char) (size container : Size) : Point :=
  let parts := split ' ' style
  let left := parts[0]?
  let right := parts[1]?
  { x := calcUnit left size.width (sub container.width size.width),
    y := calcUnit right size.height (sub container.height size.height) }

end Binary64

/-! ## The tokens of a position entry -/

/-- The two tokens that `getBgPosition`, lines 117-126, hands to
`normalizeUnit`: the one of the horizontal axis, then the one of the vertical
axis (the tokens of the entry, exchanged when the first is `top` or `bottom`
or the second is `left` or `right`); `none` when the list has no entry at
`index`. -/
def positionTokens (css : List Char) (index : Nat) :
    Option (Option (List Char) × Option (List Char)) :=
  let positions := split ',' (trim css)
  if positions.length ≤ index then none
  else
    let parts := padParts "0px".toList (split ' ' (trim (positions.getD index [])))
    let p0 := trim (parts.getD 0 [])
    let p1 := trim (parts.getD 1 [])
    let swap : Bool :=
      decide (p0 = "top".toList) || decide (p0 = "bottom".toList) ||
      decide (p1 = "left".toList) || decide (p1 = "right".toList)
    some (if swap then parts[1]? else parts[0]?, if swap then parts[0]? else parts[1]?)

/-! ## Lists of image URLs -/

/-- The text `url(u)` of one layer, with `quote` written on both sides of `u`. -/
def urlLayer (quote u : List Char) : List Char :=
  "url(".toList ++ quote ++ u ++ quote ++ ")".toList

/-- The computed `background-image` of layers with the URLs `us`. -/
def imageList (quote : List Char) (us : List (List Char)) : List Char :=
  join ", ".toList (us.map (urlLayer quote))

/-- A URL without comma, quote or closing parenthesis that is not empty and
does not start with white space. -/
def plainUrl (u : List Char) : Bool :=
  u.all (fun c => isUrlChar c && !decide (c = ',')) &&
    (match u with
     | [] => false
     | c :: _ => !isWhiteSpace c)

/-- The text after the replacement of `getBgImages` and `parseBackground`, for
layers with the URLs `us`: each URL followed by a comma, then what the pattern
leaves of the last layer. -/
def replacedText (quote : List Char) (us : List (List Char)) : List Char :=
  us.foldr (fun u acc => u ++ ',' :: acc) (quote ++ [')'])

/-! ## Arithmetic on finite values -/

namespace JSNum

@[simp] theorem ofNat_eq_fin (n : ℕ) [n.AtLeastTwo] :
    (OfNat.ofNat n : JSNum) = fin (OfNat.ofNat n) := by
  show fin (n : ℚ) = fin (OfNat.ofNat n)
  rfl

@[simp] theorem zero_eq_fin : (0 : JSNum) = fin 0 := by
  show fin ((0 : ℕ) : ℚ) = fin 0
  simp

@[simp] theorem one_eq_fin : (1 : JSNum) = fin 1 := by
  show fin ((1 : ℕ) : ℚ) = fin 1
  simp

@[simp] theorem neg_fin (a : ℚ) : -(fin a) = fin (-a) := rfl
@[simp] theorem neg_nan : -(nan) = nan := rfl
@[simp] theorem fin_add_fin (a b : ℚ) : fin a + fin b = fin (a + b) := rfl
@[simp] theorem fin_sub_fin (a b : ℚ) : fin a - fin b = fin (a - b) := by
  show add (fin a) (neg (fin b)) = _
  simp [add, neg, sub_eq_add_neg]
@[simp] theorem fin_mul_fin (a b : ℚ) : fin a * fin b = fin (a * b) := rfl
@[simp] theorem abs_fin (a : ℚ) : JSNum.abs (fin a) = fin |a| := rfl
@[simp] theorem floor_fin (a : ℚ) : JSNum.floor (fin a) = fin (⌊a⌋ : ℤ) := rfl
@[simp] theorem mathRound_fin (a : ℚ) :
    JSNum.mathRound (fin a) = fin (⌊a + 1 / 2⌋ : ℤ) := rfl
@[simp] theorem min_fin (a b : ℚ) : JSNum.min (fin a) (fin b) = fin (Min.min a b) := rfl
@[simp] theorem lt_fin (a b : ℚ) : JSNum.lt (fin a) (fin b) = decide (a < b) := rfl
@[simp] theorem eq_fin (a b : ℚ) : JSNum.eq (fin a) (fin b) = decide (a = b) := rfl

theorem fin_div_fin (a b : ℚ) (hb : b ≠ 0) : fin a / fin b = fin (a / b) := by
  show div (fin a) (fin b) = _
  simp [div, hb]

theorem fin_mod_fin (a b : ℚ) (hb : b ≠ 0) :
    fin a % fin b = fin (a - b * (truncQ (a / b) : ℚ)) := by
  show mod (fin a) (fin b) = _
  simp [mod, hb]

@[simp] theorem eq_fin_pinf (a : ℚ) : JSNum.eq (fin a) pinf = false := rfl
@[simp] theorem eq_fin_ninf (a : ℚ) : JSNum.eq (fin a) ninf = false := rfl
@[simp] theorem eq_nan_left (x : JSNum) : JSNum.eq nan x = false := rfl
@[simp] theorem floor_nan : JSNum.floor nan = nan := rfl
@[simp] theorem nan_mul (x : JSNum) : nan * x = nan := by cases x <;> rfl
@[simp] theorem mul_nan (x : JSNum) : x * nan = nan := by cases x <;> rfl
@[simp] theorem nan_div (x : JSNum) : nan / x = nan := by cases x <;> rfl
@[simp] theorem div_nan (x : JSNum) : x / nan = nan := by cases x <;> rfl

theorem truncQ_of_nonneg (q : ℚ) (h : 0 ≤ q) : truncQ q = ⌊q⌋ := by
  simp [truncQ, h]

end JSNum

/-! ## Direction vector: C3 -/

theorem round_fin (c : ℚ) : round (fin c) = fin ((⌊c * 10000 + 1 / 2⌋ : ℤ) / 10000) := by
  simp [round, fin_div_fin]

theorem round_abs_le (c : ℚ) (hc : |c| ≤ 1) : |((⌊c * 10000 + 1 / 2⌋ : ℤ) : ℚ) / 10000| ≤ 1 := by
  rw [abs_le] at hc ⊢
  obtain ⟨h1, h2⟩ := hc
  have hlo : (-10000 : ℤ) ≤ ⌊c * 10000 + 1 / 2⌋ := by
    rw [Int.le_floor]; push_cast; linarith
  have hhi : ⌊c * 10000 + 1 / 2⌋ ≤ (10000 : ℤ) := by
    have : ⌊c * 10000 + 1 / 2⌋ < (10000 : ℤ) + 1 := by
      rw [Int.floor_lt]; push_cast; linarith
    omega
  have hlo' : (-10000 : ℚ) ≤ ((⌊c * 10000 + 1 / 2⌋ : ℤ) : ℚ) := by exact_mod_cast hlo
  have hhi' : ((⌊c * 10000 + 1 / 2⌋ : ℤ) : ℚ) ≤ 10000 := by exact_mod_cast hhi
  constructor
  · rw [le_div_iff₀ (by norm_num)]; linarith
  · rw [div_le_iff₀ (by norm_num)]; linarith

/-- The adjusted component: `p + (p < 0 ? -a : a)` has magnitude `|p| + a`. -/
theorem abs_adjust (p a : ℚ) (ha : 0 ≤ a) :
    |p + (if p < 0 then -a else a)| = |p| + a := by
  split_ifs with h
  · rw [abs_of_neg h, abs_of_nonpos (by linarith)]; ring
  · push_neg at h
    rw [abs_of_nonneg h, abs_of_nonneg (by linarith)]

/-- C3. For every angle whose cosine and sine are finite values in `[-1,1]`,
`calculateDirectionVector` returns finite components `x`, `y` with
`max(|x|,|y|) = 1`, `|x| ≤ 1`, `|y| ≤ 1`, and an integer `itterations ≥ 1` equal
to `floor(1 / min(|x|,|y|))` when that minimum is positive and to `1` when it
is `0`. -/
theorem calculateDirectionVector_unit (cos sin : JSNum → JSNum) (direction : JSNum) (c s : ℚ)
    (hc : cos (mathPI / 180 * direction) = fin c) (hs : sin (mathPI / 180 * direction) = fin s)
    (hc1 : |c| ≤ 1) (hs1 : |s| ≤ 1) :
    ∃ x y : ℚ, ∃ k : ℤ,
      calculateDirectionVector cos sin direction = ⟨fin x, fin y, fin k⟩ ∧
      max |x| |y| = 1 ∧ |x| ≤ 1 ∧ |y| ≤ 1 ∧ 1 ≤ k ∧
      (0 < min |x| |y| → k = ⌊1 / min |x| |y|⌋) ∧ (min |x| |y| = 0 → k = 1) := by
  set px : ℚ := ((⌊c * 10000 + 1 / 2⌋ : ℤ) : ℚ) / 10000 with hpx
  set py : ℚ := ((⌊s * 10000 + 1 / 2⌋ : ℤ) : ℚ) / 10000 with hpy
  have hpx1 : |px| ≤ 1 := round_abs_le c hc1
  have hpy1 : |py| ≤ 1 := round_abs_le s hs1
  set a : ℚ := min (1 - |px|) (1 - |py|) with ha
  have ha0 : 0 ≤ a := le_min (by linarith) (by linarith)
  set x : ℚ := px + (if px < 0 then -a else a) with hx
  set y : ℚ := py + (if py < 0 then -a else a) with hy
  have hax : |x| = |px| + a := abs_adjust px a ha0
  have hay : |y| = |py| + a := abs_adjust py a ha0
  have hmax : max |x| |y| = 1 := by
    rw [hax, hay, ha]
    rcases le_total |px| |py| with h | h
    · rw [max_eq_right (by linarith), min_eq_right (by linarith)]; ring
    · rw [max_eq_left (by linarith), min_eq_left (by linarith)]; ring
  have hx1 : |x| ≤ 1 := hmax ▸ le_max_left _ _
  have hy1 : |y| ≤ 1 := hmax ▸ le_max_right _ _
  have hm0 : 0 ≤ min |x| |y| := le_min (abs_nonneg _) (abs_nonneg _)
  have hm1 : min |x| |y| ≤ 1 := le_trans (min_le_left _ _) hx1
  have hval : calculateDirectionVector cos sin direction =
      ⟨fin x, fin y,
        if min |x| |y| = 0 then fin 1 else fin ((⌊1 / min |x| |y|⌋ : ℤ) : ℚ)⟩ := by
    simp only [calculateDirectionVector, hc, hs, round_fin]
    simp only [one_eq_fin, zero_eq_fin, abs_fin, fin_sub_fin, min_fin, lt_fin, neg_fin,
      decide_eq_true_eq, apply_ite fin, ← hpx, ← hpy, ← ha]
    have e1 : (fin px + if px < 0 then fin (-a) else fin a) = fin x := by
      rw [hx]; split_ifs <;> rfl
    have e2 : (fin py + if py < 0 then fin (-a) else fin a) = fin y := by
      rw [hy]; split_ifs <;> rfl
    rw [e1, e2]
    simp only [abs_fin, min_fin]
    by_cases hm : min |x| |y| = 0
    · simp [hm, HDiv.hDiv, Div.div, JSNum.div, signedInf, JSNum.floor, JSNum.eq]
    · rw [fin_div_fin _ _ hm]
      simp [hm, JSNum.eq]
  by_cases hm : min |x| |y| = 0
  · refine ⟨x, y, 1, ?_, hmax, hx1, hy1, le_refl _, ?_, fun _ => rfl⟩
    · rw [hval, if_pos hm]; simp
    · intro h; rw [hm] at h; exact absurd h (lt_irrefl _)
  · have hpos : 0 < min |x| |y| := lt_of_le_of_ne hm0 (Ne.symm hm)
    refine ⟨x, y, ⌊1 / min |x| |y|⌋, ?_, hmax, hx1, hy1, ?_, fun _ => rfl, fun h => absurd h hm⟩
    · rw [hval, if_neg hm]
    · rw [Int.le_floor]
      push_cast
      rw [le_div_iff₀ hpos]
      linarith

/-- Witness of C3 at angle 0 (cosine 1, sine 0). -/
theorem calculateDirectionVector_unit_witness :
    ∃ x y : ℚ, ∃ k : ℤ,
      calculateDirectionVector (fun _ => fin 1) (fun _ => fin 0) (fin 0) = ⟨fin x, fin y, fin k⟩ ∧
      max |x| |y| = 1 ∧ |x| ≤ 1 ∧ |y| ≤ 1 ∧ 1 ≤ k ∧
      (0 < min |x| |y| → k = ⌊1 / min |x| |y|⌋) ∧ (min |x| |y| = 0 → k = 1) :=
  calculateDirectionVector_unit (fun _ => fin 1) (fun _ => fin 0) (fin 0) 1 0 rfl rfl
    (by norm_num) (by norm_num)

/-! ## Destination of one axis: C1 -/

/-- C1 (failing input). At 200 degrees (cosine -0.93969262, sine -0.34202014)
the direction vector is `(-1, -0.4023)` with 2 iterations; for a tile 100 px
high starting at offset 0 the y destination is -262, and 262 is not a multiple
of 100. -/
theorem destinationAxis_negative_direction :
    calculateDirectionVector (fun _ => fin (-93969262 / 100000000))
        (fun _ => fin (-34202014 / 100000000)) (fin 200)
      = ⟨fin (-1), fin (-4023 / 10000), fin 2⟩ ∧
    destinationAxis (fin (-4023 / 10000)) (fin 100) (fin 2) (fin 0) = fin (-262) ∧
    ¬ ∃ k : ℤ, |(-262 : ℚ) - 0| = (k : ℚ) * 100 := by
  refine ⟨?_, ?_, ?_⟩
  · simp [calculateDirectionVector, round, fin_div_fin]
    norm_num [fin_div_fin, abs_of_pos]
  · simp [destinationAxis, getNormalizer]
    norm_num [fin_mod_fin, truncQ]
  · rintro ⟨k, hk⟩
    have h : (262 : ℤ) = k * 100 := by
      have : |(-262 : ℚ) - 0| = 262 := by norm_num
      rw [this] at hk
      exact_mod_cast hk
    omega

/-! ## The join of the image probes: C2 -/

theorem tryStartAnimation_destinations (p : Plan) (duration : List Char) :
    (tryStartAnimation p duration).destinations = p.destinations := by
  unfold tryStartAnimation
  split_ifs <;> rfl

theorem tryStartAnimation_of_mem (p : Plan) (duration : List Char)
    (h : [] ∈ p.destinations) : tryStartAnimation p duration = p := by
  unfold tryStartAnimation
  rw [if_pos]
  simpa using h

theorem tryStartAnimation_of_not_mem (p : Plan) (duration : List Char)
    (h : [] ∉ p.destinations) :
    (tryStartAnimation p duration).styleIndex = p.styleIndex + 1 ∧
    (tryStartAnimation p duration).classes
      = p.classes ++ ["everlax".toList ++ natToText p.styleIndex] ∧
    (tryStartAnimation p duration).sheet.length = p.sheet.length + 7 := by
  unfold tryStartAnimation
  rw [if_neg (by simpa using h)]
  refine ⟨rfl, rfl, ?_⟩
  simp only [vendors, List.foldl, List.length_cons]

/-- Every settlement writes a non-empty destination into its slot and then
calls `tryStartAnimation` on the updated arrays. -/
theorem onImage_eq (render : ℚ → List Char) (env : Env) (p : Plan)
    (image : Option Size) (index : Nat) :
    ∃ sp v, v ≠ [] ∧
      onImage render env p image index
        = tryStartAnimation
            { p with startPoints := sp, destinations := p.destinations.set index v }
            env.duration := by
  cases image with
  | none => exact ⟨p.startPoints, defaultCoords, by decide, rfl⟩
  | some im =>
    refine ⟨_, _, ?_, rfl⟩
    simp

theorem settleAll_append (render : ℚ → List Char) (env : Env) (p : Plan)
    (es : List (Nat × Option Size)) (e : Nat × Option Size) :
    settleAll render env p (es ++ [e])
      = onImage render env (settleAll render env p es) e.2 e.1 := by
  simp [settleAll, List.foldl_append]

/-- A slot is still empty after a run of settlements exactly when it was empty
before and none of them was for that layer. -/
theorem settleAll_slot_empty (render : ℚ → List Char) (env : Env)
    (events : List (Nat × Option Size)) :
    ∀ (p : Plan) (i : Nat),
      (settleAll render env p events).destinations[i]? = some [] ↔
        (p.destinations[i]? = some [] ∧ i ∉ events.map Prod.fst) := by
  induction events with
  | nil => intro p i; simp [settleAll]
  | cons e es ih =>
    intro p i
    have hstep : settleAll render env p (e :: es)
        = settleAll render env (onImage render env p e.2 e.1) es := rfl
    rw [hstep, ih]
    obtain ⟨sp, v, hv, hq⟩ := onImage_eq render env p e.2 e.1
    rw [hq, tryStartAnimation_destinations]
    simp only [List.map_cons, List.mem_cons, not_or]
    by_cases hi : e.1 = i
    · subst hi
      constructor
      · rintro ⟨h, _⟩
        rw [List.getElem?_set_self'] at h
        cases hd : p.destinations[e.1]? with
        | none => rw [hd] at h; simp at h
        | some d => rw [hd] at h; simp at h; exact absurd h hv
      · rintro ⟨_, h, _⟩; exact absurd rfl h
    · rw [List.getElem?_set_ne hi]
      constructor
      · rintro ⟨h1, h2⟩; exact ⟨h1, fun h => hi h.symm, h2⟩
      · rintro ⟨h1, _, h2⟩; exact ⟨h1, h2⟩

/-- While some slot is empty and not among the settlements, nothing is emitted. -/
theorem settleAll_quiet (render : ℚ → List Char) (env : Env)
    (events : List (Nat × Option Size)) :
    ∀ (p : Plan) (i : Nat), p.destinations[i]? = some [] → i ∉ events.map Prod.fst →
      (settleAll render env p events).styleIndex = p.styleIndex ∧
      (settleAll render env p events).sheet = p.sheet ∧
      (settleAll render env p events).classes = p.classes := by
  induction events with
  | nil => intro p i _ _; simp [settleAll]
  | cons e es ih =>
    intro p i hp hi
    have hstep : settleAll render env p (e :: es)
        = settleAll render env (onImage render env p e.2 e.1) es := rfl
    simp only [List.map_cons, List.mem_cons, not_or] at hi
    have hslot := (settleAll_slot_empty render env [e] p i).2 ⟨hp, by simpa using hi.1⟩
    have hone : settleAll render env p [e] = onImage render env p e.2 e.1 := rfl
    rw [hone] at hslot
    rw [hstep]
    obtain ⟨h1, h2, h3⟩ := ih _ i hslot hi.2
    rw [h1, h2, h3]
    obtain ⟨sp, v, hv, hq⟩ := onImage_eq render env p e.2 e.1
    rw [hq] at hslot ⊢
    rw [tryStartAnimation_destinations] at hslot
    rw [tryStartAnimation_of_mem _ _ (List.getElem?_mem hslot)]
    exact ⟨rfl, rfl, rfl⟩

theorem initialPlan_slot (n styleIndex : Nat) (sheet classes : List (List Char)) (i : Nat) :
    (initialPlan n styleIndex sheet classes).destinations[i]? = some [] ↔ i < n := by
  simp [initialPlan, List.getElem?_replicate]

theorem not_mem_take_of_nodup {l : List Nat} (hl : l.Nodup) (k : Nat) (hk : k < l.length) :
    l[k] ∉ l.take k := by
  intro hmem
  obtain ⟨j, hj, hjk⟩ := List.getElem_of_mem hmem
  rw [List.getElem_take] at hjk
  have hjlt : j < k := by
    have := hj
    rw [List.length_take] at this
    omega
  have := (@List.Nodup.getElem_inj_iff _ l hl j (by omega) k hk).1 hjk
  omega

/-- C2. Join barrier: for `n ≥ 1` layers whose probes settle in any order (the
indices of `events` are a permutation of `0..n-1`, each outcome a success or a
failure), nothing is emitted after any `k < n` settlements (counter, sheet and
classes are untouched), and after all `n` exactly one animation has been
emitted (counter advanced by one, one class applied, seven rules inserted)
with no empty destination slot; and `tryStartAnimation` never emits while a
destination slot is the empty string. -/
theorem join_barrier (render : ℚ → List Char) (env : Env) (n : Nat) (hn : 1 ≤ n)
    (styleIndex : Nat) (sheet classes : List (List Char))
    (events : List (Nat × Option Size))
    (hperm : (events.map Prod.fst).Perm (List.range n)) :
    (∀ k, k < n →
      (settleAll render env (initialPlan n styleIndex sheet classes)
          (events.take k)).styleIndex = styleIndex ∧
      (settleAll render env (initialPlan n styleIndex sheet classes)
          (events.take k)).sheet = sheet ∧
      (settleAll render env (initialPlan n styleIndex sheet classes)
          (events.take k)).classes = classes) ∧
    (settleAll render env (initialPlan n styleIndex sheet classes) events).styleIndex
      = styleIndex + 1 ∧
    (settleAll render env (initialPlan n styleIndex sheet classes) events).classes
      = classes ++ ["everlax".toList ++ natToText styleIndex] ∧
    (settleAll render env (initialPlan n styleIndex sheet classes) events).sheet.length
      = sheet.length + 7 ∧
    [] ∉ (settleAll render env (initialPlan n styleIndex sheet classes) events).destinations ∧
    (∀ (p : Plan) (duration : List Char),
      [] ∈ p.destinations → tryStartAnimation p duration = p) := by
  have hlen : events.length = n := by
    have := hperm.length_eq
    simpa using this
  have hnodup : (events.map Prod.fst).Nodup := hperm.nodup_iff.2 (List.nodup_range n)
  have hquiet : ∀ k, k < n →
      (settleAll render env (initialPlan n styleIndex sheet classes)
          (events.take k)).styleIndex = styleIndex ∧
      (settleAll render env (initialPlan n styleIndex sheet classes)
          (events.take k)).sheet = sheet ∧
      (settleAll render env (initialPlan n styleIndex sheet classes)
          (events.take k)).classes = classes := by
    intro k hk
    have hk' : k < (events.map Prod.fst).length := by simpa [hlen] using hk
    have hnot := not_mem_take_of_nodup hnodup k hk'
    have hin : (events.map Prod.fst)[k] < n := by
      have : (events.map Prod.fst)[k] ∈ List.range n :=
        hperm.subset (List.getElem_mem _)
      simpa using this
    rw [← List.map_take] at hnot
    exact settleAll_quiet render env (events.take k) _ _
      ((initialPlan_slot n styleIndex sheet classes _).2 hin) hnot
  have hfull : [] ∉
      (settleAll render env (initialPlan n styleIndex sheet classes) events).destinations := by
    intro hmem
    obtain ⟨i, hi⟩ := List.mem_iff_getElem?.1 hmem
    obtain ⟨h0, hni⟩ := (settleAll_slot_empty render env events _ i).1 hi
    have : i ∈ List.range n := by simpa using (initialPlan_slot n styleIndex sheet classes i).1 h0
    exact hni (hperm.symm.subset this)
  have hne : events ≠ [] := by
    intro h; rw [h] at hlen; simp at hlen; omega
  have hsplit : events = events.take (n - 1) ++ [events.getLast hne] := by
    conv_lhs => rw [← List.dropLast_append_getLast hne]
    rw [List.dropLast_eq_take, hlen]
  obtain ⟨q1, q2, q3⟩ := hquiet (n - 1) (by omega)
  have hrun := settleAll_append render env (initialPlan n styleIndex sheet classes)
    (events.take (n - 1)) (events.getLast hne)
  rw [← hsplit] at hrun
  obtain ⟨sp, v, _, hq⟩ := onImage_eq render env
    (settleAll render env (initialPlan n styleIndex sheet classes) (events.take (n - 1)))
    (events.getLast hne).2 (events.getLast hne).1
  rw [hq] at hrun
  rw [hrun, tryStartAnimation_destinations] at hfull
  obtain ⟨e1, e2, e3⟩ := tryStartAnimation_of_not_mem _ env.duration hfull
  refine ⟨hquiet, ?_, ?_, ?_, ?_, fun p d h => tryStartAnimation_of_mem p d h⟩
  · rw [hrun, e1]; simp [q1]
  · rw [hrun, e2]; simp [q1, q3]
  · rw [hrun, e3]; simp [q2]
  · rw [hrun, tryStartAnimation_destinations]; exact hfull

/-- Witness of C2: two layers, the second probe fails first, then the first
loads with a natural size of 100 by 100 in a 300 by 300 element. -/
theorem join_barrier_witness :
    1 ≤ 2 ∧
    (List.map Prod.fst [((1 : Nat), (none : Option Size)), (0, some ⟨fin 100, fin 100⟩)]).Perm
        (List.range 2) ∧
    (settleAll (fun _ => []) ⟨[], [], ⟨fin 300, fin 300⟩, ⟨fin 0, fin 1, fin 1⟩, "10s".toList⟩
        (initialPlan 2 1 [] [])
        [(1, none), (0, some ⟨fin 100, fin 100⟩)]).styleIndex = 1 + 1 :=
  ⟨by decide, by decide,
   (join_barrier (fun _ => []) ⟨[], [], ⟨fin 300, fin 300⟩, ⟨fin 0, fin 1, fin 1⟩, "10s".toList⟩
      2 (by decide) 1 [] [] [(1, none), (0, some ⟨fin 100, fin 100⟩)] (by decide)).2.1⟩

/-! ## Decimal text and its parsers -/

theorem digitChar_facts (d : Nat) (h : d < 10) :
    digitValue 10 (digitChar d) = some d ∧ isWhiteSpace (digitChar d) = false ∧
    digitChar d ≠ '-' ∧ digitChar d ≠ '+' ∧ digitChar d ≠ 'x' ∧ digitChar d ≠ 'X' ∧
    digitChar d ≠ 'I' ∧ digitChar d ≠ 'm' ∧ digitChar d ≠ 'M' := by
  interval_cases d <;> decide

theorem digitsToNat_append (ds : List Nat) (d : Nat) :
    digitsToNat 10 (ds ++ [d]) = digitsToNat 10 ds * 10 + d := by
  simp [digitsToNat, List.foldl_append]

theorem natDigits_eq_map (fuel : Nat) :
    ∀ n, n < fuel → ∃ ds : List Nat, natDigits fuel n = ds.map digitChar ∧ ds ≠ [] ∧
      (∀ d ∈ ds, d < 10) ∧ digitsToNat 10 ds = n := by
  induction fuel with
  | zero => intro n h; omega
  | succ f ih =>
    intro n h
    by_cases hn : n < 10
    · refine ⟨[n], ?_, by simp, by simpa using hn, by simp [digitsToNat]⟩
      simp [natDigits, hn]
    · obtain ⟨ds, h1, h2, h3, h4⟩ := ih (n / 10) (by omega)
      refine ⟨ds ++ [n % 10], ?_, by simp, ?_, ?_⟩
      · simp [natDigits, hn, h1]
      · intro d hd
        rcases List.mem_append.1 hd with hd | hd
        · exact h3 d hd
        · simp at hd; omega
      · rw [digitsToNat_append, h4]; omega

theorem natToText_eq_map (n : Nat) :
    ∃ ds : List Nat, natToText n = ds.map digitChar ∧ ds ≠ [] ∧
      (∀ d ∈ ds, d < 10) ∧ digitsToNat 10 ds = n :=
  natDigits_eq_map (n + 1) n (by omega)

theorem leadingDigits_append (ds : List Nat) (hds : ∀ d ∈ ds, d < 10) (rest : List Char) :
    leadingDigits 10 (ds.map digitChar ++ rest) = ds ++ leadingDigits 10 rest := by
  induction ds with
  | nil => rfl
  | cons d ds ih =>
    have hd := (digitChar_facts d (hds d (by simp))).1
    simp only [List.map_cons, List.cons_append, leadingDigits, hd]
    exact congrArg (List.cons d) (ih (fun x hx => hds x (by simp [hx])))

theorem stripHexPrefix_of (s : List Char)
    (h : ∀ c0 c1 r, s = c0 :: c1 :: r → c1 ≠ 'x' ∧ c1 ≠ 'X') : stripHexPrefix s = (10, s) := by
  match s, h with
  | [], _ => rfl
  | [_], _ => rfl
  | c0 :: c1 :: r, h =>
    obtain ⟨h1, h2⟩ := h c0 c1 r rfl
    simp [stripHexPrefix, h1, h2]

/-- The shape of a rendered natural followed by text that does not start with
`x` or `X`: the second character is never one of them. -/
theorem second_char_not_x (ds : List Nat) (hne : ds ≠ []) (hds : ∀ d ∈ ds, d < 10)
    (rest : List Char)
    (hrest : ∀ c r, rest = c :: r → c ≠ 'x' ∧ c ≠ 'X') :
    ∀ c0 c1 r, ds.map digitChar ++ rest = c0 :: c1 :: r → c1 ≠ 'x' ∧ c1 ≠ 'X' := by
  intro c0 c1 r h
  match ds, hne, hds, h with
  | [d], _, _, h =>
    simp at h
    exact hrest c1 r h.2
  | d :: d' :: ds', _, hds, h =>
    simp at h
    have := digitChar_facts d' (hds d' (by simp))
    rw [← h.2.1]
    exact ⟨this.2.2.2.2.1, this.2.2.2.2.2.1⟩

theorem dropWhile_head_false {p : Char → Bool} (c : Char) (r : List Char) (h : p c = false) :
    (c :: r).dropWhile p = c :: r := by
  simp [List.dropWhile, h]

theorem stripSign_of (c : Char) (r : List Char) (h1 : c ≠ '-') (h2 : c ≠ '+') :
    stripSign (c :: r) = (false, c :: r) := by
  simp [stripSign, h1, h2]

/-- The function `parseInt` reads back a run of decimal digits that is followed by text
starting with neither a digit nor `x`. -/
theorem parseInt_digits (ds : List Nat) (hne : ds ≠ []) (hds : ∀ d ∈ ds, d < 10)
    (rest : List Char) (hrest : leadingDigits 10 rest = [])
    (hx : ∀ c r, rest = c :: r → c ≠ 'x' ∧ c ≠ 'X') :
    parseInt (ds.map digitChar ++ rest) = fin (digitsToNat 10 ds) := by
  obtain ⟨d, ds', rfl⟩ := List.exists_cons_of_ne_nil hne
  have hd := digitChar_facts d (hds d (by simp))
  have hhex := stripHexPrefix_of _ (second_char_not_x (d :: ds') hne hds rest hx)
  have hlead := leadingDigits_append (d :: ds') hds rest
  simp only [List.map_cons, List.cons_append] at hhex hlead
  unfold parseInt
  simp only [List.map_cons, List.cons_append]
  rw [dropWhile_head_false _ _ hd.2.1, stripSign_of _ _ hd.2.2.1 hd.2.2.2.1]
  simp only [hhex, hlead, hrest]
  simp

theorem parseInt_neg_digits (ds : List Nat) (hne : ds ≠ []) (hds : ∀ d ∈ ds, d < 10)
    (rest : List Char) (hrest : leadingDigits 10 rest = [])
    (hx : ∀ c r, rest = c :: r → c ≠ 'x' ∧ c ≠ 'X') :
    parseInt ('-' :: (ds.map digitChar ++ rest)) = fin (-(digitsToNat 10 ds : ℚ)) := by
  obtain ⟨d, ds', rfl⟩ := List.exists_cons_of_ne_nil hne
  have hhex := stripHexPrefix_of _ (second_char_not_x (d :: ds') hne hds rest hx)
  have hlead := leadingDigits_append (d :: ds') hds rest
  simp only [List.map_cons, List.cons_append] at hhex hlead
  unfold parseInt
  simp only [List.map_cons, List.cons_append]
  rw [dropWhile_head_false _ _ (by decide)]
  simp only [stripSign, if_true, hhex, hlead, hrest]
  simp

/-- The function `parseInt` reads the decimal text of an integer back, whatever follows it,
as long as that starts with neither a digit nor `x`. -/
theorem parseInt_intToText (N : ℤ) (rest : List Char) (hrest : leadingDigits 10 rest = [])
    (hx : ∀ c r, rest = c :: r → c ≠ 'x' ∧ c ≠ 'X') :
    parseInt (intToText N ++ rest) = fin (N : ℚ) := by
  cases N with
  | ofNat n =>
    obtain ⟨ds, h1, h2, h3, h4⟩ := natToText_eq_map n
    simp only [intToText, h1]
    rw [parseInt_digits ds h2 h3 rest hrest hx, h4]
    simp
  | negSucc n =>
    obtain ⟨ds, h1, h2, h3, h4⟩ := natToText_eq_map (n + 1)
    simp only [intToText, h1, List.cons_append]
    rw [parseInt_neg_digits ds h2 h3 rest hrest hx, h4]
    simp [Int.negSucc_eq]

/-! ## Unit resolution on exact values -/

/-- Text that neither starts nor ends with white space is a fixed point of `trim`. -/
theorem trim_eq_self (s : List Char)
    (hhead : ∀ c, s.head? = some c → isWhiteSpace c = false)
    (hlast : ∀ c, s.getLast? = some c → isWhiteSpace c = false) : trim s = s := by
  cases s with
  | nil => rfl
  | cons a t =>
    unfold trim
    rw [dropWhile_head_false a t (hhead a rfl)]
    cases hr : (a :: t).reverse with
    | nil => simp at hr
    | cons b u =>
      have hb : (a :: t).getLast? = some b := by
        rw [← List.head?_reverse, hr]; rfl
      rw [dropWhile_head_false b u (hlast b hb), ← hr, List.reverse_reverse]

theorem intToText_head (N : ℤ) :
    ∃ c r, intToText N = c :: r ∧ isWhiteSpace c = false := by
  cases N with
  | ofNat n =>
    obtain ⟨ds, h1, h2, h3, _⟩ := natToText_eq_map n
    obtain ⟨d, ds', rfl⟩ := List.exists_cons_of_ne_nil h2
    exact ⟨digitChar d, ds'.map digitChar, by simp [intToText, h1],
      (digitChar_facts d (h3 d (by simp))).2.1⟩
  | negSucc n => exact ⟨'-', natToText (n + 1), rfl, by decide⟩

/-- The decimal text of an integer followed by a unit that ends in a visible
character is already trimmed. -/
theorem trim_intToText_append (N : ℤ) (u : List Char) (c : Char)
    (hc : isWhiteSpace c = false) : trim (intToText N ++ (u ++ [c])) = intToText N ++ (u ++ [c]) := by
  apply trim_eq_self
  · obtain ⟨a, r, h, ha⟩ := intToText_head N
    intro x hx
    rw [h] at hx
    simp at hx
    rw [← hx]; exact ha
  · intro x hx
    rw [← List.append_assoc, List.getLast?_append] at hx
    simp at hx
    rw [← hx]; exact hc

theorem endsWith_append (s suffix : List Char) : endsWith (s ++ suffix) suffix = true := by
  simp [endsWith]

theorem calcUnit_px (N : ℤ) (len cont : JSNum) :
    calcUnit (some (intToText N ++ "px".toList)) len cont = fin (N : ℚ) := by
  have ht : trim (intToText N ++ "px".toList) = intToText N ++ "px".toList :=
    trim_intToText_append N ['p'] 'x' (by decide)
  have hp : parseInt (intToText N ++ "px".toList) = fin (N : ℚ) :=
    parseInt_intToText N _ (by decide) (by intro c r h; cases h; decide)
  unfold calcUnit
  simp only [Option.getD_some, ht, hp, endsWith_append, if_true]
  simp

theorem calcUnit_percent (N : ℤ) (len : JSNum) (cont : ℚ) :
    calcUnit (some (intToText N ++ "%".toList)) len (fin cont)
      = fin ((⌊cont * N / 100⌋ : ℤ) : ℚ) := by
  have ht : trim (intToText N ++ "%".toList) = intToText N ++ "%".toList :=
    trim_intToText_append N [] '%' (by decide)
  have hp : parseInt (intToText N ++ "%".toList) = fin (N : ℚ) :=
    parseInt_intToText N _ (by decide) (by intro c r h; cases h; decide)
  have he : endsWith (intToText N ++ "%".toList) "px".toList = false := by
    simp [endsWith]
  unfold calcUnit
  simp only [Option.getD_some, ht, hp, he, endsWith_append, if_true]
  simp [fin_div_fin, mul_div_assoc]

theorem calcUnit_center (len cont : ℚ) :
    calcUnit (some "center".toList) (fin len) (fin cont)
      = fin ((⌊cont / 2 - len / 2⌋ : ℤ) : ℚ) := by
  have ht : trim "center".toList = "center".toList := by decide
  have h1 : endsWith "center".toList "px".toList = false := by decide
  have h2 : endsWith "center".toList "%".toList = false := by decide
  unfold calcUnit
  simp only [Option.getD_some, ht, h1, h2]
  simp [fin_div_fin]

/-! ## Duration: C5, C6 -/

theorem parseFloat_natToText (n : Nat) (u : List Char) (hu : u ∈ durationUnits) :
    parseFloat (natToText n ++ u) = fin (n : ℚ) := by
  obtain ⟨ds, h1, h2, h3, h4⟩ := natToText_eq_map n
  obtain ⟨d, ds', rfl⟩ := List.exists_cons_of_ne_nil h2
  have hd := digitChar_facts d (h3 d (by simp))
  have hlead := leadingDigits_append (d :: ds') h3 u
  have hu0 : leadingDigits 10 u = [] := by
    simp only [durationUnits, List.mem_cons, List.mem_singleton, List.not_mem_nil, or_false] at hu
    rcases hu with rfl | rfl | rfl | rfl | rfl | rfl <;> decide
  rw [hu0, List.append_nil] at hlead
  have hdrop : (digitChar d :: (ds'.map digitChar ++ u)).drop (d :: ds').length = u := by
    have : (digitChar d :: (ds'.map digitChar ++ u)) = (d :: ds').map digitChar ++ u := rfl
    rw [this]
    have hl : (d :: ds').length = ((d :: ds').map digitChar).length := by simp
    rw [hl, List.drop_left]
  simp only [List.map_cons, List.cons_append] at hlead
  rw [h1]
  unfold parseFloat
  simp only [List.map_cons, List.cons_append, dropWhile_head_false _ _ hd.2.1,
    stripSign_of _ _ hd.2.2.1 hd.2.2.2.1]
  have hinf : ¬ ((digitChar d :: (ds'.map digitChar ++ u)).take 8 = "Infinity".toList) := by
    intro h
    have : (digitChar d :: (ds'.map digitChar ++ u)).take 8
        = digitChar d :: (ds'.map digitChar ++ u).take 7 := rfl
    rw [this] at h
    have h' : digitChar d = 'I' := (List.cons.inj h).1
    exact hd.2.2.2.2.2.2.1 h'
  simp only [hinf, if_false, hlead, hdrop]
  simp only [durationUnits, List.mem_cons, List.mem_singleton, List.not_mem_nil, or_false] at hu
  rcases hu with rfl | rfl | rfl | rfl | rfl | rfl <;>
    simp [exponentPart, h4]

theorem execDurationUnit_natToText (n : Nat) (u : List Char) (hu : u ∈ durationUnits) :
    execDurationUnit (natToText n ++ u) = some [u] := by
  obtain ⟨ds, h1, h2, h3, _⟩ := natToText_eq_map n
  have hrev : ∃ d r, d < 10 ∧ (natToText n).reverse = digitChar d :: r := by
    rw [h1, ← List.map_reverse]
    have hne : ds.reverse ≠ [] := by simpa using h2
    obtain ⟨d, r, hdr⟩ := List.exists_cons_of_ne_nil hne
    refine ⟨d, r.map digitChar, h3 d ?_, by rw [hdr]; rfl⟩
    have : d ∈ ds.reverse := by rw [hdr]; simp
    simpa using this
  obtain ⟨d, r, hd, hr⟩ := hrev
  have hm := digitChar_facts d hd
  unfold execDurationUnit
  simp only [durationUnits, List.mem_cons, List.mem_singleton, List.not_mem_nil, or_false] at hu
  rcases hu with rfl | rfl | rfl | rfl | rfl | rfl <;>
    simp [List.reverse_append, hr, hm.2.2.2.2.2.2.2.1, hm.2.2.2.2.2.2.2.2]

theorem trim_natToText_append (n : Nat) (u : List Char) (hu : u ∈ durationUnits) :
    trim (natToText n ++ u) = natToText n ++ u := by
  have h : ∃ v c, u = v ++ [c] ∧ isWhiteSpace c = false := by
    simp only [durationUnits, List.mem_cons, List.mem_singleton, List.not_mem_nil, or_false] at hu
    rcases hu with rfl | rfl | rfl | rfl | rfl | rfl
    · exact ⟨[], 's', rfl, by decide⟩
    · exact ⟨[], 'S', rfl, by decide⟩
    · exact ⟨['m'], 's', rfl, by decide⟩
    · exact ⟨['m'], 'S', rfl, by decide⟩
    · exact ⟨['M'], 's', rfl, by decide⟩
    · exact ⟨['M'], 'S', rfl, by decide⟩
  obtain ⟨v, c, rfl, hc⟩ := h
  exact trim_intToText_append (Int.ofNat n) v c hc

theorem numberToString_nat (render : ℚ → List Char) (m : Nat) (hm : m ≤ 2 ^ 53) :
    numberToString render (fin (m : ℚ)) = natToText m := by
  have h1 : ((m : ℚ)).den = 1 := Rat.den_natCast m
  have h2 : ((m : ℚ)).num = (m : ℤ) := Rat.num_natCast m
  simp only [numberToString, h1, h2, Int.natAbs_ofNat, hm, and_self, if_true]
  rfl

theorem execDurationUnit_none_iff (tok : List Char) :
    execDurationUnit tok = none ↔ ¬ (tok.getLast? = some 's' ∨ tok.getLast? = some 'S') := by
  rw [← List.head?_reverse]
  unfold execDurationUnit
  cases tok.reverse with
  | nil => simp
  | cons c rest =>
    by_cases hc : c = 's' ∨ c = 'S'
    · simp only [hc, if_true, List.head?_cons, Option.some.injEq, not_true_eq_false, iff_false]
      cases rest with
      | nil => simp
      | cons b r => by_cases hb : b = 'm' ∨ b = 'M' <;> simp [hb]
    · simp [hc]

theorem execDurationUnit_some (tok : List Char) (m : List (List Char))
    (h : execDurationUnit tok = some m) :
    ∃ u, m = [u] ∧ u ∈ durationUnits ∧ endsWith tok u = true := by
  unfold execDurationUnit at h
  unfold endsWith
  cases hrev : tok.reverse with
  | nil => rw [hrev] at h; simp at h
  | cons c rest =>
    rw [hrev] at h
    by_cases hc : c = 's' ∨ c = 'S'
    · simp only [hc, if_true] at h
      cases rest with
      | nil =>
        simp only [Option.some.injEq] at h
        refine ⟨[c], h.symm, ?_, by simp⟩
        rcases hc with rfl | rfl <;> decide
      | cons b r =>
        by_cases hb : b = 'm' ∨ b = 'M'
        · simp only [hb, if_true, Option.some.injEq] at h
          refine ⟨[b, c], h.symm, ?_, by simp⟩
          rcases hc with rfl | rfl <;> rcases hb with rfl | rfl <;> decide
        · simp only [hb, if_false, Option.some.injEq] at h
          refine ⟨[c], h.symm, ?_, by simp⟩
          rcases hc with rfl | rfl <;> decide
    · simp [hc] at h

/-- C5 (amended). `calculateDuration` validates the unit suffix only: the call
raises (and returns no duration string) exactly when the token does not end in
`s` or `S`; a token that does is accepted whatever its leading text, and the
string returned ends with the matched unit. -/
theorem calculateDuration_rejects_iff (render : ℚ → List Char) (tok : List Char) (k : JSNum) :
    ((∃ e, calculateDuration render tok k = .error e) ↔
      ¬ (tok.getLast? = some 's' ∨ tok.getLast? = some 'S')) ∧
    ((tok.getLast? = some 's' ∨ tok.getLast? = some 'S') →
      ∃ body u, calculateDuration render tok k = .ok (body ++ u) ∧ u ∈ durationUnits ∧
        endsWith tok u = true) := by
  have hnone := execDurationUnit_none_iff tok
  cases hex : execDurationUnit tok with
  | none =>
    have hno := hnone.1 hex
    refine ⟨⟨fun _ => hno, fun _ => ⟨JSError.typeError, ?_⟩⟩, fun h => absurd h hno⟩
    simp [calculateDuration, hex]
  | some m =>
    obtain ⟨u, rfl, hu, hend⟩ := execDurationUnit_some tok m hex
    have hyes : tok.getLast? = some 's' ∨ tok.getLast? = some 'S' := by
      by_contra hcon
      rw [hnone.2 hcon] at hex
      exact Option.noConfusion hex
    have hval : calculateDuration render tok k
        = .ok (numberToString render (parseFloatOrDefault tok * k) ++ u) := by
      simp [calculateDuration, hex]
    refine ⟨⟨?_, fun h => absurd hyes h⟩, fun _ => ⟨_, u, hval, hu, hend⟩⟩
    rintro ⟨e, he⟩
    rw [hval] at he
    exact Except.noConfusion he

/-- C5 (counterexample). `calculateDuration('bogus', 3)` raises nothing: the
token ends in `s`, so a duration string is returned. -/
theorem calculateDuration_bogus :
    calculateDuration (fun _ => []) "bogus".toList (fin 3) = .ok "NaNs".toList := by
  simp [calculateDuration, execDurationUnit, parseFloatOrDefault, trim, parseFloat, stripSign,
    leadingDigits, digitValue, isWhiteSpace, numberToString]

/-- C6 (failing input). `calculateDuration` never raises the explicit error
`everlax: invalid duration unit`; for the tokens `10` and `5min`, which have no
unit suffix, what is raised is the `TypeError` of reading `.length` of `null`. -/
theorem calculateDuration_explicit_error_unreachable :
    (∀ (render : ℚ → List Char) (tok : List Char) (k : JSNum),
      calculateDuration render tok k
        ≠ .error (JSError.thrown "everlax: invalid duration unit".toList)) ∧
    calculateDuration (fun _ => []) "10".toList (fin 4) = .error JSError.typeError ∧
    calculateDuration (fun _ => []) "5min".toList (fin 4) = .error JSError.typeError := by
  refine ⟨?_, by simp [calculateDuration, execDurationUnit],
    by simp [calculateDuration, execDurationUnit]⟩
  intro render tok k h
  cases hex : execDurationUnit tok with
  | none => simp [calculateDuration, hex] at h
  | some m =>
    obtain ⟨u, rfl, _, _⟩ := execDurationUnit_some tok m hex
    simp [calculateDuration, hex] at h

/-! ## Positions and sizes: C10 -/

theorem split_of_not_mem (sep : Char) (s : List Char) (h : sep ∉ s) : split sep s = [s] := by
  induction s with
  | nil => rfl
  | cons c cs ih =>
    have hc : c ≠ sep := fun e => h (by simp [e])
    have hcs : sep ∉ cs := fun e => h (by simp [e])
    simp [split, hc, ih hcs]

theorem split_append_sep (sep : Char) (a b : List Char) (h : sep ∉ a) :
    split sep (a ++ sep :: b) = a :: split sep b := by
  induction a with
  | nil => simp [split]
  | cons c cs ih =>
    have hc : c ≠ sep := fun e => h (by simp [e])
    have hcs : sep ∉ cs := fun e => h (by simp [e])
    simp [split, hc, ih hcs]

/-- C10 (failing input). With both axes explicit, pixel tokens resolve
(`10px 20px` gives 10 by 20) but percentage tokens do not: `50% 50%` for a
100 by 100 image in a 300 by 300 element gives `NaN` by `NaN`, not 150 by 150. -/
theorem calcSize_explicit_percent_nan :
    calcSize "10px 20px".toList ⟨fin 100, fin 100⟩ ⟨fin 300, fin 300⟩ = ⟨fin 10, fin 20⟩ ∧
    calcSize "50% 50%".toList ⟨fin 100, fin 100⟩ ⟨fin 300, fin 300⟩ = ⟨nan, nan⟩ ∧
    calcUnit (some "50%".toList) (fin 100) (fin 300) = fin 150 := by
  have s1 : split ' ' "10px 20px".toList = ["10px".toList, "20px".toList] := by decide
  have s2 : split ' ' "50% 50%".toList = ["50%".toList, "50%".toList] := by decide
  have n1 : ¬ ("10px".toList = "auto".toList) := by decide
  have n2 : ¬ ("20px".toList = "auto".toList) := by decide
  have n3 : ¬ ("50%".toList = "auto".toList) := by decide
  have u1 : calcUnit (some "10px".toList) nan nan = fin 10 := by
    have h := calcUnit_px 10 nan nan
    have e : intToText 10 ++ "px".toList = "10px".toList := by decide
    rw [e] at h; rw [h]; norm_num
  have u2 : calcUnit (some "20px".toList) nan nan = fin 20 := by
    have h := calcUnit_px 20 nan nan
    have e : intToText 20 ++ "px".toList = "20px".toList := by decide
    rw [e] at h; rw [h]; norm_num
  have u3 : calcUnit (some "50%".toList) nan nan = nan := by
    have t : trim "50%".toList = "50%".toList := by decide
    have e1 : endsWith "50%".toList "px".toList = false := by decide
    have e2 : endsWith "50%".toList "%".toList = true := by decide
    unfold calcUnit
    simp only [Option.getD_some, t, e1, e2, if_true, Bool.false_eq_true, if_false, nan_mul,
      floor_nan]
  refine ⟨?_, ?_, ?_⟩
  · unfold calcSize
    simp only [s1, List.getElem?_cons_zero, List.getElem?_cons_succ, Option.some.injEq, n1, n2,
      false_and, if_false, u1, u2]
  · unfold calcSize
    simp only [s2, List.getElem?_cons_zero, List.getElem?_cons_succ, Option.some.injEq, n3,
      false_and, if_false, u3]
  · have h := calcUnit_percent 50 (fin 100) 300
    have e : intToText 50 ++ "%".toList = "50%".toList := by decide
    rw [e] at h; rw [h]; norm_num

/-! ## Zero tile size: C11 -/

theorem getNormalizer_zero_zero : getNormalizer (fin 0) (fin 0) = nan := by
  simp [getNormalizer, HMod.hMod, Mod.mod, JSNum.mod, HSub.hSub, Sub.sub, JSNum.sub, JSNum.add,
    JSNum.neg, JSNum.abs, JSNum.eq]

theorem destinationAxis_size_zero (d it start : ℚ) :
    destinationAxis (fin d) (fin 0) (fin it) (fin start) = nan := by
  have h0 : JSNum.floor (fin d * fin 0 * fin it) = fin 0 := by simp
  have ht : (if JSNum.lt (fin d) 0 then -(fin 0) else fin 0) = fin 0 := by
    split_ifs <;> simp
  unfold destinationAxis
  simp only [h0, ht, getNormalizer_zero_zero]
  rfl

/-- C11 (amended). For every finite direction component, iteration count and
start offset, when the tile size of an axis is 0 the raw travel is 0 and
`getNormalizer(0, 0)` evaluates `0 % 0`: the normalizer is `NaN` and so is the
destination of that axis. -/
theorem destinationAxis_zero_size (d it start : ℚ) :
    JSNum.floor (fin d * fin 0 * fin it) = fin 0 ∧
    fin 0 % fin 0 = nan ∧
    getNormalizer (fin 0) (fin 0) = nan ∧
    destinationAxis (fin d) (fin 0) (fin it) (fin start) = nan := by
  refine ⟨by simp, rfl, getNormalizer_zero_zero, destinationAxis_size_zero d it start⟩

/-- C11 (counterexample). Direction 1, one iteration, tile size 0 and start
offset 5: the destination is `NaN`, not the start offset 5. -/
theorem destinationAxis_zero_size_nan :
    destinationAxis (fin 1) (fin 0) (fin 1) (fin 5) = nan ∧ (nan : JSNum) ≠ fin 5 := by
  refine ⟨destinationAxis_size_zero 1 1 5, by decide⟩

/-! ## Malformed unit tokens: C12 -/

/-- C12 (failing input). A token that ends in `px` or `%` without a number in
front resolves to `NaN`, in the current and in the legacy `calcUnit`; a token
with no recognised unit, such as `auto`, resolves to 0. -/
theorem calcUnit_malformed_nan :
    calcUnit (some "px".toList) (fin 0) (fin 200) = nan ∧
    calcUnit (some "abc%".toList) (fin 0) (fin 200) = nan ∧
    calcUnit (some "auto".toList) (fin 0) (fin 200) = fin 0 ∧
    Legacy.calcUnit (some "px".toList) (fin 0) (fin 200) = .ok nan ∧
    Legacy.calcUnit (some "abc%".toList) (fin 0) (fin 200) = .ok nan := by
  have t1 : trim "px".toList = "px".toList := by decide
  have t2 : trim "abc%".toList = "abc%".toList := by decide
  have t3 : trim "auto".toList = "auto".toList := by decide
  have p1 : parseInt "px".toList = nan := by decide
  have p2 : parseInt "abc%".toList = nan := by decide
  have e1 : endsWith "px".toList "px".toList = true := by decide
  have e2 : endsWith "abc%".toList "px".toList = false := by decide
  have e3 : endsWith "abc%".toList "%".toList = true := by decide
  have e4 : endsWith "auto".toList "px".toList = false := by decide
  have e5 : endsWith "auto".toList "%".toList = false := by decide
  have n1 : ¬ ("auto".toList = "center".toList) := by decide
  refine ⟨?_, ?_, ?_, ?_, ?_⟩
  · unfold calcUnit
    simp only [Option.getD_some, t1, p1, e1, if_true, floor_nan]
  · unfold calcUnit
    simp only [Option.getD_some, t2, p2, e2, e3, if_true, Bool.false_eq_true, if_false, nan_div,
      mul_nan, floor_nan]
  · unfold calcUnit
    simp only [Option.getD_some, t3, e4, e5, n1, Bool.false_eq_true, if_false]
    simp
  · unfold Legacy.calcUnit
    simp only [t1, p1, e1, if_true]
  · unfold Legacy.calcUnit
    simp only [t2, p2, e2, e3, if_true, Bool.false_eq_true, if_false, nan_div, mul_nan]

/-! ## No layers: C15 -/

/-- C15 (failing input). The strings `''` and `none` report no layers, but the
gradient `linear-gradient(red, blue)`, which holds no `url(...)` group, is cut
at its comma and reported as the one layer `linear-gradient(red`, by
`getBgImages` and by the legacy `parseBackground` alike. -/
theorem getBgImages_gradient :
    getBgImages "".toList = none ∧
    getBgImages "none".toList = none ∧
    getBgImages "linear-gradient(red, blue)".toList = some ["linear-gradient(red".toList] ∧
    Legacy.parseBackground "linear-gradient(red, blue)".toList "auto".toList "0% 0%".toList
      = some ⟨["linear-gradient(red".toList], ["auto".toList], ["0% 0%".toList], [[]]⟩ := by
  refine ⟨by decide, by decide, by decide, by decide⟩

/-! ## Keyword order: C18 -/

/-- C18. For every horizontal keyword `h` (left, right or center) and vertical
keyword `v` (top, bottom or center) the entries `v h` and `h v` have the same
normalised position: the token of `h`, a space, the token of `v`, where left
and top give `0%`, right and bottom give `100%` and center stays `center`. -/
theorem getBgPosition_keyword_order (h : HorizontalKeyword) (v : VerticalKeyword) :
    getBgPosition (v.text ++ " ".toList ++ h.text) 0
      = getBgPosition (h.text ++ " ".toList ++ v.text) 0 ∧
    getBgPosition (h.text ++ " ".toList ++ v.text) 0
      = normalizeUnit (some h.text) ++ " ".toList ++ normalizeUnit (some v.text) ∧
    normalizeUnit (some "left".toList) = "0%".toList ∧
    normalizeUnit (some "top".toList) = "0%".toList ∧
    normalizeUnit (some "right".toList) = "100%".toList ∧
    normalizeUnit (some "bottom".toList) = "100%".toList ∧
    normalizeUnit (some "center".toList) = "center".toList := by
  cases h <;> cases v <;> decide

/-! ## Default of a size entry: C19 -/

/-- C19 (failing input). A missing entry gives `auto auto` and a single token
gives the token followed by `auto`, but a blank or white-space entry gives
`0px auto`, which `calcSize` resolves to a size of 0 by 0. -/
theorem getBgSize_blank_entry :
    getBgSize "".toList 0 = "0px auto".toList ∧
    getBgSize "  ".toList 0 = "0px auto".toList ∧
    getBgSize "50%, ,auto".toList 1 = "0px auto".toList ∧
    getBgSize "50%".toList 1 = "auto auto".toList ∧
    getBgSize "50%".toList 0 = "50% auto".toList ∧
    calcSize "0px auto".toList ⟨fin 100, fin 100⟩ ⟨fin 300, fin 300⟩ = ⟨fin 0, fin 0⟩ := by
  refine ⟨by decide, by decide, by decide, by decide, by decide, ?_⟩
  have s : split ' ' "0px auto".toList = ["0px".toList, "auto".toList] := by decide
  have n : ¬ ("0px".toList = "auto".toList) := by decide
  have u : calcUnit (some "0px".toList) (fin 100) (fin 300) = fin 0 := by
    have h := calcUnit_px 0 (fin 100) (fin 300)
    have e : intToText 0 ++ "px".toList = "0px".toList := by decide
    rw [e] at h; rw [h]; norm_num
  unfold calcSize
  simp only [s, List.getElem?_cons_zero, List.getElem?_cons_succ, Option.some.injEq, n,
    false_and, if_false, if_true, u]
  simp [fin_div_fin]

/-! ## The keyword `center`: C20 -/

/-- C20 (failing input). In `calcPosition` the token `center` resolves to
`floor((container - image)/2 - image/2)` while `50%` resolves to
`floor((container - image) * 50 / 100)`: a 50 by 50 image in a 200 by 200
element is put at 50 by `center` and at 75 by `50%`. -/
theorem calcPosition_center_not_half (w h cw ch : ℚ) :
    calcPosition "center center".toList ⟨fin w, fin h⟩ ⟨fin cw, fin ch⟩
      = ⟨fin ((⌊(cw - w) / 2 - w / 2⌋ : ℤ) : ℚ), fin ((⌊(ch - h) / 2 - h / 2⌋ : ℤ) : ℚ)⟩ ∧
    calcPosition "50% 50%".toList ⟨fin w, fin h⟩ ⟨fin cw, fin ch⟩
      = ⟨fin ((⌊(cw - w) * 50 / 100⌋ : ℤ) : ℚ), fin ((⌊(ch - h) * 50 / 100⌋ : ℤ) : ℚ)⟩ ∧
    getBgPosition "center center".toList 0 = "center center".toList ∧
    calcPosition "center center".toList ⟨fin 50, fin 50⟩ ⟨fin 200, fin 200⟩ = ⟨fin 50, fin 50⟩ ∧
    calcPosition "50% 50%".toList ⟨fin 50, fin 50⟩ ⟨fin 200, fin 200⟩ = ⟨fin 75, fin 75⟩ := by
  have s1 : split ' ' "center center".toList = ["center".toList, "center".toList] := by decide
  have s2 : split ' ' "50% 50%".toList = ["50%".toList, "50%".toList] := by decide
  have e : intToText 50 ++ "%".toList = "50%".toList := by decide
  have c1 : ∀ a b c d : ℚ, calcPosition "center center".toList ⟨fin a, fin b⟩ ⟨fin c, fin d⟩
      = ⟨fin ((⌊(c - a) / 2 - a / 2⌋ : ℤ) : ℚ), fin ((⌊(d - b) / 2 - b / 2⌋ : ℤ) : ℚ)⟩ := by
    intro a b c d
    unfold calcPosition
    simp only [s1, List.getElem?_cons_zero, List.getElem?_cons_succ, fin_sub_fin, calcUnit_center]
  have c2 : ∀ a b c d : ℚ, calcPosition "50% 50%".toList ⟨fin a, fin b⟩ ⟨fin c, fin d⟩
      = ⟨fin ((⌊(c - a) * 50 / 100⌋ : ℤ) : ℚ), fin ((⌊(d - b) * 50 / 100⌋ : ℤ) : ℚ)⟩ := by
    intro a b c d
    have hx := calcUnit_percent 50 (fin a) (c - a)
    have hy := calcUnit_percent 50 (fin b) (d - b)
    rw [e] at hx hy
    unfold calcPosition
    simp only [s2, List.getElem?_cons_zero, List.getElem?_cons_succ, fin_sub_fin, hx, hy]
    norm_num
  refine ⟨c1 w h cw ch, c2 w h cw ch, by decide, ?_, ?_⟩
  · rw [c1]; norm_num
  · rw [c2]; norm_num

/-! ## The legacy `parseBackground`: C14 -/

namespace Legacy

/-- The loop over one list, in closed form: the first `n` entries are trimmed
or replaced, the entries from `n` on are untouched, and the fallback fills the
list up to `n` entries. -/
theorem padEntry_fold (fallback : List Char) (entries : List (List Char)) :
    ∀ n, (List.range n).foldl (padEntry fallback) entries
      = (entries.take n).map (fun e => trimOr e fallback) ++ entries.drop n
          ++ List.replicate (n - entries.length) fallback := by
  intro n
  induction n with
  | zero => simp
  | succ n ih =>
    rw [List.range_succ, List.foldl_append]
    simp only [List.foldl_cons, List.foldl_nil]
    rw [ih]
    by_cases h : n < entries.length
    · have hd : entries.drop n = entries[n] :: entries.drop (n + 1) :=
        List.drop_eq_getElem_cons h
      have hz : n - entries.length = 0 := by omega
      have hz' : n + 1 - entries.length = 0 := by omega
      have hA : ((entries.take n).map (fun e => trimOr e fallback)).length = n := by
        simp; omega
      have ht : entries.take (n + 1) = entries.take n ++ [entries[n]] := by
        rw [List.take_succ, List.getElem?_eq_getElem h]; rfl
      rw [hz, hz', hd, ht]
      simp only [List.replicate_zero, List.append_nil, List.map_append, List.map_cons,
        List.map_nil]
      unfold padEntry
      have hlen : n < ((entries.take n).map (fun e => trimOr e fallback)
          ++ entries[n] :: entries.drop (n + 1)).length := by
        rw [List.length_append, hA, List.length_cons]; omega
      rw [if_pos hlen]
      have hget : ((entries.take n).map (fun e => trimOr e fallback)
          ++ entries[n] :: entries.drop (n + 1)).getD n [] = entries[n] := by
        rw [List.getD_eq_getElem?_getD, List.getElem?_append_right (by omega), hA]
        simp [List.getElem?_eq_getElem h]
      rw [hget, List.set_append_right _ _ (by omega), hA, Nat.sub_self, List.set_cons_zero]
      simp
    · have hle : entries.length ≤ n := by omega
      have h1 : entries.take n = entries := List.take_of_length_le hle
      have h2 : entries.take (n + 1) = entries := List.take_of_length_le (by omega)
      have h3 : entries.drop n = [] := List.drop_of_length_le hle
      have h4 : entries.drop (n + 1) = [] := List.drop_of_length_le (by omega)
      have h5 : n + 1 - entries.length = (n - entries.length) + 1 := by omega
      rw [h1, h2, h3, h4, h5]
      unfold padEntry
      have hlen : ¬ n < (entries.map (fun e => trimOr e fallback) ++ []
          ++ List.replicate (n - entries.length) fallback).length := by
        simp; omega
      rw [if_neg hlen, List.replicate_succ']
      simp

/-- The loop of `parseBackground` acts on each array on its own. -/
theorem padStep_fold (l : List Nat) :
    ∀ b : Background,
      (l.foldl padStep b).images = b.images ∧
      (l.foldl padStep b).sizes = l.foldl (padEntry "auto".toList) b.sizes ∧
      (l.foldl padStep b).startPoints = l.foldl (padEntry defaultCoords) b.startPoints ∧
      (l.foldl padStep b).destinations = b.destinations ++ List.replicate l.length [] := by
  induction l with
  | nil => intro b; simp
  | cons i l ih =>
    intro b
    obtain ⟨h1, h2, h3, h4⟩ := ih (padStep b i)
    simp only [List.foldl_cons]
    refine ⟨by rw [h1]; rfl, by rw [h2]; rfl, by rw [h3]; rfl, ?_⟩
    rw [h4]
    simp [padStep, List.replicate_succ]

/-- The record `parseBackground` returns, array by array. -/
theorem parseBackground_eq (bgImage bgSize bgPosition : List Char) (b : Background)
    (hb : parseBackground bgImage bgSize bgPosition = some b) :
    1 ≤ (imageSources bgImage).length ∧
    b.images = imageSources bgImage ∧
    b.sizes = (List.range (imageSources bgImage).length).foldl (padEntry "auto".toList)
      (split ',' bgSize) ∧
    b.startPoints = (List.range (imageSources bgImage).length).foldl (padEntry defaultCoords)
      (split ',' bgPosition) ∧
    b.destinations = List.replicate (imageSources bgImage).length [] := by
  unfold parseBackground at hb
  simp only at hb
  split_ifs at hb with hc
  have hpos : 1 ≤ (imageSources bgImage).length := by
    by_contra hcon
    exact hc (Or.inr (by omega))
  obtain ⟨h1, h2, h3, h4⟩ := padStep_fold (List.range (imageSources bgImage).length)
    { images := imageSources bgImage, sizes := split ',' bgSize,
      startPoints := split ',' bgPosition, destinations := [] }
  have hb' := Option.some.inj hb
  rw [← hb']
  refine ⟨hpos, h1, h2, h3, ?_⟩
  rw [h4]; simp

/-- Entry `i` of a padded list that had at most `n` entries. -/
theorem padEntry_fold_entry (fallback : List Char) (entries : List (List Char)) (n i : Nat)
    (hm : entries.length ≤ n) (hi : i < n) :
    ((List.range n).foldl (padEntry fallback) entries)[i]?
      = some (if i < entries.length then trimOr (entries.getD i []) fallback else fallback) := by
  rw [padEntry_fold, List.take_of_length_le hm, List.drop_of_length_le hm, List.append_nil]
  by_cases h : i < entries.length
  · rw [if_pos h, List.getElem?_append_left (by simpa using h)]
    simp [List.getElem?_eq_getElem h, List.getD_eq_getElem?_getD]
  · rw [if_neg h, List.getElem?_append_right (by simp; omega)]
    rw [List.getElem?_replicate, if_pos]
    simp; omega

theorem padEntry_fold_length (fallback : List Char) (entries : List (List Char)) (n : Nat) :
    ((List.range n).foldl (padEntry fallback) entries).length = max entries.length n := by
  rw [padEntry_fold]
  simp
  omega

end Legacy

/-- Padding in the legacy `parseBackground`, from the record: when it returns
a record whose image list has `n` entries and the size and position lists have
at most `n` comma-separated entries, `sizes` and `startPoints` have length `n`
(with `n ≥ 1`); an entry at an index beyond the list is the default (`auto`,
`0px 0px`), an entry that is blank or white space is replaced by the same
default, and every other entry is its trimmed text. -/
theorem parseBackground_pads_of_record (bgImage bgSize bgPosition : List Char) (b : Legacy.Background)
    (hb : Legacy.parseBackground bgImage bgSize bgPosition = some b)
    (hs : (split ',' bgSize).length ≤ b.images.length)
    (hp : (split ',' bgPosition).length ≤ b.images.length) :
    1 ≤ b.images.length ∧ b.images = imageSources bgImage ∧
    b.sizes.length = b.images.length ∧ b.startPoints.length = b.images.length ∧
    (∀ i, i < b.images.length →
      ((split ',' bgSize).length ≤ i → b.sizes[i]? = some "auto".toList) ∧
      (i < (split ',' bgSize).length → trim ((split ',' bgSize).getD i []) = [] →
        b.sizes[i]? = some "auto".toList) ∧
      (i < (split ',' bgSize).length → trim ((split ',' bgSize).getD i []) ≠ [] →
        b.sizes[i]? = some (trim ((split ',' bgSize).getD i [])))) ∧
    (∀ i, i < b.images.length →
      ((split ',' bgPosition).length ≤ i → b.startPoints[i]? = some "0px 0px".toList) ∧
      (i < (split ',' bgPosition).length → trim ((split ',' bgPosition).getD i []) = [] →
        b.startPoints[i]? = some "0px 0px".toList) ∧
      (i < (split ',' bgPosition).length → trim ((split ',' bgPosition).getD i []) ≠ [] →
        b.startPoints[i]? = some (trim ((split ',' bgPosition).getD i [])))) := by
  obtain ⟨hpos, hi, hsz, hst, _⟩ := Legacy.parseBackground_eq bgImage bgSize bgPosition b hb
  rw [hi] at hs hp ⊢
  refine ⟨hpos, rfl, ?_, ?_, ?_, ?_⟩
  · rw [hsz, Legacy.padEntry_fold_length]; omega
  · rw [hst, Legacy.padEntry_fold_length]; omega
  · intro i hlt
    have h := Legacy.padEntry_fold_entry "auto".toList (split ',' bgSize) _ i hs hlt
    rw [← hsz] at h
    refine ⟨fun hge => ?_, fun hlt' hblank => ?_, fun hlt' hfull => ?_⟩
    · rw [h, if_neg (by omega)]
    · rw [h, if_pos hlt', Legacy.trimOr, if_pos hblank]
    · rw [h, if_pos hlt', Legacy.trimOr, if_neg hfull]
  · intro i hlt
    have h := Legacy.padEntry_fold_entry defaultCoords (split ',' bgPosition) _ i hp hlt
    rw [← hst] at h
    refine ⟨fun hge => ?_, fun hlt' hblank => ?_, fun hlt' hfull => ?_⟩
    · rw [h, if_neg (by omega)]; rfl
    · rw [h, if_pos hlt', Legacy.trimOr, if_pos hblank]; rfl
    · rw [h, if_pos hlt', Legacy.trimOr, if_neg hfull]

/-- C14 (amended). Whenever the legacy `parseBackground` returns a record,
`images` and `destinations` have the length `n` of the image list, while
`sizes` and `startPoints` have the larger of `n` and the number of
comma-separated entries of their list. -/
theorem parseBackground_lengths (bgImage bgSize bgPosition : List Char) (b : Legacy.Background)
    (hb : Legacy.parseBackground bgImage bgSize bgPosition = some b) :
    b.images = imageSources bgImage ∧
    b.destinations.length = b.images.length ∧
    b.sizes.length = max (split ',' bgSize).length b.images.length ∧
    b.startPoints.length = max (split ',' bgPosition).length b.images.length := by
  obtain ⟨_, hi, hsz, hst, hd⟩ := Legacy.parseBackground_eq bgImage bgSize bgPosition b hb
  refine ⟨hi, ?_, ?_, ?_⟩
  · rw [hd, hi]; simp
  · rw [hsz, hi, Legacy.padEntry_fold_length]
  · rw [hst, hi, Legacy.padEntry_fold_length]

/-- The record for one image with two size entries. -/
theorem parseBackground_two_sizes :
    Legacy.parseBackground "url(a.png)".toList "auto, 50%".toList "".toList
      = some ⟨["a.png".toList], ["auto".toList, " 50%".toList], ["0px 0px".toList], [[]]⟩ := by
  decide

/-- Witness of C14 (amended): one image with two size entries. -/
theorem parseBackground_lengths_witness :
    Legacy.parseBackground "url(a.png)".toList "auto, 50%".toList "".toList
      = some ⟨["a.png".toList], ["auto".toList, " 50%".toList], ["0px 0px".toList], [[]]⟩ ∧
    ["auto".toList, " 50%".toList].length
      = max (split ',' "auto, 50%".toList).length ["a.png".toList].length :=
  ⟨parseBackground_two_sizes,
    (parseBackground_lengths _ _ _ _ parseBackground_two_sizes).2.2.1⟩

/-- C14 (counterexample). One image with the size list `auto, 50%`: a record is
returned whose `sizes` has 2 entries while `images` has 1. -/
theorem parseBackground_longer_sizes :
    ∃ b, Legacy.parseBackground "url(a.png)".toList "auto, 50%".toList "".toList = some b ∧
      b.images.length = 1 ∧ b.sizes.length = 2 ∧ b.sizes.length ≠ b.images.length :=
  ⟨_, parseBackground_two_sizes, by decide, by decide, by decide⟩

/-! ## One failing layer: C16 -/

theorem calculateDirectionVector_zero :
    calculateDirectionVector (fun _ => fin 1) (fun _ => fin 0) (fin 0)
      = ⟨fin 1, fin 0, fin 1⟩ := by
  simp [calculateDirectionVector, round, fin_div_fin]
  norm_num [fin_div_fin]
  simp [HDiv.hDiv, Div.div, JSNum.div, signedInf, JSNum.floor, JSNum.eq]

theorem calculateDuration_ten_seconds (render : ℚ → List Char) :
    calculateDuration render "10s".toList (fin 1) = .ok "10s".toList := by
  have e : execDurationUnit "10s".toList = some ["s".toList] := by decide
  have t : trim "10s".toList = "10s".toList := by decide
  have p : parseFloat "10s".toList = fin 10 := by
    have h := parseFloat_natToText 10 "s".toList (by decide)
    have e : natToText 10 ++ "s".toList = "10s".toList := by decide
    rw [e] at h; rw [h]; norm_num
  have n : numberToString render (fin 10) = "10".toList := by
    have h := numberToString_nat render 10 (by norm_num)
    have e : natToText 10 = "10".toList := by decide
    rw [e] at h; rw [← h]; norm_num
  unfold calculateDuration
  simp only [e, List.length_singleton, one_ne_zero, if_false, List.headD_cons, parseFloatOrDefault,
    t, p, fin_mul_fin, mul_one, n]
  rfl

/-- C16 (failing input). One background image, the default direction `0` and
duration `10s`, and a probe that fails: the invocation starts from one empty
slot in each array, and after the one settlement the animation is emitted with
duration `10s` and `destinations = ['0px 0px']`, but with `startPoints = ['']`:
the start slot is still empty and the `0%` keyframe has no position. -/
theorem everlax_single_failure :
    ∃ inv, everlax (fun _ => []) (fun _ => fin 1) (fun _ => fin 0) "url(a.png)".toList
        none none none none 1 [] [] = .ok (some inv) ∧
      inv.images = ["a.png".toList] ∧ inv.duration = "10s".toList ∧
      inv.plan = initialPlan 1 1 [] [] ∧
      (onImage (fun _ => []) ⟨"auto".toList, "0% 0%".toList, ⟨fin 300, fin 300⟩, inv.direction,
          inv.duration⟩ inv.plan none 0).startPoints = [[]] ∧
      (onImage (fun _ => []) ⟨"auto".toList, "0% 0%".toList, ⟨fin 300, fin 300⟩, inv.direction,
          inv.duration⟩ inv.plan none 0).destinations = ["0px 0px".toList] ∧
      (onImage (fun _ => []) ⟨"auto".toList, "0% 0%".toList, ⟨fin 300, fin 300⟩, inv.direction,
          inv.duration⟩ inv.plan none 0).styleIndex = 2 ∧
      (onImage (fun _ => []) ⟨"auto".toList, "0% 0%".toList, ⟨fin 300, fin 300⟩, inv.direction,
          inv.duration⟩ inv.plan none 0).classes = ["everlax1".toList] ∧
      (onImage (fun _ => []) ⟨"auto".toList, "0% 0%".toList, ⟨fin 300, fin 300⟩, inv.direction,
          inv.duration⟩ inv.plan none 0).sheet.getLast?
        = some ("@-webkit-keyframes everlax1 \x7b 0% \x7b background-position: ; \x7d"
            ++ " 100% \x7b background-position: 0px 0px; \x7d \x7d").toList := by
  have hi : getBgImages "url(a.png)".toList = some ["a.png".toList] := by decide
  have hd : parseIntOrDefault (firstSetting none none "0".toList) = fin 0 := by decide
  have ht : trim (firstSetting none none "10s".toList) = "10s".toList := by decide
  refine ⟨⟨["a.png".toList], ⟨fin 1, fin 0, fin 1⟩, "10s".toList, initialPlan 1 1 [] []⟩,
    ?_, rfl, rfl, rfl, ?_, ?_, ?_, ?_, ?_⟩
  · unfold everlax
    simp only [hi, hd, ht, calculateDirectionVector_zero, calculateDuration_ten_seconds]
    rfl
  all_goals decide

/-! ## A failing layer in the legacy variant: C17 -/

/-- C17. In the legacy variant, when the image of layer `i` fails to load the
callback completes, sets `destinations[i]` to `0px 0px`, leaves every
start point (that of layer `i` included) and the arrays `images` and `sizes`
as they were, and leaves `destinations[j]` unchanged for every `j ≠ i`. -/
theorem legacy_failure_is_local (render : ℚ → List Char) (env : Legacy.Env)
    (st : Legacy.State) (i : Nat) (hi : i < st.plan.destinations.length) :
    ∃ st', Legacy.onImage render env st none i = .ok st' ∧
      st'.plan.destinations[i]? = some "0px 0px".toList ∧
      st'.plan.startPoints = st.plan.startPoints ∧
      (∀ j, j ≠ i → st'.plan.destinations[j]? = st.plan.destinations[j]?) ∧
      st'.plan.destinations.length = st.plan.destinations.length ∧
      st'.images = st.images ∧ st'.sizes = st.sizes := by
  refine ⟨_, rfl, ?_, ?_, ?_, ?_, rfl, rfl⟩
  · show (tryStartAnimation _ env.duration).destinations[i]? = _
    rw [tryStartAnimation_destinations]
    show (st.plan.destinations.set i defaultCoords)[i]? = _
    rw [List.getElem?_set_self hi]
    rfl
  · show (tryStartAnimation _ env.duration).startPoints = _
    unfold tryStartAnimation
    split_ifs <;> rfl
  · intro j hj
    show (tryStartAnimation _ env.duration).destinations[j]? = _
    rw [tryStartAnimation_destinations]
    show (st.plan.destinations.set i defaultCoords)[j]? = _
    rw [List.getElem?_set_ne (Ne.symm hj)]
  · show (tryStartAnimation _ env.duration).destinations.length = _
    rw [tryStartAnimation_destinations]
    show (st.plan.destinations.set i defaultCoords).length = _
    simp

/-- Witness of C17: the second of two layers fails, the first start point and
destination being already written. -/
theorem legacy_failure_is_local_witness :
    1 < ["5px 5px".toList, ([] : List Char)].length ∧
    ∃ st', Legacy.onImage (fun _ => []) ⟨⟨fin 300, fin 300⟩, ⟨fin 1, fin 0, fin 1⟩, "10s".toList⟩
        ⟨["a.png".toList, "b.png".toList], ["auto".toList, "auto".toList],
          ⟨["0px 0px".toList, "left top".toList], ["5px 5px".toList, []], 1, [], []⟩⟩ none 1
        = .ok st' ∧
      st'.plan.destinations[1]? = some "0px 0px".toList ∧
      st'.plan.startPoints = ["0px 0px".toList, "left top".toList] ∧
      (∀ j, j ≠ 1 → st'.plan.destinations[j]? = ["5px 5px".toList, ([] : List Char)][j]?) ∧
      st'.plan.destinations.length = 2 ∧
      st'.images = ["a.png".toList, "b.png".toList] ∧
      st'.sizes = ["auto".toList, "auto".toList] :=
  ⟨by decide,
    legacy_failure_is_local (fun _ => []) ⟨⟨fin 300, fin 300⟩, ⟨fin 1, fin 0, fin 1⟩, "10s".toList⟩
      ⟨["a.png".toList, "b.png".toList], ["auto".toList, "auto".toList],
        ⟨["0px 0px".toList, "left top".toList], ["5px 5px".toList, []], 1, [], []⟩⟩ 1
      (by decide)⟩

/-! ## Forward travel: C21 -/

/-- The normalizer of a non-negative number against a positive target, in
closed form: with `q = floor(a / t)` and `r = a - t * q`, it is `0` when
`r = 0` and `t - r` otherwise. -/
theorem getNormalizer_of_nonneg (a t : ℚ) (ha : 0 ≤ a) (ht : 0 < t) :
    getNormalizer (fin a) (fin t)
      = fin (if a - t * (⌊a / t⌋ : ℤ) = 0 then 0 else t - (a - t * (⌊a / t⌋ : ℤ))) := by
  have hq : truncQ (a / t) = ⌊a / t⌋ := truncQ_of_nonneg _ (div_nonneg ha (le_of_lt ht))
  have hlo : t * (⌊a / t⌋ : ℤ) ≤ a := by
    have := Int.floor_le (a / t)
    rw [le_div_iff₀ ht] at this
    linarith
  have hhi : a < t * (⌊a / t⌋ : ℤ) + t := by
    have := Int.lt_floor_add_one (a / t)
    rw [div_lt_iff₀ ht] at this
    linarith
  unfold getNormalizer
  simp only [abs_fin, abs_of_nonneg ha, abs_of_pos ht, fin_mod_fin _ _ (ne_of_gt ht), hq,
    fin_sub_fin, zero_eq_fin, lt_fin, neg_fin, eq_fin]
  have hnl : ¬ a < 0 := not_lt.2 ha
  have hv : 0 ≤ t - (a - t * (⌊a / t⌋ : ℤ)) := by linarith
  simp only [hnl, decide_False, Bool.false_eq_true, if_false, abs_of_nonneg hv]
  simp only [eq_fin, decide_eq_true_eq]
  by_cases hr : a - t * (⌊a / t⌋ : ℤ) = 0
  · rw [if_pos hr, if_pos (by rw [hr]; ring)]
  · rw [if_neg hr, if_neg]
    intro h
    apply hr
    linarith

/-- C21. In the current variant, for every direction component `d ≥ 0`,
iteration count `≥ 1`, tile size `> 0` and start offset, with
`raw = floor(d * size * iterations)`: the normalizer `n` lies in `[0, size)`,
the destination is `raw + n + start`, and the travel `raw + n` is the least
multiple of `size` that is `≥ raw` (so `n = 0` when `raw` is already a
multiple) and is never negative. -/
theorem destinationAxis_least_multiple (d size it start : ℚ)
    (hd : 0 ≤ d) (hs : 0 < size) (hit : 1 ≤ it) :
    ∃ (n : ℚ) (m : ℤ),
      getNormalizer (fin ((⌊d * size * it⌋ : ℤ) : ℚ)) (fin size) = fin n ∧
      0 ≤ n ∧ n < size ∧
      destinationAxis (fin d) (fin size) (fin it) (fin start)
        = fin (((⌊d * size * it⌋ : ℤ) : ℚ) + n + start) ∧
      ((⌊d * size * it⌋ : ℤ) : ℚ) + n = (m : ℚ) * size ∧
      ((⌊d * size * it⌋ : ℤ) : ℚ) ≤ ((⌊d * size * it⌋ : ℤ) : ℚ) + n ∧
      (∀ k : ℤ, ((⌊d * size * it⌋ : ℤ) : ℚ) ≤ (k : ℚ) * size →
        ((⌊d * size * it⌋ : ℤ) : ℚ) + n ≤ (k : ℚ) * size) ∧
      ((∃ k : ℤ, ((⌊d * size * it⌋ : ℤ) : ℚ) = (k : ℚ) * size) → n = 0) ∧
      0 ≤ ((⌊d * size * it⌋ : ℤ) : ℚ) + n := by
  have hprod : 0 ≤ d * size * it := by positivity
  have hraw : (0 : ℚ) ≤ ((⌊d * size * it⌋ : ℤ) : ℚ) := by
    have : (0 : ℤ) ≤ ⌊d * size * it⌋ := Int.floor_nonneg.2 hprod
    exact_mod_cast this
  set a : ℚ := ((⌊d * size * it⌋ : ℤ) : ℚ) with ha
  set q : ℤ := ⌊a / size⌋ with hq
  have hlo : size * (q : ℚ) ≤ a := by
    have := Int.floor_le (a / size)
    rw [le_div_iff₀ hs] at this
    linarith
  have hhi : a < size * (q : ℚ) + size := by
    have := Int.lt_floor_add_one (a / size)
    rw [div_lt_iff₀ hs] at this
    linarith
  have hnorm := getNormalizer_of_nonneg a size hraw hs
  rw [← hq] at hnorm
  have hdest : ∀ n : ℚ, getNormalizer (fin a) (fin size) = fin n →
      destinationAxis (fin d) (fin size) (fin it) (fin start) = fin (a + n + start) := by
    intro n hn
    have hnl : ¬ d < 0 := not_lt.2 hd
    unfold destinationAxis
    simp only [fin_mul_fin, floor_fin, zero_eq_fin, lt_fin, hnl, decide_False,
      Bool.false_eq_true, if_false, ← ha, hn, fin_add_fin]
    congr 1
    ring
  by_cases hr : a - size * (q : ℚ) = 0
  · rw [if_pos hr] at hnorm
    refine ⟨0, q, hnorm, le_refl _, hs, hdest 0 hnorm, by linarith, by linarith, ?_, fun _ => rfl,
      by linarith⟩
    intro k hk
    linarith
  · rw [if_neg hr] at hnorm
    have hrpos : 0 < a - size * (q : ℚ) := lt_of_le_of_ne (by linarith) (Ne.symm hr)
    refine ⟨size - (a - size * (q : ℚ)), q + 1, hnorm, by linarith, by linarith,
      hdest _ hnorm, by push_cast; ring, by linarith, ?_, ?_, by linarith⟩
    · intro k hk
      have hkq : q < k := by
        by_contra hcon
        push_neg at hcon
        have : (k : ℚ) ≤ (q : ℚ) := by exact_mod_cast hcon
        have : (k : ℚ) * size ≤ (q : ℚ) * size := mul_le_mul_of_nonneg_right this (le_of_lt hs)
        linarith
      have hk1 : (q : ℚ) + 1 ≤ (k : ℚ) := by exact_mod_cast hkq
      have : ((q : ℚ) + 1) * size ≤ (k : ℚ) * size :=
        mul_le_mul_of_nonneg_right hk1 (le_of_lt hs)
      linarith
    · rintro ⟨k, hk⟩
      exfalso
      have h1 : (q : ℚ) < (k : ℚ) := by
        by_contra hcon
        push_neg at hcon
        have : (k : ℚ) * size ≤ (q : ℚ) * size := mul_le_mul_of_nonneg_right hcon (le_of_lt hs)
        linarith
      have h2 : (k : ℚ) < (q : ℚ) + 1 := by
        by_contra hcon
        push_neg at hcon
        have : ((q : ℚ) + 1) * size ≤ (k : ℚ) * size :=
          mul_le_mul_of_nonneg_right hcon (le_of_lt hs)
        linarith
      have h1' : q < k := by exact_mod_cast h1
      have h2' : k < q + 1 := by exact_mod_cast h2
      omega

/-- Witness of C21: direction 0.4023, tile size 100 and 2 iterations. -/
theorem destinationAxis_least_multiple_witness :
    (0 : ℚ) ≤ 4023 / 10000 ∧ (0 : ℚ) < 100 ∧ (1 : ℚ) ≤ 2 ∧
    ∃ (n : ℚ) (m : ℤ),
      getNormalizer (fin ((⌊(4023 / 10000 : ℚ) * 100 * 2⌋ : ℤ) : ℚ)) (fin 100) = fin n ∧
      0 ≤ n ∧ n < 100 ∧
      destinationAxis (fin (4023 / 10000)) (fin 100) (fin 2) (fin 0)
        = fin (((⌊(4023 / 10000 : ℚ) * 100 * 2⌋ : ℤ) : ℚ) + n + 0) ∧
      ((⌊(4023 / 10000 : ℚ) * 100 * 2⌋ : ℤ) : ℚ) + n = (m : ℚ) * 100 ∧
      ((⌊(4023 / 10000 : ℚ) * 100 * 2⌋ : ℤ) : ℚ)
        ≤ ((⌊(4023 / 10000 : ℚ) * 100 * 2⌋ : ℤ) : ℚ) + n ∧
      (∀ k : ℤ, ((⌊(4023 / 10000 : ℚ) * 100 * 2⌋ : ℤ) : ℚ) ≤ (k : ℚ) * 100 →
        ((⌊(4023 / 10000 : ℚ) * 100 * 2⌋ : ℤ) : ℚ) + n ≤ (k : ℚ) * 100) ∧
      ((∃ k : ℤ, ((⌊(4023 / 10000 : ℚ) * 100 * 2⌋ : ℤ) : ℚ) = (k : ℚ) * 100) → n = 0) ∧
      0 ≤ ((⌊(4023 / 10000 : ℚ) * 100 * 2⌋ : ℤ) : ℚ) + n :=
  ⟨by norm_num, by norm_num, by norm_num,
    destinationAxis_least_multiple (4023 / 10000) 100 2 0 (by norm_num) (by norm_num)
      (by norm_num)⟩

/-! ## The legacy normalizer: C22 -/

theorem truncQ_intCast (m : ℤ) : truncQ (m : ℚ) = m := by
  unfold truncQ
  split_ifs with h
  · exact Int.floor_intCast m
  · have : (-(m : ℚ)) = ((-m : ℤ) : ℚ) := by push_cast; rfl
    rw [this, Int.floor_intCast]
    ring

/-- C22. The legacy `getNormalizer`: for every integer `number` (positive,
zero or negative) and every integer `target > 0` the value returned is an
integer `v` such that `number + v` is an integer multiple of `target`, and it
is 0 when `number` is already a multiple of `target`. -/
theorem legacy_getNormalizer_reaches_multiple (number target : ℤ) (ht : 0 < target) :
    (∃ v k : ℤ, Legacy.getNormalizer (fin (number : ℚ)) (fin (target : ℚ)) = fin (v : ℚ) ∧
      number + v = k * target) ∧
    ((∃ m : ℤ, number = m * target) →
      Legacy.getNormalizer (fin (number : ℚ)) (fin (target : ℚ)) = fin 0) := by
  have htq : (target : ℚ) ≠ 0 := by
    have : (0 : ℚ) < (target : ℚ) := by exact_mod_cast ht
    exact ne_of_gt this
  have hval : Legacy.getNormalizer (fin (number : ℚ)) (fin (target : ℚ))
      = if (number : ℚ) - (target : ℚ) * (truncQ ((number : ℚ) / (target : ℚ)) : ℚ) = 0
        then fin 0
        else fin ((target : ℚ)
          - ((number : ℚ) - (target : ℚ) * (truncQ ((number : ℚ) / (target : ℚ)) : ℚ))) := by
    unfold Legacy.getNormalizer
    simp only [fin_mod_fin _ _ htq, fin_sub_fin, eq_fin, decide_eq_true_eq, zero_eq_fin]
    by_cases hr : (number : ℚ) - (target : ℚ) * (truncQ ((number : ℚ) / (target : ℚ)) : ℚ) = 0
    · rw [if_pos hr, if_pos (by rw [hr]; ring)]
    · rw [if_neg hr, if_neg]
      intro h
      apply hr
      linarith
  constructor
  · by_cases hr : (number : ℚ) - (target : ℚ) * (truncQ ((number : ℚ) / (target : ℚ)) : ℚ) = 0
    · refine ⟨0, truncQ ((number : ℚ) / (target : ℚ)), ?_, ?_⟩
      · rw [hval, if_pos hr]; simp
      · have h : (number : ℚ) = (truncQ ((number : ℚ) / (target : ℚ)) : ℚ) * (target : ℚ) := by
          linarith
        have h' : number = truncQ ((number : ℚ) / (target : ℚ)) * target := by exact_mod_cast h
        omega
    · refine ⟨target - (number - target * truncQ ((number : ℚ) / (target : ℚ))),
        1 + truncQ ((number : ℚ) / (target : ℚ)), ?_, by ring⟩
      rw [hval, if_neg hr]
      congr 1
      push_cast
      ring
  · rintro ⟨m, hm⟩
    have hdiv : (number : ℚ) / (target : ℚ) = (m : ℚ) := by
      rw [hm]; push_cast; field_simp
    rw [hval, if_pos]
    rw [hdiv, truncQ_intCast, hm]
    push_cast
    ring

/-- Witness of C22: the number -81 and the target 100. -/
theorem legacy_getNormalizer_reaches_multiple_witness :
    (0 : ℤ) < 100 ∧
    (∃ v k : ℤ, Legacy.getNormalizer (fin ((-81 : ℤ) : ℚ)) (fin ((100 : ℤ) : ℚ)) = fin (v : ℚ) ∧
      -81 + v = k * 100) ∧
    ((∃ m : ℤ, (-81 : ℤ) = m * 100) →
      Legacy.getNormalizer (fin ((-81 : ℤ) : ℚ)) (fin ((100 : ℤ) : ℚ)) = fin 0) :=
  ⟨by decide, legacy_getNormalizer_reaches_multiple (-81) 100 (by decide)⟩

/-! ## Rounding to binary64 -/

theorem roundHalfEven_intCast (m : ℤ) : roundHalfEven (m : ℚ) = m := by
  simp [roundHalfEven]

theorem roundHalfEven_of_near (q : ℚ) (m : ℤ) (h : |q - m| < 1 / 2) : roundHalfEven q = m := by
  rw [abs_lt] at h
  unfold roundHalfEven
  rcases le_or_lt (m : ℚ) q with hq | hq
  · have hf : ⌊q⌋ = m := by
      rw [Int.floor_eq_iff]; constructor <;> linarith
    rw [hf, if_pos (by linarith)]
  · have hf : ⌊q⌋ = m - 1 := by
      rw [Int.floor_eq_iff]; push_cast; constructor <;> linarith
    rw [hf]; push_cast
    rw [if_neg (by linarith), if_pos (by linarith)]; ring

theorem roundHalfEven_le (q : ℚ) (N : ℤ) (h : q ≤ N) : roundHalfEven q ≤ N := by
  have hfl : (⌊q⌋ : ℚ) ≤ q := Int.floor_le q
  have h1 : ⌊q⌋ ≤ N := by exact_mod_cast hfl.trans h
  unfold roundHalfEven
  split_ifs with a b c
  · exact h1
  · have : (⌊q⌋ : ℚ) < N := by linarith
    have : ⌊q⌋ < N := by exact_mod_cast this
    omega
  · exact h1
  · have : (⌊q⌋ : ℚ) < N := by linarith
    have : ⌊q⌋ < N := by exact_mod_cast this
    omega

theorem le_roundHalfEven (q : ℚ) (N : ℤ) (h : (N : ℚ) ≤ q) : N ≤ roundHalfEven q := by
  have h1 : N ≤ ⌊q⌋ := Int.le_floor.2 h
  unfold roundHalfEven
  split_ifs <;> omega

theorem log_eq_of_bounds (q : ℚ) (e : ℤ) (hlo : (2 : ℚ) ^ e ≤ |q|) (hhi : |q| < (2 : ℚ) ^ (e + 1)) :
    Int.log 2 |q| = e := by
  have hpos : 0 < |q| := lt_of_lt_of_le (by positivity) hlo
  have h1 : e ≤ Int.log 2 |q| := by
    rw [← Int.zpow_le_iff_le_log (by norm_num) hpos]; simpa using hlo
  have h2 : Int.log 2 |q| < e + 1 := by
    rw [← Int.lt_zpow_iff_log_lt (by norm_num) hpos]; simpa using hhi
  omega

theorem binary64_of_multiple (q : ℚ) (M : ℤ) (hM : q = M * (2 : ℚ) ^ (binade q - 52))
    (hfin : |q| < (2 : ℚ) ^ (1024 : ℕ)) : binary64 q = fin q := by
  unfold binary64
  by_cases h0 : q = 0
  · simp [h0]
  · have hu : (2 : ℚ) ^ (binade q - 52) ≠ 0 := by positivity
    have hdiv : q / (2 : ℚ) ^ (binade q - 52) = M := by
      rw [div_eq_iff hu]; exact hM
    simp only [if_neg h0, hdiv, roundHalfEven_intCast, ← hM, if_neg (not_le.2 hfin)]

theorem binary64_dyadic_lt (m c : ℤ) (hm : |m| < 2 ^ 53) (hc : -1074 ≤ c)
    (hfin : |(m : ℚ) * (2 : ℚ) ^ c| < (2 : ℚ) ^ (1024 : ℕ)) :
    binary64 ((m : ℚ) * (2 : ℚ) ^ c) = fin ((m : ℚ) * (2 : ℚ) ^ c) := by
  by_cases h0 : m = 0
  · simp [h0, binary64]
  · have hq0 : 0 < |(m : ℚ) * (2 : ℚ) ^ c| := by
      apply abs_pos.2; apply mul_ne_zero; exact_mod_cast h0; positivity
    have hb : binade ((m : ℚ) * (2 : ℚ) ^ c) ≤ c + 52 := by
      unfold binade
      apply max_le _ (by omega)
      have hlt : |(m : ℚ) * (2 : ℚ) ^ c| < (2 : ℚ) ^ (c + 53) := by
        rw [abs_mul, abs_of_pos (show (0 : ℚ) < (2 : ℚ) ^ c by positivity),
          zpow_add₀ (by norm_num : (2 : ℚ) ≠ 0), mul_comm]
        apply mul_lt_mul_of_pos_left _ (by positivity)
        have : ((|m| : ℤ) : ℚ) < ((2 ^ 53 : ℤ) : ℚ) := by exact_mod_cast hm
        rw [Int.cast_abs] at this
        calc |(m : ℚ)| < ((2 ^ 53 : ℤ) : ℚ) := this
          _ = (2 : ℚ) ^ (53 : ℤ) := by norm_num
      have := (Int.lt_zpow_iff_log_lt (by norm_num : 1 < 2) hq0).1 (by simpa using hlt)
      omega
    obtain ⟨k, hk⟩ : ∃ k : ℕ, (k : ℤ) = c + 52 - binade ((m : ℚ) * (2 : ℚ) ^ c) :=
      ⟨(c + 52 - binade ((m : ℚ) * (2 : ℚ) ^ c)).toNat, Int.toNat_of_nonneg (by omega)⟩
    apply binary64_of_multiple _ (m * 2 ^ k) _ hfin
    have hc2 : c = (k : ℤ) + (binade ((m : ℚ) * (2 : ℚ) ^ c) - 52) := by omega
    push_cast
    rw [mul_assoc, ← zpow_natCast (2 : ℚ) k, ← zpow_add₀ (by norm_num : (2 : ℚ) ≠ 0), ← hc2]

theorem binary64_dyadic (m c : ℤ) (hm : |m| ≤ 2 ^ 53) (hc : -1074 ≤ c)
    (hfin : |(m : ℚ) * (2 : ℚ) ^ c| < (2 : ℚ) ^ (1024 : ℕ)) :
    binary64 ((m : ℚ) * (2 : ℚ) ^ c) = fin ((m : ℚ) * (2 : ℚ) ^ c) := by
  rcases lt_or_eq_of_le hm with h | h
  · exact binary64_dyadic_lt m c h hc hfin
  · obtain ⟨m', hm', hlt⟩ : ∃ m' : ℤ, m = 2 * m' ∧ |m'| < 2 ^ 53 := by
      rcases abs_eq (by norm_num : (0 : ℤ) ≤ 2 ^ 53) |>.1 h with e | e
      · exact ⟨2 ^ 52, by rw [e]; norm_num, by norm_num⟩
      · exact ⟨-2 ^ 52, by rw [e]; norm_num, by norm_num⟩
    have e : (m : ℚ) * (2 : ℚ) ^ c = (m' : ℚ) * (2 : ℚ) ^ (c + 1) := by
      rw [hm', zpow_add₀ (by norm_num : (2 : ℚ) ≠ 0)]; push_cast; ring
    rw [e] at hfin ⊢
    exact binary64_dyadic_lt m' (c + 1) hlt (by omega) hfin

theorem binary64_intCast (N : ℤ) (h : |N| ≤ 2 ^ 53) : binary64 (N : ℚ) = fin (N : ℚ) := by
  have hfin : |(N : ℚ) * (2 : ℚ) ^ (0 : ℤ)| < (2 : ℚ) ^ (1024 : ℕ) := by
    have h1 : ((|N| : ℤ) : ℚ) ≤ ((2 ^ 53 : ℤ) : ℚ) := by exact_mod_cast h
    have h2 : |(N : ℚ)| ≤ 2 ^ 53 := by simpa using h1
    simp only [zpow_zero, mul_one]
    exact lt_of_le_of_lt h2 (by norm_num)
  simpa using binary64_dyadic N 0 h (by norm_num) hfin

theorem binary64_natCast (n : ℕ) (h : n ≤ 2 ^ 53) : binary64 (n : ℚ) = fin (n : ℚ) := by
  have := binary64_intCast (n : ℤ) (by rw [abs_of_nonneg (by positivity)]; exact_mod_cast h)
  simpa using this

theorem binary64_idem (q r : ℚ) (h : binary64 q = fin r) : binary64 r = fin r := by
  unfold binary64 at h
  by_cases h0 : q = 0
  · simp only [if_pos h0] at h
    cases h
    simp [binary64]
  · simp only [if_neg h0] at h
    by_cases hov : (2 : ℚ) ^ (1024 : ℕ)
        ≤ |(roundHalfEven (q / (2 : ℚ) ^ (binade q - 52)) : ℚ) * (2 : ℚ) ^ (binade q - 52)|
    · rw [if_pos hov] at h
      split_ifs at h
    · rw [if_neg hov] at h
      cases h
      have hq0 : 0 < |q| := abs_pos.2 h0
      have hu : (0 : ℚ) < (2 : ℚ) ^ (binade q - 52) := by positivity
      have hlog : |q| < (2 : ℚ) ^ (binade q + 1) := by
        have h1 := Int.lt_zpow_succ_log_self (by norm_num : 1 < 2) |q|
        have h2 : ((2 : ℕ) : ℚ) ^ (Int.log 2 |q| + 1) ≤ ((2 : ℕ) : ℚ) ^ (binade q + 1) := by
          apply zpow_le_zpow_right₀ (by norm_num)
          have : Int.log 2 |q| ≤ binade q := le_max_left _ _
          omega
        simpa using lt_of_lt_of_le h1 h2
      have hx : |q / (2 : ℚ) ^ (binade q - 52)| < 2 ^ 53 := by
        rw [abs_div, abs_of_pos hu, div_lt_iff₀ hu]
        have : (2 : ℚ) ^ 53 * (2 : ℚ) ^ (binade q - 52) = (2 : ℚ) ^ (binade q + 1) := by
          rw [← zpow_natCast (2 : ℚ) 53, ← zpow_add₀ (by norm_num : (2 : ℚ) ≠ 0)]
          congr 1; push_cast; ring
        rw [this]; exact hlog
      rw [abs_lt] at hx
      have hm : |roundHalfEven (q / (2 : ℚ) ^ (binade q - 52))| ≤ 2 ^ 53 := by
        rw [abs_le]
        constructor
        · apply le_roundHalfEven; push_cast; linarith [hx.1]
        · apply roundHalfEven_le; push_cast; linarith [hx.2]
      have hb : (-1022 : ℤ) ≤ binade q := le_max_right _ _
      exact binary64_dyadic _ _ hm (by omega) (not_le.1 hov)

theorem round64_round64 (x : JSNum) : JSNum.round64 (JSNum.round64 x) = JSNum.round64 x := by
  cases x with
  | fin q =>
    simp only [JSNum.round64]
    cases h : binary64 q with
    | fin r => exact binary64_idem q r h
    | pinf => rfl
    | ninf => rfl
    | nan => rfl
  | pinf => rfl
  | ninf => rfl
  | nan => rfl

/-- The value of `binary64` from the binade and the rounded significand. -/
theorem binary64_eval (q : ℚ) (e m : ℤ) (hlo : (2 : ℚ) ^ e ≤ |q|) (hhi : |q| < (2 : ℚ) ^ (e + 1))
    (he : -1022 ≤ e) (hm : roundHalfEven (q / (2 : ℚ) ^ (e - 52)) = m)
    (hfin : |(m : ℚ) * (2 : ℚ) ^ (e - 52)| < (2 : ℚ) ^ (1024 : ℕ)) :
    binary64 q = fin ((m : ℚ) * (2 : ℚ) ^ (e - 52)) := by
  have hq : q ≠ 0 := by
    intro h; rw [h, abs_zero] at hlo
    exact absurd hlo (not_le.2 (by positivity))
  have hb : binade q = e := by
    unfold binade; rw [log_eq_of_bounds q e hlo hhi]; exact max_eq_left he
  unfold binary64
  simp only [if_neg hq, hb, hm, if_neg (not_le.2 hfin)]

/-- The value of `binary64` at a positive number. -/
theorem binary64_eval_pos (q : ℚ) (e m : ℤ) (hlo : (2 : ℚ) ^ e ≤ q) (hhi : q < (2 : ℚ) ^ (e + 1))
    (he : -1022 ≤ e) (hm : roundHalfEven (q / (2 : ℚ) ^ (e - 52)) = m)
    (hfin : (m : ℚ) * (2 : ℚ) ^ (e - 52) < (2 : ℚ) ^ (1024 : ℕ)) :
    binary64 q = fin ((m : ℚ) * (2 : ℚ) ^ (e - 52)) := by
  have hq : 0 < q := lt_of_lt_of_le (by positivity) hlo
  have hm0 : 0 ≤ m := by
    rw [← hm]; apply le_roundHalfEven; push_cast
    exact div_nonneg hq.le (le_of_lt (zpow_pos (by norm_num) _))
  have hr : (0 : ℚ) ≤ (m : ℚ) * (2 : ℚ) ^ (e - 52) := by
    exact mul_nonneg (Int.cast_nonneg.2 hm0) (by positivity)
  refine binary64_eval q e m ?_ ?_ he hm ?_
  · rw [abs_of_pos hq]; exact hlo
  · rw [abs_of_pos hq]; exact hhi
  · rw [abs_of_nonneg hr]; exact hfin

/-- The binary64 value of `2^53 + 1` is `2^53`: the tie goes to the even
significand. -/
theorem binary64_two_pow_53_succ :
    binary64 9007199254740993 = fin 9007199254740992 := by
  have h := binary64_eval 9007199254740993 53 4503599627370496 (by norm_num) (by norm_num)
    (by norm_num) (by norm_num [roundHalfEven]) (by norm_num)
  rw [h]; norm_num

/-- A power of two from `2^1024` on is rounded to `Infinity`. -/
theorem binary64_two_zpow_overflow (k : ℤ) (hk : 1024 ≤ k) : binary64 ((2 : ℚ) ^ k) = pinf := by
  have hp : (0 : ℚ) < (2 : ℚ) ^ k := zpow_pos (by norm_num) _
  have hb : binade ((2 : ℚ) ^ k) = k := by
    unfold binade
    rw [log_eq_of_bounds _ k (by rw [abs_of_pos hp])
      (by rw [abs_of_pos hp]; exact zpow_lt_zpow_right₀ (by norm_num) (by omega))]
    exact max_eq_left (by omega)
  have hd : (2 : ℚ) ^ k / (2 : ℚ) ^ (k - 52) = ((2 ^ 52 : ℤ) : ℚ) := by
    rw [← zpow_sub₀ (by norm_num : (2 : ℚ) ≠ 0)]
    have : k - (k - 52) = 52 := by omega
    rw [this]; norm_num
  have hr : ((2 ^ 52 : ℤ) : ℚ) * (2 : ℚ) ^ (k - 52) = (2 : ℚ) ^ k := by
    have : ((2 ^ 52 : ℤ) : ℚ) = (2 : ℚ) ^ (52 : ℤ) := by norm_num
    rw [this, ← zpow_add₀ (by norm_num : (2 : ℚ) ≠ 0)]
    congr 1; omega
  have hle : (2 : ℚ) ^ (1024 : ℕ) ≤ (2 : ℚ) ^ k := by
    rw [← zpow_natCast]
    exact zpow_le_zpow_right₀ (by norm_num) (by exact_mod_cast hk)
  unfold binary64
  simp only [if_neg (ne_of_gt hp), hb, hd, roundHalfEven_intCast, hr, abs_of_pos hp, if_pos hp,
    if_pos hle]

/-- The difference `2^1023 - (-2^1023)` overflows. -/
theorem binary64_overflow :
    binary64 ((2 : ℚ) ^ (1023 : ℕ) - -(2 : ℚ) ^ (1023 : ℕ)) = pinf := by
  have e : (2 : ℚ) ^ (1023 : ℕ) - -(2 : ℚ) ^ (1023 : ℕ) = (2 : ℚ) ^ (1024 : ℤ) := by
    norm_num
  rw [e]
  exact binary64_two_zpow_overflow 1024 (by norm_num)

/-! ## Duration in binary64: C4 -/

theorem parseFloat64_natToText (n : Nat) (u : List Char) (hu : u ∈ durationUnits)
    (hn : n ≤ 2 ^ 53) : Binary64.parseFloat (natToText n ++ u) = fin (n : ℚ) := by
  unfold Binary64.parseFloat
  rw [parseFloat_natToText n u hu]
  exact binary64_natCast n hn

/-- The result of `calculateDuration` on a decimal magnitude, from the binary64
values of the magnitude and of the product. -/
theorem calculateDuration64_natToText (render : ℚ → List Char) (n m p : Nat) (k : ℚ)
    (u : List Char) (hu : u ∈ durationUnits) (h1 : binary64 (n : ℚ) = fin (m : ℚ))
    (h2 : binary64 ((m : ℚ) * k) = fin (p : ℚ)) (hp : p ≤ 2 ^ 53) :
    Binary64.calculateDuration render (natToText n ++ u) (fin k)
      = .ok (natToText p ++ u) := by
  unfold Binary64.calculateDuration
  rw [execDurationUnit_natToText n u hu]
  simp only [List.length_singleton, one_ne_zero, if_false, List.headD_cons]
  unfold Binary64.parseFloatOrDefault Binary64.parseFloat Binary64.mul
  rw [trim_natToText_append n u hu, parseFloat_natToText n u hu]
  simp only [JSNum.round64, h1, fin_mul_fin, h2]
  rw [numberToString_nat render _ hp]

/-- C4 (amended). For every non-negative integer magnitude `n`, every integer
iteration count `k ≥ 1` with `n * k ≤ 2^53`, and every unit suffix
`u` that is `s` or `ms` in any letter casing, `calculateDuration(n ++ u, k)`,
computed in binary64, returns the decimal text of `n * k` followed by `u` in
its original casing. -/
theorem calculateDuration_scales_binary64 (render : ℚ → List Char) (n k : Nat) (u : List Char)
    (hu : u ∈ durationUnits) (hk : 1 ≤ k) (hb : n * k ≤ 2 ^ 53) :
    Binary64.calculateDuration render (natToText n ++ u) (fin (k : ℚ))
      = .ok (natToText (n * k) ++ u) := by
  have hn : n ≤ 2 ^ 53 := le_trans (Nat.le_mul_of_pos_right n hk) hb
  apply calculateDuration64_natToText render n n (n * k) k u hu (binary64_natCast n hn) _ hb
  have : (n : ℚ) * (k : ℚ) = ((n * k : Nat) : ℚ) := by push_cast; ring
  rw [this]
  exact binary64_natCast _ hb

/-- Witness of C4 (amended): `('10s', 4)` gives `'40s'` and `('250ms', 2)`
gives `'500ms'`. -/
theorem calculateDuration_scales_binary64_witness :
    ("s".toList ∈ durationUnits ∧ 1 ≤ 4 ∧ 10 * 4 ≤ 2 ^ 53 ∧
      Binary64.calculateDuration (fun _ => []) (natToText 10 ++ "s".toList) (fin ((4 : Nat) : ℚ))
        = .ok (natToText (10 * 4) ++ "s".toList)) ∧
    ("ms".toList ∈ durationUnits ∧ 1 ≤ 2 ∧ 250 * 2 ≤ 2 ^ 53 ∧
      Binary64.calculateDuration (fun _ => []) (natToText 250 ++ "ms".toList)
        (fin ((2 : Nat) : ℚ)) = .ok (natToText (250 * 2) ++ "ms".toList)) :=
  ⟨⟨by decide, by norm_num, by norm_num,
    calculateDuration_scales_binary64 (fun _ => []) 10 4 "s".toList (by decide) (by norm_num)
      (by norm_num)⟩,
   ⟨by decide, by norm_num, by norm_num,
    calculateDuration_scales_binary64 (fun _ => []) 250 2 "ms".toList (by decide) (by norm_num)
      (by norm_num)⟩⟩

/-- C4 (counterexample). The magnitude `2^53 + 1 = 9007199254740993` with one
iteration and unit `s`: `parseFloat` returns the binary64 value `2^53`, so the
result is `9007199254740992s` and not the decimal text of the magnitude
followed by `s`. -/
theorem calculateDuration_rounds_magnitude :
    Binary64.calculateDuration (fun _ => []) "9007199254740993s".toList (fin 1)
      = .ok "9007199254740992s".toList ∧
    "9007199254740993s".toList = natToText 9007199254740993 ++ "s".toList ∧
    "9007199254740992s".toList ≠ natToText (9007199254740993 * 1) ++ "s".toList := by
  have e : "9007199254740993s".toList = natToText 9007199254740993 ++ "s".toList := by decide
  have e2 : natToText 9007199254740992 ++ "s".toList = "9007199254740992s".toList := by decide
  refine ⟨?_, e, by decide⟩
  have h := calculateDuration64_natToText (fun _ => []) 9007199254740993 9007199254740992
    9007199254740992 1 "s".toList (by decide)
    (by have := binary64_two_pow_53_succ; norm_num at this ⊢; exact this)
    (by have := binary64_natCast 9007199254740992 (by norm_num); norm_num at this ⊢; exact this)
    (by norm_num)
  rw [e, h, e2]

/-! ## Unit resolution in binary64: C7 -/

theorem parseInt64_intToText (N : ℤ) (hN : |N| ≤ 2 ^ 53) (rest : List Char)
    (hrest : leadingDigits 10 rest = [])
    (hx : ∀ c r, rest = c :: r → c ≠ 'x' ∧ c ≠ 'X') :
    Binary64.parseInt (intToText N ++ rest) = fin (N : ℚ) := by
  unfold Binary64.parseInt
  rw [parseInt_intToText N rest hrest hx]
  exact binary64_intCast N hN

theorem calcUnit64_px (N : ℤ) (hN : |N| ≤ 2 ^ 53) (len cont : JSNum) :
    Binary64.calcUnit (some (intToText N ++ "px".toList)) len cont = fin (N : ℚ) := by
  have ht : trim (intToText N ++ "px".toList) = intToText N ++ "px".toList :=
    trim_intToText_append N ['p'] 'x' (by decide)
  have hp : Binary64.parseInt (intToText N ++ "px".toList) = fin (N : ℚ) :=
    parseInt64_intToText N hN _ (by decide) (by intro c r h; cases h; decide)
  unfold Binary64.calcUnit
  simp only [Option.getD_some, ht, hp, endsWith_append, if_true]
  simp

theorem calcUnit64_percent (N : ℤ) (hN : |N| ≤ 2 ^ 53) (len cont : JSNum) :
    Binary64.calcUnit (some (intToText N ++ "%".toList)) len cont
      = JSNum.floor (Binary64.mul cont (Binary64.div (fin (N : ℚ)) (fin 100))) := by
  have ht : trim (intToText N ++ "%".toList) = intToText N ++ "%".toList :=
    trim_intToText_append N [] '%' (by decide)
  have hp : Binary64.parseInt (intToText N ++ "%".toList) = fin (N : ℚ) :=
    parseInt64_intToText N hN _ (by decide) (by intro c r h; cases h; decide)
  have he : endsWith (intToText N ++ "%".toList) "px".toList = false := by
    simp [endsWith]
  unfold Binary64.calcUnit
  simp only [Option.getD_some, ht, hp, he, endsWith_append, if_true]
  simp

theorem calcUnit64_center (len cont : JSNum) :
    Binary64.calcUnit (some "center".toList) len cont
      = JSNum.floor (Binary64.sub (Binary64.div cont (fin 2)) (Binary64.div len (fin 2))) := by
  have ht : trim "center".toList = "center".toList := by decide
  have h1 : endsWith "center".toList "px".toList = false := by decide
  have h2 : endsWith "center".toList "%".toList = false := by decide
  unfold Binary64.calcUnit
  simp only [Option.getD_some, ht, h1, h2]
  simp

/-- The result of `Math.floor` is an integer or not finite. -/
theorem floor_integer_or_special (x : JSNum) :
    (∃ z : ℤ, JSNum.floor x = fin (z : ℚ)) ∨ JSNum.floor x = pinf ∨ JSNum.floor x = ninf ∨
      JSNum.floor x = nan := by
  cases x with
  | fin q => exact Or.inl ⟨⌊q⌋, rfl⟩
  | pinf => exact Or.inr (Or.inl rfl)
  | ninf => exact Or.inr (Or.inr (Or.inl rfl))
  | nan => exact Or.inr (Or.inr (Or.inr rfl))

/-- The quotient `N / 100` and the product with the container length, when
both are binary64 values. -/
theorem percent_exact (N : ℤ) (cont : ℚ)
    (h1 : binary64 ((N : ℚ) / 100) = fin ((N : ℚ) / 100))
    (h2 : binary64 (cont * ((N : ℚ) / 100)) = fin (cont * ((N : ℚ) / 100))) :
    JSNum.floor (Binary64.mul (fin cont) (Binary64.div (fin (N : ℚ)) (fin 100)))
      = fin ((⌊cont * N / 100⌋ : ℤ) : ℚ) := by
  unfold Binary64.mul Binary64.div
  rw [fin_div_fin _ _ (by norm_num)]
  simp only [JSNum.round64, h1, fin_mul_fin, h2, floor_fin, mul_div_assoc]

/-- The binary64 value of `29 / 100`. -/
theorem binary64_29_percent :
    binary64 (29 / 100) = fin (5224175567749775 / 18014398509481984) := by
  have h := binary64_eval_pos (29 / 100) (-2) 5224175567749775 (by norm_num) (by norm_num)
    (by norm_num) (roundHalfEven_of_near _ _ (by norm_num [abs_lt])) (by norm_num)
  rw [h]; norm_num

/-- The binary64 value of `100` times the binary64 value of `29 / 100`. -/
theorem binary64_100_times_29_percent :
    binary64 (100 * (5224175567749775 / 18014398509481984))
      = fin (8162774324609023 / 281474976710656) := by
  have h := binary64_eval_pos (100 * (5224175567749775 / 18014398509481984)) 4 8162774324609023
    (by norm_num) (by norm_num)
    (by norm_num) (roundHalfEven_of_near _ _ (by norm_num [abs_lt])) (by norm_num)
  rw [h]; norm_num

theorem binary64_half : binary64 (1 / 2) = fin (1 / 2) := by
  have h := binary64_eval_pos (1 / 2) (-1) 4503599627370496 (by norm_num) (by norm_num)
    (by norm_num) (by norm_num [roundHalfEven]) (by norm_num)
  rw [h]; norm_num

/-- C7 (amended). `calcUnit` of the current variant in binary64 arithmetic:
for every integer `N` of magnitude at most `2^53` and all finite lengths,
`N px` resolves to `N`; `N %` resolves to the floor of the binary64 product of
`cont` and the binary64 quotient `N / 100`, which is `floor(cont * N / 100)`
whenever that quotient and product are binary64 values; `center` resolves to
the floor of the binary64 difference of the binary64 halves of `cont` and
`len`, which is `floor(cont/2 - len/2)` whenever the halves and their
difference are binary64 values; every result is an integer or not finite; and
`('50%', 0, 200) = 100`, `('10px', 0, 200) = 10`, `('center', 50, 200) = 75`. -/
theorem calcUnit_binary64 (N : ℤ) (len cont : ℚ) (hN : |N| ≤ 2 ^ 53) :
    Binary64.calcUnit (some (intToText N ++ "px".toList)) (fin len) (fin cont) = fin (N : ℚ) ∧
    Binary64.calcUnit (some (intToText N ++ "%".toList)) (fin len) (fin cont)
      = JSNum.floor (Binary64.mul (fin cont) (Binary64.div (fin (N : ℚ)) (fin 100))) ∧
    (binary64 ((N : ℚ) / 100) = fin ((N : ℚ) / 100) →
      binary64 (cont * ((N : ℚ) / 100)) = fin (cont * ((N : ℚ) / 100)) →
      Binary64.calcUnit (some (intToText N ++ "%".toList)) (fin len) (fin cont)
        = fin ((⌊cont * N / 100⌋ : ℤ) : ℚ)) ∧
    Binary64.calcUnit (some "center".toList) (fin len) (fin cont)
      = JSNum.floor (Binary64.sub (Binary64.div (fin cont) (fin 2))
          (Binary64.div (fin len) (fin 2))) ∧
    (binary64 (cont / 2) = fin (cont / 2) → binary64 (len / 2) = fin (len / 2) →
      binary64 (cont / 2 - len / 2) = fin (cont / 2 - len / 2) →
      Binary64.calcUnit (some "center".toList) (fin len) (fin cont)
        = fin ((⌊cont / 2 - len / 2⌋ : ℤ) : ℚ)) ∧
    (∀ (unit : Option (List Char)) (l c : JSNum),
      (∃ z : ℤ, Binary64.calcUnit unit l c = fin (z : ℚ)) ∨ Binary64.calcUnit unit l c = pinf ∨
        Binary64.calcUnit unit l c = ninf ∨ Binary64.calcUnit unit l c = nan) ∧
    Binary64.calcUnit (some "50%".toList) (fin 0) (fin 200) = fin 100 ∧
    Binary64.calcUnit (some "10px".toList) (fin 0) (fin 200) = fin 10 ∧
    Binary64.calcUnit (some "center".toList) (fin 50) (fin 200) = fin 75 := by
  have hcenter : ∀ a b : ℚ, binary64 (b / 2) = fin (b / 2) → binary64 (a / 2) = fin (a / 2) →
      binary64 (b / 2 - a / 2) = fin (b / 2 - a / 2) →
      Binary64.calcUnit (some "center".toList) (fin a) (fin b)
        = fin ((⌊b / 2 - a / 2⌋ : ℤ) : ℚ) := by
    intro a b h1 h2 h3
    rw [calcUnit64_center]
    unfold Binary64.sub Binary64.div
    rw [fin_div_fin _ _ (by norm_num), fin_div_fin _ _ (by norm_num)]
    simp only [JSNum.round64, h1, h2, fin_sub_fin, h3, floor_fin]
  refine ⟨calcUnit64_px N hN _ _, calcUnit64_percent N hN _ _, ?_, calcUnit64_center _ _,
    hcenter len cont, ?_, ?_, ?_, ?_⟩
  · intro h1 h2
    rw [calcUnit64_percent N hN, percent_exact N cont h1 h2]
  · intro unit l c
    exact floor_integer_or_special _
  · have h := calcUnit64_percent 50 (by norm_num) (fin 0) (fin 200)
    have e : intToText 50 ++ "%".toList = "50%".toList := by decide
    rw [e] at h
    rw [h, percent_exact 50 200 (by norm_num; exact binary64_half)
      (by have := binary64_intCast 100 (by norm_num); norm_num at this ⊢; exact this)]
    norm_num
  · have h := calcUnit64_px 10 (by norm_num) (fin 0) (fin 200)
    have e : intToText 10 ++ "px".toList = "10px".toList := by decide
    rw [e] at h; rw [h]; norm_num
  · rw [hcenter 50 200
      (by have := binary64_intCast 100 (by norm_num); norm_num at this ⊢; exact this)
      (by have := binary64_intCast 25 (by norm_num); norm_num at this ⊢; exact this)
      (by have := binary64_intCast 75 (by norm_num); norm_num at this ⊢; exact this)]
    norm_num

/-- Witness of C7 (amended): `N = 50` with `len = 50` and `cont = 200`, where
every quotient, product and difference is a binary64 value. -/
theorem calcUnit_binary64_witness :
    |(50 : ℤ)| ≤ 2 ^ 53 ∧
    Binary64.calcUnit (some (intToText 50 ++ "px".toList)) (fin 50) (fin 200)
      = fin ((50 : ℤ) : ℚ) ∧
    binary64 (((50 : ℤ) : ℚ) / 100) = fin (((50 : ℤ) : ℚ) / 100) ∧
    binary64 (200 * (((50 : ℤ) : ℚ) / 100)) = fin (200 * (((50 : ℤ) : ℚ) / 100)) ∧
    Binary64.calcUnit (some (intToText 50 ++ "%".toList)) (fin 50) (fin 200)
      = fin ((⌊(200 : ℚ) * (50 : ℤ) / 100⌋ : ℤ) : ℚ) ∧
    Binary64.calcUnit (some "center".toList) (fin 50) (fin 200)
      = fin ((⌊(200 : ℚ) / 2 - 50 / 2⌋ : ℤ) : ℚ) :=
  have h1 : binary64 (((50 : ℤ) : ℚ) / 100) = fin (((50 : ℤ) : ℚ) / 100) := by
    have := binary64_half; norm_num at this ⊢; exact this
  have h2 : binary64 (200 * (((50 : ℤ) : ℚ) / 100)) = fin (200 * (((50 : ℤ) : ℚ) / 100)) := by
    have := binary64_intCast 100 (by norm_num); norm_num at this ⊢; exact this
  ⟨by norm_num, (calcUnit_binary64 50 50 200 (by norm_num)).1, h1, h2,
    (calcUnit_binary64 50 50 200 (by norm_num)).2.2.1 h1 h2,
    (calcUnit_binary64 50 50 200 (by norm_num)).2.2.2.2.1
      (by have := binary64_intCast 100 (by norm_num); norm_num at this ⊢; exact this)
      (by have := binary64_intCast 25 (by norm_num); norm_num at this ⊢; exact this)
      (by have := binary64_intCast 75 (by norm_num); norm_num at this ⊢; exact this)⟩

/-- C7 (counterexample). The token `29%` of the container length `100`: the
binary64 quotient `29 / 100` is below `0.29` and its product with `100` is
`28.999999999999996`, so the result is `28` and not `floor(100 * 29 / 100) = 29`.
The token `9007199254740993px` resolves to `9007199254740992`.  The token
`400%` of the container length `2^1023` resolves to `Infinity`, which is not
an integer. -/
theorem calcUnit_percent_rounds :
    Binary64.calcUnit (some "29%".toList) (fin 0) (fin 100) = fin 28 ∧
    "29%".toList = intToText 29 ++ "%".toList ∧
    ((⌊(100 : ℚ) * (29 : ℤ) / 100⌋ : ℤ) : ℚ) = 29 ∧
    Binary64.calcUnit (some "9007199254740993px".toList) (fin 0) (fin 100)
      = fin 9007199254740992 ∧
    "9007199254740993px".toList = intToText 9007199254740993 ++ "px".toList ∧
    Binary64.calcUnit (some "400%".toList) (fin 0) (fin ((2 : ℚ) ^ (1023 : ℕ))) = pinf := by
  have e : "29%".toList = intToText 29 ++ "%".toList := by decide
  have e2 : "9007199254740993px".toList = intToText 9007199254740993 ++ "px".toList := by decide
  refine ⟨?_, e, by norm_num, ?_, e2, ?_⟩
  · rw [e, calcUnit64_percent 29 (by norm_num)]
    unfold Binary64.mul Binary64.div
    rw [fin_div_fin _ _ (by norm_num)]
    have h1 : binary64 (((29 : ℤ) : ℚ) / 100)
        = fin (5224175567749775 / 18014398509481984) := by
      have := binary64_29_percent; norm_num at this ⊢; exact this
    simp only [JSNum.round64, h1, fin_mul_fin, binary64_100_times_29_percent, floor_fin]
    norm_num
  · have ht : trim (intToText 9007199254740993 ++ "px".toList)
        = intToText 9007199254740993 ++ "px".toList :=
      trim_intToText_append _ ['p'] 'x' (by decide)
    have hp : parseInt (intToText 9007199254740993 ++ "px".toList)
        = fin ((9007199254740993 : ℤ) : ℚ) :=
      parseInt_intToText _ _ (by decide) (by intro c r h; cases h; decide)
    have hb : binary64 ((9007199254740993 : ℤ) : ℚ) = fin 9007199254740992 := by
      have := binary64_two_pow_53_succ; norm_num at this ⊢; exact this
    rw [e2]
    unfold Binary64.calcUnit Binary64.parseInt
    simp only [Option.getD_some, ht, hp, endsWith_append, if_true, JSNum.round64, hb, floor_fin]
    norm_num
  · have e4 : "400%".toList = intToText 400 ++ "%".toList := by decide
    rw [e4, calcUnit64_percent 400 (by norm_num)]
    unfold Binary64.mul Binary64.div
    rw [fin_div_fin _ _ (by norm_num)]
    have h1 : JSNum.round64 (fin (((400 : ℤ) : ℚ) / 100)) = fin 4 := by
      show binary64 (((400 : ℤ) : ℚ) / 100) = fin 4
      have := binary64_intCast 4 (by norm_num); norm_num at this ⊢; exact this
    rw [h1, fin_mul_fin]
    have e5 : (2 : ℚ) ^ (1023 : ℕ) * 4 = (2 : ℚ) ^ (1025 : ℤ) := by norm_num
    rw [e5]
    show JSNum.floor (binary64 ((2 : ℚ) ^ (1025 : ℤ))) = pinf
    rw [binary64_two_zpow_overflow 1025 (by norm_num)]
    rfl

/-! ## Aspect ratio in binary64: C9 -/

/-- The scaled axis when the scale and the product are binary64 values. -/
theorem scale_exact (x a b : ℚ) (hb : b ≠ 0)
    (h1 : binary64 (x / b) = fin (x / b)) (h2 : binary64 (a * (x / b)) = fin (a * (x / b))) :
    Binary64.mul (fin a) (Binary64.div (fin x) (fin b)) = fin (a * (x / b)) := by
  unfold Binary64.mul Binary64.div
  rw [fin_div_fin _ _ hb]
  simp only [JSNum.round64, h1, fin_mul_fin, h2]

/-- C9 (amended). `calcSize` of the current variant in binary64 arithmetic:
for a natural size with positive width `w` and height `h`, `auto auto` returns
the natural size; when exactly one token is `auto` and the other is `tok`, the
explicit axis is `calcUnit` of `tok` against the matching container dimension
and the other axis is the binary64 product of the natural length and the
binary64 quotient `resolvedAxis / naturalAxis`; when the resolved axis is a
finite `x` and that quotient and product are binary64 values, the other axis
is finite and `resultWidth * h = resultHeight * w`. -/
theorem calcSize_scales_binary64 (tok : List Char) (w h : ℚ) (container : Size)
    (hw : 0 < w) (hh : 0 < h) (hsp : ' ' ∉ tok) (hauto : tok ≠ "auto".toList) :
    Binary64.calcSize "auto auto".toList ⟨fin w, fin h⟩ container = ⟨fin w, fin h⟩ ∧
    ((Binary64.calcSize (tok ++ " auto".toList) ⟨fin w, fin h⟩ container).width
        = Binary64.calcUnit (some tok) (fin w) container.width ∧
      (Binary64.calcSize (tok ++ " auto".toList) ⟨fin w, fin h⟩ container).height
        = Binary64.mul (fin h)
            (Binary64.div (Binary64.calcUnit (some tok) (fin w) container.width) (fin w)) ∧
      ∀ x : ℚ, Binary64.calcUnit (some tok) (fin w) container.width = fin x →
        binary64 (x / w) = fin (x / w) → binary64 (h * (x / w)) = fin (h * (x / w)) →
        ∃ y : ℚ, Binary64.calcSize (tok ++ " auto".toList) ⟨fin w, fin h⟩ container
            = ⟨fin x, fin y⟩ ∧ x * h = y * w) ∧
    ((Binary64.calcSize ("auto ".toList ++ tok) ⟨fin w, fin h⟩ container).height
        = Binary64.calcUnit (some tok) (fin h) container.height ∧
      (Binary64.calcSize ("auto ".toList ++ tok) ⟨fin w, fin h⟩ container).width
        = Binary64.mul (fin w)
            (Binary64.div (Binary64.calcUnit (some tok) (fin h) container.height) (fin h)) ∧
      ∀ y : ℚ, Binary64.calcUnit (some tok) (fin h) container.height = fin y →
        binary64 (y / h) = fin (y / h) → binary64 (w * (y / h)) = fin (w * (y / h)) →
        ∃ x : ℚ, Binary64.calcSize ("auto ".toList ++ tok) ⟨fin w, fin h⟩ container
            = ⟨fin x, fin y⟩ ∧ x * h = y * w) := by
  have s0 : split ' ' "auto auto".toList = ["auto".toList, "auto".toList] := by decide
  have s1 : split ' ' (tok ++ " auto".toList) = [tok, "auto".toList] := by
    have : tok ++ " auto".toList = tok ++ ' ' :: "auto".toList := rfl
    rw [this, split_append_sep _ _ _ hsp]
    rfl
  have s2 : split ' ' ("auto ".toList ++ tok) = ["auto".toList, tok] := by
    have : "auto ".toList ++ tok = "auto".toList ++ ' ' :: tok := rfl
    rw [this, split_append_sep _ _ _ (by decide), split_of_not_mem _ _ hsp]
  have r1 : Binary64.calcSize (tok ++ " auto".toList) ⟨fin w, fin h⟩ container
      = ⟨Binary64.calcUnit (some tok) (fin w) container.width,
         Binary64.mul (fin h)
           (Binary64.div (Binary64.calcUnit (some tok) (fin w) container.width) (fin w))⟩ := by
    unfold Binary64.calcSize
    simp only [s1, List.getElem?_cons_zero, List.getElem?_cons_succ, Option.some.injEq, hauto,
      false_and, if_false, if_true]
  have r2 : Binary64.calcSize ("auto ".toList ++ tok) ⟨fin w, fin h⟩ container
      = ⟨Binary64.mul (fin w)
           (Binary64.div (Binary64.calcUnit (some tok) (fin h) container.height) (fin h)),
         Binary64.calcUnit (some tok) (fin h) container.height⟩ := by
    unfold Binary64.calcSize
    simp only [s2, List.getElem?_cons_zero, List.getElem?_cons_succ, Option.some.injEq, hauto,
      and_false, if_false, if_true]
  refine ⟨?_, ⟨?_, ?_, ?_⟩, ⟨?_, ?_, ?_⟩⟩
  · unfold Binary64.calcSize
    simp only [s0, List.getElem?_cons_zero, List.getElem?_cons_succ, and_self, if_true]
  · rw [r1]
  · rw [r1]
  · intro x hx h1 h2
    refine ⟨h * (x / w), ?_, ?_⟩
    · rw [r1, hx, scale_exact x h w (ne_of_gt hw) h1 h2]
    · field_simp; ring
  · rw [r2]
  · rw [r2]
  · intro y hy h1 h2
    refine ⟨w * (y / h), ?_, ?_⟩
    · rw [r2, hy, scale_exact y w h (ne_of_gt hh) h1 h2]
    · field_simp; ring

/-- Witness of C9 (amended): a 200 by 133 image with the token `100px`; the
scale `100 / 200` and the height `133 / 2` are binary64 values. -/
theorem calcSize_scales_binary64_witness :
    (0 : ℚ) < 200 ∧ (0 : ℚ) < 133 ∧ ' ' ∉ "100px".toList ∧ "100px".toList ≠ "auto".toList ∧
    Binary64.calcUnit (some "100px".toList) (fin 200) (fin 300) = fin 100 ∧
    binary64 (100 / 200) = fin (100 / 200) ∧
    binary64 (133 * (100 / 200)) = fin (133 * (100 / 200)) ∧
    ∃ y : ℚ, Binary64.calcSize ("100px".toList ++ " auto".toList) ⟨fin 200, fin 133⟩
        ⟨fin 300, fin 300⟩ = ⟨fin 100, fin y⟩ ∧ 100 * 133 = y * 200 :=
  have hu : Binary64.calcUnit (some "100px".toList) (fin 200) (fin 300) = fin 100 := by
    have h := calcUnit64_px 100 (by norm_num) (fin 200) (fin 300)
    have e : intToText 100 ++ "px".toList = "100px".toList := by decide
    rw [e] at h; rw [h]; norm_num
  have h1 : binary64 (100 / 200) = fin (100 / 200) := by
    have := binary64_half; norm_num at this ⊢; exact this
  have h2 : binary64 (133 * (100 / 200)) = fin (133 * (100 / 200)) := by
    have := binary64_dyadic 133 (-1) (by norm_num) (by norm_num) (by norm_num [abs_of_pos])
    norm_num at this ⊢; exact this
  ⟨by norm_num, by norm_num, by decide, by decide, hu, h1, h2,
    (calcSize_scales_binary64 "100px".toList 200 133 ⟨fin 300, fin 300⟩ (by norm_num)
      (by norm_num) (by decide) (by decide)).2.1.2.2 100 hu h1 h2⟩

/-- The binary64 value of `100 / 150`. -/
theorem binary64_100_over_150 :
    binary64 (100 / 150) = fin (6004799503160661 / 9007199254740992) := by
  have h := binary64_eval_pos (100 / 150) (-1) 6004799503160661 (by norm_num) (by norm_num)
    (by norm_num) (roundHalfEven_of_near _ _ (by norm_num [abs_lt])) (by norm_num)
  rw [h]; norm_num

/-- The binary64 value of `100` times the binary64 value of `100 / 150`. -/
theorem binary64_100_times_scale :
    binary64 (100 * (6004799503160661 / 9007199254740992))
      = fin (2345624805922133 / 35184372088832) := by
  have h := binary64_eval_pos (100 * (6004799503160661 / 9007199254740992)) 6 4691249611844266
    (by norm_num) (by norm_num)
    (by norm_num) (roundHalfEven_of_near _ _ (by norm_num [abs_lt])) (by norm_num)
  rw [h]; norm_num

/-- The binary64 product of the height `66.66666666666666` and `150`. -/
theorem binary64_height_times_150 :
    binary64 (2345624805922133 / 35184372088832 * 150)
      = fin (5497558138879999 / 549755813888) := by
  have h := binary64_eval_pos (2345624805922133 / 35184372088832 * 150) 13 5497558138879999
    (by norm_num) (by norm_num)
    (by norm_num) (roundHalfEven_of_near _ _ (by norm_num [abs_lt])) (by norm_num)
  rw [h]; norm_num

/-- C9 (counterexample). A 150 by 100 image drawn at `100px auto`: the scale
is the binary64 value of `100 / 150` and the height its binary64 product with
`100`, which is `66.66666666666666`; then `resultWidth * 100 = 10000` while
`resultHeight * 150` is below `10000`, as a product of rationals and also as
the binary64 product `9999.999999999998`. -/
theorem calcSize_aspect_rounds :
    Binary64.calcSize "100px auto".toList ⟨fin 150, fin 100⟩ ⟨fin 300, fin 300⟩
      = ⟨fin 100, fin (2345624805922133 / 35184372088832)⟩ ∧
    (100 : ℚ) * 100 ≠ 2345624805922133 / 35184372088832 * 150 ∧
    Binary64.mul (fin 100) (fin 100) = fin 10000 ∧
    Binary64.mul (fin (2345624805922133 / 35184372088832)) (fin 150)
      = fin (5497558138879999 / 549755813888) ∧
    (10000 : ℚ) ≠ 5497558138879999 / 549755813888 := by
  refine ⟨?_, by norm_num, ?_, ?_, by norm_num⟩
  · have s : split ' ' "100px auto".toList = ["100px".toList, "auto".toList] := by decide
    have hu : Binary64.calcUnit (some "100px".toList) (fin 150) (fin 300) = fin 100 := by
      have h := calcUnit64_px 100 (by norm_num) (fin 150) (fin 300)
      have e : intToText 100 ++ "px".toList = "100px".toList := by decide
      rw [e] at h; rw [h]; norm_num
    have h1 : ¬ ("100px".toList = "auto".toList) := by decide
    unfold Binary64.calcSize
    simp only [s, List.getElem?_cons_zero, List.getElem?_cons_succ, Option.some.injEq, h1,
      false_and, if_false, if_true, hu]
    unfold Binary64.mul Binary64.div
    rw [fin_div_fin _ _ (by norm_num)]
    simp only [JSNum.round64, binary64_100_over_150, fin_mul_fin, binary64_100_times_scale]
  · unfold Binary64.mul
    rw [fin_mul_fin]
    show binary64 (100 * 100) = fin 10000
    have := binary64_intCast 10000 (by norm_num); norm_num at this ⊢; exact this
  · unfold Binary64.mul
    rw [fin_mul_fin]
    exact binary64_height_times_150

/-! ## Edge keywords in binary64: C8 -/

theorem not_mem_of_mem_split (sep : Char) (s : List Char) :
    ∀ p ∈ split sep s, sep ∉ p := by
  induction s with
  | nil => intro p hp; simp [split] at hp; simp [hp]
  | cons c cs ih =>
    intro p hp
    by_cases hc : c = sep
    · simp only [split, hc, if_true, List.mem_cons] at hp
      rcases hp with rfl | hp
      · simp
      · exact ih p hp
    · simp only [split, hc, if_false] at hp
      cases hs : split sep cs with
      | nil =>
        rw [hs] at hp
        simp only [List.mem_singleton] at hp
        rw [hp]
        simp [Ne.symm hc]
      | cons q qs =>
        rw [hs] at hp ih
        simp only [List.mem_cons] at hp
        rcases hp with rfl | hp
        · have := ih q (by simp)
          simp [Ne.symm hc, this]
        · exact ih p (by simp [hp])

theorem mem_of_mem_trim (s : List Char) (c : Char) (h : c ∈ trim s) : c ∈ s := by
  unfold trim at h
  rw [List.mem_reverse] at h
  have h1 := (List.dropWhile_sublist isWhiteSpace).mem h
  rw [List.mem_reverse] at h1
  exact (List.dropWhile_sublist isWhiteSpace).mem h1

theorem normalizeUnit_no_space (a : Option (List Char)) (h : ∀ t, a = some t → ' ' ∉ t) :
    ' ' ∉ normalizeUnit a := by
  unfold normalizeUnit
  simp only
  split_ifs
  · decide
  · decide
  · decide
  · intro hc
    have := mem_of_mem_trim _ _ hc
    cases a with
    | none => simp at this
    | some t => exact h t rfl this

theorem normalizeUnit_start (a : Option (List Char))
    (h : trim (a.getD []) = "left".toList ∨ trim (a.getD []) = "top".toList) :
    normalizeUnit a = "0%".toList := by
  unfold normalizeUnit
  rcases h with h | h <;> rw [h] <;> decide

theorem normalizeUnit_end (a : Option (List Char))
    (h : trim (a.getD []) = "right".toList ∨ trim (a.getD []) = "bottom".toList) :
    normalizeUnit a = "100%".toList := by
  unfold normalizeUnit
  rcases h with h | h <;> rw [h] <;> decide

/-- What `getBgPosition` returns, from the tokens of the entry; no token holds
a space. -/
theorem getBgPosition_of_tokens (css : List Char) (index : Nat) (a b : Option (List Char))
    (ht : positionTokens css index = some (a, b)) :
    getBgPosition css index = normalizeUnit a ++ ' ' :: normalizeUnit b ∧
    ' ' ∉ normalizeUnit a ∧ ' ' ∉ normalizeUnit b := by
  unfold positionTokens at ht
  unfold getBgPosition
  by_cases hi : (split ',' (trim css)).length ≤ index
  · simp [hi] at ht
  · simp only [hi, if_false, Option.some.injEq, Prod.mk.injEq] at ht ⊢
    obtain ⟨ha, hb⟩ := ht
    have hparts : ∀ t ∈ padParts "0px".toList
        (split ' ' (trim ((split ',' (trim css)).getD index []))), ' ' ∉ t := by
      intro t hm
      unfold padParts at hm
      rcases List.mem_append.1 hm with hm | hm
      · exact not_mem_of_mem_split _ _ t hm
      · rw [List.eq_of_mem_replicate hm]; decide
    have hget : ∀ (i : Nat) (t : List Char),
        (padParts "0px".toList
          (split ' ' (trim ((split ',' (trim css)).getD index []))))[i]? = some t → ' ' ∉ t :=
      fun i t h => hparts t (List.getElem?_mem h)
    have hA : ∀ t, a = some t → ' ' ∉ t := by
      intro t h
      rw [← ha] at h
      split_ifs at h
      · exact hget 1 t h
      · exact hget 0 t h
    have hB : ∀ t, b = some t → ' ' ∉ t := by
      intro t h
      rw [← hb] at h
      split_ifs at h
      · exact hget 0 t h
      · exact hget 1 t h
    refine ⟨?_, normalizeUnit_no_space a hA, normalizeUnit_no_space b hB⟩
    rw [ha, hb]
    simp

/-- The function `calcPosition` on two tokens without a space. -/
theorem calcPosition64_pair (x y : List Char) (hx : ' ' ∉ x) (hy : ' ' ∉ y)
    (size container : Size) :
    Binary64.calcPosition (x ++ ' ' :: y) size container
      = ⟨Binary64.calcUnit (some x) size.width (Binary64.sub container.width size.width),
         Binary64.calcUnit (some y) size.height (Binary64.sub container.height size.height)⟩ := by
  unfold Binary64.calcPosition
  rw [split_append_sep _ _ _ hx, split_of_not_mem _ _ hy]
  rfl

theorem round64_mul_one (x : JSNum) : JSNum.round64 (x * fin 1) = JSNum.round64 x := by
  cases x with
  | fin q => simp
  | pinf => show JSNum.round64 (JSNum.mul pinf (fin 1)) = _; simp [JSNum.mul, signedInf]
  | ninf => show JSNum.round64 (JSNum.mul ninf (fin 1)) = _; norm_num [JSNum.mul, signedInf]
  | nan => simp

theorem calcUnit64_zero_percent (len : JSNum) (d : ℚ) :
    Binary64.calcUnit (some "0%".toList) len (fin d) = fin 0 := by
  have h := calcUnit64_percent 0 (by norm_num) len (fin d)
  have e : intToText 0 ++ "%".toList = "0%".toList := by decide
  rw [e] at h; rw [h]
  unfold Binary64.mul Binary64.div
  rw [fin_div_fin _ _ (by norm_num)]
  simp [JSNum.round64, binary64]

theorem calcUnit64_hundred_percent (len x : JSNum) :
    Binary64.calcUnit (some "100%".toList) len (JSNum.round64 x)
      = JSNum.floor (JSNum.round64 x) := by
  have h := calcUnit64_percent 100 (by norm_num) len (JSNum.round64 x)
  have e : intToText 100 ++ "%".toList = "100%".toList := by decide
  have h1 : JSNum.round64 (fin (((100 : ℤ) : ℚ) / 100)) = fin 1 := by
    show binary64 (((100 : ℤ) : ℚ) / 100) = fin 1
    have := binary64_intCast 1 (by norm_num); norm_num at this ⊢; exact this
  rw [e] at h; rw [h]
  unfold Binary64.mul Binary64.div
  rw [fin_div_fin _ _ (by norm_num), h1, round64_mul_one, round64_round64]

/-- C8 (amended). Edge keywords in position resolution, in binary64
arithmetic: for every list of positions, every index with an entry, every
image size and every container size, the position that `getBgPosition`
normalises and `calcPosition` resolves has, on an axis whose token is `left`
or `top`, the offset `0` whenever the difference of the container length and
the image length is finite, and, on an axis whose token is `right` or
`bottom`, the offset `floor(container length - image length)`. -/
theorem calcPosition_edge_tokens (css : List Char) (index : Nat) (a b : Option (List Char))
    (size container : Size) (ht : positionTokens css index = some (a, b)) :
    ((trim (a.getD []) = "left".toList ∨ trim (a.getD []) = "top".toList) →
      ∀ d : ℚ, Binary64.sub container.width size.width = fin d →
        (Binary64.calcPosition (getBgPosition css index) size container).x = fin 0) ∧
    ((trim (a.getD []) = "right".toList ∨ trim (a.getD []) = "bottom".toList) →
      (Binary64.calcPosition (getBgPosition css index) size container).x
        = JSNum.floor (Binary64.sub container.width size.width)) ∧
    ((trim (b.getD []) = "left".toList ∨ trim (b.getD []) = "top".toList) →
      ∀ d : ℚ, Binary64.sub container.height size.height = fin d →
        (Binary64.calcPosition (getBgPosition css index) size container).y = fin 0) ∧
    ((trim (b.getD []) = "right".toList ∨ trim (b.getD []) = "bottom".toList) →
      (Binary64.calcPosition (getBgPosition css index) size container).y
        = JSNum.floor (Binary64.sub container.height size.height)) := by
  obtain ⟨hg, hA, hB⟩ := getBgPosition_of_tokens css index a b ht
  rw [hg, calcPosition64_pair _ _ hA hB]
  refine ⟨?_, ?_, ?_, ?_⟩
  · intro h d hd
    simp only [normalizeUnit_start a h, hd, calcUnit64_zero_percent]
  · intro h
    simp only [normalizeUnit_end a h]
    exact calcUnit64_hundred_percent _ _
  · intro h d hd
    simp only [normalizeUnit_start b h, hd, calcUnit64_zero_percent]
  · intro h
    simp only [normalizeUnit_end b h]
    exact calcUnit64_hundred_percent _ _

/-- The tokens of some position entries: a keyword alone, a keyword with a
length, two keywords in either order, and an entry of a longer list. -/
theorem positionTokens_examples :
    positionTokens "right".toList 0 = some (some "right".toList, some "0px".toList) ∧
    positionTokens "bottom".toList 0 = some (some "0px".toList, some "bottom".toList) ∧
    positionTokens "left 10px".toList 0 = some (some "left".toList, some "10px".toList) ∧
    positionTokens "10px bottom".toList 0 = some (some "10px".toList, some "bottom".toList) ∧
    positionTokens "right top".toList 0 = some (some "right".toList, some "top".toList) ∧
    positionTokens "top right".toList 0 = some (some "right".toList, some "top".toList) ∧
    positionTokens "right  bottom".toList 0 = some (some "right".toList, some []) ∧
    positionTokens "10px 5px, bottom right".toList 1
      = some (some "right".toList, some "bottom".toList) ∧
    positionTokens "10px 5px".toList 1 = none :=
  ⟨by decide, by decide, by decide, by decide, by decide, by decide, by decide, by decide,
    by decide⟩

/-- Witness of C8 (amended): the entry `bottom right` at index 1 of a list,
for an image of 100 by 133/2 in a container of 300 by 300. -/
theorem calcPosition_edge_tokens_witness :
    positionTokens "10px 5px, bottom right".toList 1
      = some (some "right".toList, some "bottom".toList) ∧
    (trim ((some "right".toList).getD []) = "right".toList ∨
      trim ((some "right".toList).getD []) = "bottom".toList) ∧
    (Binary64.calcPosition (getBgPosition "10px 5px, bottom right".toList 1)
        ⟨fin 100, fin (133 / 2)⟩ ⟨fin 300, fin 300⟩).x
      = JSNum.floor (Binary64.sub (fin 300) (fin 100)) :=
  ⟨by decide, by decide,
    (calcPosition_edge_tokens "10px 5px, bottom right".toList 1 (some "right".toList)
      (some "bottom".toList) ⟨fin 100, fin (133 / 2)⟩ ⟨fin 300, fin 300⟩ (by decide)).2.1
      (by decide)⟩

/-- The binary64 difference of `2^1023` and `-2^1023` is `Infinity`. -/
theorem sub_overflow :
    Binary64.sub (fin ((2 : ℚ) ^ (1023 : ℕ))) (fin (-(2 : ℚ) ^ (1023 : ℕ))) = pinf := by
  unfold Binary64.sub
  rw [fin_sub_fin]
  exact binary64_overflow

/-- C8 (counterexample). An image of natural size 200 by 133 drawn at
`100px auto` is 100 by 66.5; at `right bottom` of a 300 by 300 element its y
offset is 233, not `300 - 66.5 = 233.5`.  And where the difference of the
container length and the image length overflows, as for the lengths `2^1023`
and `-2^1023`, the offset of `left` is `NaN`, not `0`. -/
theorem calcPosition_bottom_floors_binary64 :
    Binary64.calcSize "100px auto".toList ⟨fin 200, fin 133⟩ ⟨fin 300, fin 300⟩
      = ⟨fin 100, fin (133 / 2)⟩ ∧
    Binary64.calcPosition (getBgPosition "right bottom".toList 0) ⟨fin 100, fin (133 / 2)⟩
        ⟨fin 300, fin 300⟩ = ⟨fin 200, fin 233⟩ ∧
    Binary64.sub (fin 300) (fin (133 / 2)) = fin (467 / 2) ∧
    fin 233 ≠ fin (467 / 2) ∧
    (Binary64.calcPosition (getBgPosition "left top".toList 0)
        ⟨fin (-(2 : ℚ) ^ (1023 : ℕ)), fin 0⟩ ⟨fin ((2 : ℚ) ^ (1023 : ℕ)), fin 0⟩).x = nan := by
  have hs : Binary64.sub (fin 300) (fin (133 / 2)) = fin (467 / 2) := by
    unfold Binary64.sub
    rw [fin_sub_fin]
    have := binary64_dyadic 467 (-1) (by norm_num) (by norm_num) (by norm_num [abs_of_pos])
    simp only [JSNum.round64]
    norm_num at this ⊢; exact this
  have hs2 : Binary64.sub (fin 300) (fin 100) = fin 200 := by
    unfold Binary64.sub
    rw [fin_sub_fin]
    have := binary64_intCast 200 (by norm_num)
    simp only [JSNum.round64]
    norm_num at this ⊢; exact this
  refine ⟨?_, ?_, hs, ?_, ?_⟩
  · have s : split ' ' "100px auto".toList = ["100px".toList, "auto".toList] := by decide
    have hu : Binary64.calcUnit (some "100px".toList) (fin 200) (fin 300) = fin 100 := by
      have h := calcUnit64_px 100 (by norm_num) (fin 200) (fin 300)
      have e : intToText 100 ++ "px".toList = "100px".toList := by decide
      rw [e] at h; rw [h]; norm_num
    have h1 : ¬ ("100px".toList = "auto".toList) := by decide
    have b1 : binary64 (100 / 200) = fin (100 / 200) := by
      have := binary64_half; norm_num at this ⊢; exact this
    have b2 : binary64 (133 * (100 / 200)) = fin (133 * (100 / 200)) := by
      have := binary64_dyadic 133 (-1) (by norm_num) (by norm_num) (by norm_num [abs_of_pos])
      norm_num at this ⊢; exact this
    unfold Binary64.calcSize
    simp only [s, List.getElem?_cons_zero, List.getElem?_cons_succ, Option.some.injEq, h1,
      false_and, if_false, if_true, hu]
    rw [scale_exact 100 133 200 (by norm_num) b1 b2]
    norm_num
  · have e : getBgPosition "right bottom".toList 0 = "100%".toList ++ ' ' :: "100%".toList := by
      decide
    rw [e, calcPosition64_pair _ _ (by decide) (by decide)]
    simp only [Binary64.sub]
    rw [calcUnit64_hundred_percent, calcUnit64_hundred_percent]
    simp only [← Binary64.sub.eq_1, hs, hs2, floor_fin]
    norm_num
  · intro h
    have := JSNum.fin.inj h
    norm_num at this
  · have e : getBgPosition "left top".toList 0 = "0%".toList ++ ' ' :: "0%".toList := by decide
    have e0 : intToText 0 ++ "%".toList = "0%".toList := by decide
    rw [e, calcPosition64_pair _ _ (by decide) (by decide)]
    simp only [sub_overflow]
    rw [← e0, calcUnit64_percent 0 (by norm_num)]
    unfold Binary64.mul Binary64.div
    rw [fin_div_fin _ _ (by norm_num)]
    have h0 : JSNum.round64 (fin (((0 : ℤ) : ℚ) / 100)) = fin 0 := by
      show binary64 (((0 : ℤ) : ℚ) / 100) = fin 0
      simp [binary64]
    rw [h0]
    show JSNum.floor (JSNum.round64 (JSNum.mul pinf (fin 0))) = nan
    simp [JSNum.mul, JSNum.round64, JSNum.floor]

/-! ## Lists of image URLs: C13 -/

theorem takeWhile_append_stop (p : Char → Bool) (u : List Char) (x : Char) (t : List Char)
    (hu : ∀ c ∈ u, p c = true) (hx : p x = false) : (u ++ x :: t).takeWhile p = u := by
  induction u with
  | nil => simp [List.takeWhile, hx]
  | cons c cs ih =>
    have hc : p c = true := hu c (by simp)
    rw [List.cons_append, List.takeWhile_cons_of_pos hc, ih (fun d hd => hu d (by simp [hd]))]

/-- What `plainUrl` says of a URL. -/
theorem plainUrl_spec (u : List Char) (h : plainUrl u = true) :
    (∃ c r, u = c :: r ∧ isWhiteSpace c = false) ∧ (∀ x ∈ u, isUrlChar x = true) ∧ ',' ∉ u := by
  unfold plainUrl at h
  rw [Bool.and_eq_true, List.all_eq_true] at h
  obtain ⟨h1, h2⟩ := h
  refine ⟨?_, ?_, ?_⟩
  · cases u with
    | nil => simp at h2
    | cons c r => exact ⟨c, r, rfl, by simpa using h2⟩
  · intro x hx
    have := h1 x hx
    simp only [Bool.and_eq_true] at this
    exact this.1
  · intro hc
    have := h1 ',' hc
    simp at this

/-- The pattern at `url(` followed by a character that is not white space. -/
theorem matchUrlGroup_open (c : Char) (rest : List Char) (hc : isWhiteSpace c = false) :
    matchUrlGroup ('u' :: 'r' :: 'l' :: '(' :: c :: rest)
      = if (if c = '\'' ∨ c = '"' then rest.takeWhile isUrlChar else []) ≠ [] then
          some (rest.takeWhile isUrlChar, 5 + (rest.takeWhile isUrlChar).length)
        else if (c :: rest).takeWhile isUrlChar ≠ [] then
          some ((c :: rest).takeWhile isUrlChar, 4 + ((c :: rest).takeWhile isUrlChar).length)
        else none := by
  have h1 : ('(' :: c :: rest).takeWhile isWhiteSpace = [] :=
    List.takeWhile_cons_of_neg (by decide)
  have h2 : ('(' :: c :: rest).dropWhile isWhiteSpace = '(' :: c :: rest :=
    dropWhile_head_false _ _ (by decide)
  have h3 : (c :: rest).takeWhile isWhiteSpace = [] :=
    List.takeWhile_cons_of_neg (by simp [hc])
  have h4 : (c :: rest).dropWhile isWhiteSpace = c :: rest := dropWhile_head_false _ _ hc
  unfold matchUrlGroup
  simp only [h1, h2, h3, h4]
  by_cases hq : c = '\'' ∨ c = '"'
  · simp only [hq, if_true]
    by_cases ha : rest.takeWhile isUrlChar = []
    · simp [ha]
    · simp [ha]
  · simp only [hq, if_false]
    by_cases hd : (c :: rest).takeWhile isUrlChar = []
    · simp [hd]
    · simp [hd]

/-- The pattern matches at the head of the text of a layer, its group being
the URL. -/
theorem matchUrlGroup_layer (quote u t : List Char)
    (hq : quote = [] ∨ quote = ['"'] ∨ quote = ['\''])
    (hu : plainUrl u = true) :
    matchUrlGroup ('u' :: 'r' :: 'l' :: '(' :: (quote ++ u ++ (quote ++ ')' :: t)))
      = some (u, 4 + quote.length + u.length) := by
  obtain ⟨⟨c, r, rfl, hc⟩, hall, _⟩ := plainUrl_spec u hu
  have hcu : isUrlChar c = true := hall c (by simp)
  have hc1 : c ≠ '\'' := by intro e; rw [e] at hcu; exact absurd hcu (by decide)
  have hc2 : c ≠ '"' := by intro e; rw [e] at hcu; exact absurd hcu (by decide)
  rcases hq with rfl | rfl | rfl
  · have ht := takeWhile_append_stop isUrlChar (c :: r) ')' t hall (by decide)
    simp only [List.nil_append, List.cons_append] at ht ⊢
    rw [matchUrlGroup_open c _ hc, ht]
    simp [hc1, hc2]
  · have ht := takeWhile_append_stop isUrlChar (c :: r) '"' (')' :: t) hall (by decide)
    simp only [List.nil_append, List.cons_append, List.singleton_append] at ht ⊢
    rw [matchUrlGroup_open '"' _ (by decide), ht]
    simp
  · have ht := takeWhile_append_stop isUrlChar (c :: r) '\'' (')' :: t) hall (by decide)
    simp only [List.nil_append, List.cons_append, List.singleton_append] at ht ⊢
    rw [matchUrlGroup_open '\'' _ (by decide), ht]
    simp

theorem matchUrlGroup_none (c : Char) (cs : List Char) (h1 : c ≠ 'u') (h2 : c ≠ 'U') :
    matchUrlGroup (c :: cs) = none := by
  match cs with
  | [] => rfl
  | [_] => rfl
  | c1 :: c2 :: rest => simp [matchUrlGroup, h1, h2]

/-- The characters of a match are passed over. -/
theorem replaceUrlGroups_skip (xs ys seg : List Char) :
    replaceUrlGroups (xs ++ ys) xs.length seg = replaceUrlGroups ys 0 seg := by
  induction xs with
  | nil => rfl
  | cons x xs ih =>
    simp only [List.cons_append, List.length_cons, replaceUrlGroups]
    exact ih

/-- Text between two layers joins the pending text. -/
theorem replaceUrlGroups_between (sep : List Char)
    (hsep : ∀ c ∈ sep, c ≠ 'u' ∧ c ≠ 'U' ∧ isLineTerminator c = false) :
    ∀ (rest seg : List Char),
      replaceUrlGroups (sep ++ rest) 0 seg = replaceUrlGroups rest 0 (seg ++ sep) := by
  induction sep with
  | nil => intro rest seg; simp
  | cons c cs ih =>
    intro rest seg
    obtain ⟨h1, h2, h3⟩ := hsep c (by simp)
    have step : replaceUrlGroups (c :: (cs ++ rest)) 0 seg
        = replaceUrlGroups (cs ++ rest) 0 (seg ++ [c]) := by
      rw [replaceUrlGroups, matchUrlGroup_none c _ h1 h2]
      simp [h3]
    rw [List.cons_append, step, ih (fun d hd => hsep d (by simp [hd]))]
    simp

theorem imageList_cons_cons (quote u v : List Char) (rest : List (List Char)) :
    imageList quote (u :: v :: rest)
      = urlLayer quote u ++ (", ".toList ++ imageList quote (v :: rest)) := by
  simp [imageList, join]

theorem replaceUrlGroups_layer (quote u rest seg : List Char)
    (hq : quote = [] ∨ quote = ['"'] ∨ quote = ['\''])
    (hu : plainUrl u = true) :
    replaceUrlGroups (urlLayer quote u ++ rest) 0 seg
      = u ++ ',' :: replaceUrlGroups rest 0 (quote ++ [')']) := by
  have hm := matchUrlGroup_layer quote u rest hq hu
  have e : urlLayer quote u ++ rest
      = 'u' :: (('r' :: 'l' :: '(' :: (quote ++ u)) ++ (quote ++ ')' :: rest)) := by
    simp [urlLayer]
  have e2 : 'u' :: 'r' :: 'l' :: '(' :: (quote ++ u ++ (quote ++ ')' :: rest))
      = 'u' :: (('r' :: 'l' :: '(' :: (quote ++ u)) ++ (quote ++ ')' :: rest)) := by
    simp
  rw [e2] at hm
  rw [e]
  simp only [replaceUrlGroups, hm]
  have hl : 4 + quote.length + u.length - 1 = ('r' :: 'l' :: '(' :: (quote ++ u)).length := by
    simp; omega
  rw [hl, replaceUrlGroups_skip]
  have hsep : ∀ c ∈ quote ++ [')'], c ≠ 'u' ∧ c ≠ 'U' ∧ isLineTerminator c = false := by
    rcases hq with rfl | rfl | rfl <;> decide
  have := replaceUrlGroups_between (quote ++ [')']) hsep rest []
  simp only [List.append_assoc, List.singleton_append, List.nil_append] at this
  rw [this]

theorem replaceUrlGroups_imageList (quote : List Char)
    (hq : quote = [] ∨ quote = ['"'] ∨ quote = ['\'']) :
    ∀ (us : List (List Char)), us ≠ [] → (∀ u ∈ us, plainUrl u = true) →
      ∀ seg, replaceUrlGroups (imageList quote us) 0 seg = replacedText quote us := by
  intro us
  induction us with
  | nil => intro h; exact absurd rfl h
  | cons u rest ih =>
    intro _ hus seg
    cases rest with
    | nil =>
      have := replaceUrlGroups_layer quote u [] seg hq (hus u (by simp))
      simp only [List.append_nil] at this
      simp only [imageList, List.map_cons, List.map_nil, join, replacedText, List.foldr_cons,
        List.foldr_nil]
      rw [this]
      rfl
    | cons v rest =>
      rw [imageList_cons_cons, replaceUrlGroups_layer quote u _ seg hq (hus u (by simp))]
      have hsep : ∀ c ∈ ", ".toList, c ≠ 'u' ∧ c ≠ 'U' ∧ isLineTerminator c = false := by
        decide
      rw [replaceUrlGroups_between _ hsep, ih (by simp) (fun x hx => hus x (by simp [hx]))]
      rfl

theorem split_replacedText (quote : List Char)
    (hq : quote = [] ∨ quote = ['"'] ∨ quote = ['\'']) :
    ∀ (us : List (List Char)), (∀ u ∈ us, plainUrl u = true) →
      split ',' (replacedText quote us) = us ++ [quote ++ [')']] := by
  intro us
  induction us with
  | nil =>
    intro _
    have hc : ',' ∉ quote ++ [')'] := by rcases hq with rfl | rfl | rfl <;> decide
    simp only [replacedText, List.foldr_nil, List.nil_append]
    exact split_of_not_mem _ _ hc
  | cons u rest ih =>
    intro hus
    have hu := (plainUrl_spec u (hus u (by simp))).2.2
    have : replacedText quote (u :: rest) = u ++ ',' :: replacedText quote rest := rfl
    rw [this, split_append_sep _ _ _ hu, ih (fun x hx => hus x (by simp [hx]))]
    rfl

/-- The scan of a list of layers returns their URLs. -/
theorem imageSources_imageList (quote : List Char) (us : List (List Char))
    (hq : quote = [] ∨ quote = ['"'] ∨ quote = ['\''])
    (hne : us ≠ []) (hus : ∀ u ∈ us, plainUrl u = true) :
    imageSources (imageList quote us) = us := by
  unfold imageSources
  rw [replaceUrlGroups_imageList quote hq us hne hus, split_replacedText quote hq us hus]
  simp

theorem trim_ne_nil (c : Char) (r : List Char) (hc : isWhiteSpace c = false) :
    trim (c :: r) ≠ [] := by
  unfold trim
  rw [dropWhile_head_false c r hc]
  intro h
  have h2 : List.dropWhile isWhiteSpace (c :: r).reverse = [] := by
    simpa using h
  rw [List.dropWhile_eq_nil_iff] at h2
  have := h2 c (by simp)
  rw [hc] at this
  exact absurd this (by decide)

/-- The record `parseBackground` returns for a list of layers: its images are
the URLs. -/
theorem parseBackground_imageList (quote : List Char) (us : List (List Char))
    (bgSize bgPosition : List Char)
    (hq : quote = [] ∨ quote = ['"'] ∨ quote = ['\''])
    (hne : us ≠ []) (hus : ∀ u ∈ us, plainUrl u = true) :
    ∃ b, Legacy.parseBackground (imageList quote us) bgSize bgPosition = some b ∧
      b.images = us := by
  have hi := imageSources_imageList quote us hq hne hus
  obtain ⟨u, rest, rfl⟩ := List.exists_cons_of_ne_nil hne
  obtain ⟨⟨c, r, hcr, hc⟩, _, _⟩ := plainUrl_spec u (hus u (by simp))
  have hcond : ¬ (((u :: rest).length = 1 ∧ trim ((u :: rest).headD []) = []) ∨
      (u :: rest).length = 0) := by
    rintro (⟨_, h⟩ | h)
    · rw [List.headD_cons, hcr] at h
      exact trim_ne_nil c r hc h
    · simp at h
  unfold Legacy.parseBackground
  simp only [hi, if_neg hcond]
  exact ⟨_, rfl, (Legacy.padStep_fold _ _).1⟩

/-- C13 (amended). Padding in the legacy `parseBackground`: for every image
list of `n ≥ 1` layers `url(u)`, all unquoted or all in the same quotes, whose
URLs hold no comma, quote or closing parenthesis, are not empty and do not
start with white space, and for size and position lists with at most `n`
comma-separated entries, a record is returned whose images are the `n` URLs
and whose `sizes` and `startPoints` have length `n`; an entry at an index
beyond the list is the default (`auto`, `0px 0px`), an entry that is blank or
white space is replaced by the same default, and every other entry is its
trimmed text. -/
theorem parseBackground_pads_urls (quote : List Char) (us : List (List Char))
    (bgSize bgPosition : List Char)
    (hq : quote = [] ∨ quote = ['"'] ∨ quote = ['\''])
    (hne : us ≠ []) (hus : ∀ u ∈ us, plainUrl u = true)
    (hs : (split ',' bgSize).length ≤ us.length)
    (hp : (split ',' bgPosition).length ≤ us.length) :
    ∃ b, Legacy.parseBackground (imageList quote us) bgSize bgPosition = some b ∧
      b.images = us ∧ b.sizes.length = us.length ∧ b.startPoints.length = us.length ∧
      (∀ i, i < us.length →
        ((split ',' bgSize).length ≤ i → b.sizes[i]? = some "auto".toList) ∧
        (i < (split ',' bgSize).length → trim ((split ',' bgSize).getD i []) = [] →
          b.sizes[i]? = some "auto".toList) ∧
        (i < (split ',' bgSize).length → trim ((split ',' bgSize).getD i []) ≠ [] →
          b.sizes[i]? = some (trim ((split ',' bgSize).getD i [])))) ∧
      (∀ i, i < us.length →
        ((split ',' bgPosition).length ≤ i → b.startPoints[i]? = some "0px 0px".toList) ∧
        (i < (split ',' bgPosition).length → trim ((split ',' bgPosition).getD i []) = [] →
          b.startPoints[i]? = some "0px 0px".toList) ∧
        (i < (split ',' bgPosition).length → trim ((split ',' bgPosition).getD i []) ≠ [] →
          b.startPoints[i]? = some (trim ((split ',' bgPosition).getD i [])))) := by
  obtain ⟨b, hb, hi⟩ := parseBackground_imageList quote us bgSize bgPosition hq hne hus
  have h := parseBackground_pads_of_record _ bgSize bgPosition b hb (by rw [hi]; exact hs)
    (by rw [hi]; exact hp)
  rw [hi] at h
  exact ⟨b, hb, hi, h.2.2.1, h.2.2.2.1, h.2.2.2.2.1, h.2.2.2.2.2⟩

/-- The text of three unquoted layers. -/
theorem imageList_three :
    imageList [] ["a.png".toList, "b.png".toList, "c.png".toList]
      = "url(a.png), url(b.png), url(c.png)".toList := by
  decide

/-- Witness of C13 (amended): three URLs with one size entry and one position
entry give arrays of length 3 whose entries 2 and 3 are the defaults. -/
theorem parseBackground_pads_urls_witness :
    ["a.png".toList, "b.png".toList, "c.png".toList] ≠ [] ∧
    (∀ u ∈ ["a.png".toList, "b.png".toList, "c.png".toList], plainUrl u = true) ∧
    (split ',' " 50% ".toList).length ≤ 3 ∧ (split ',' "left top".toList).length ≤ 3 ∧
    ∃ b, Legacy.parseBackground
        (imageList [] ["a.png".toList, "b.png".toList, "c.png".toList]) " 50% ".toList
        "left top".toList = some b ∧
      b.images = ["a.png".toList, "b.png".toList, "c.png".toList] ∧
      b.sizes.length = 3 ∧ b.startPoints.length = 3 ∧
      b.sizes[1]? = some "auto".toList ∧ b.sizes[2]? = some "auto".toList ∧
      b.startPoints[1]? = some "0px 0px".toList ∧ b.startPoints[2]? = some "0px 0px".toList := by
  refine ⟨by decide, by decide, by decide, by decide, ?_⟩
  obtain ⟨b, hb, hi, h1, h2, h3, h4⟩ :=
    parseBackground_pads_urls [] ["a.png".toList, "b.png".toList, "c.png".toList]
      " 50% ".toList "left top".toList (Or.inl rfl) (by decide) (by decide) (by decide)
      (by decide)
  exact ⟨b, hb, hi, h1, h2, (h3 1 (by decide)).1 (by decide), (h3 2 (by decide)).1 (by decide),
    (h4 1 (by decide)).1 (by decide), (h4 2 (by decide)).1 (by decide)⟩

/-- C13 (counterexample). One layer whose URL holds a comma, as every `data:`
URL does: the scan cuts the URL at the comma, so the record has two images,
two sizes and two start points for one URL. -/
theorem parseBackground_splits_data_url :
    imageList [] ["data:image/png;base64,AAAA".toList]
      = "url(data:image/png;base64,AAAA)".toList ∧
    ["data:image/png;base64,AAAA".toList].length = 1 ∧
    Legacy.parseBackground "url(data:image/png;base64,AAAA)".toList "auto".toList
        "0px 0px".toList
      = some ⟨["data:image/png;base64".toList, "AAAA".toList],
          ["auto".toList, "auto".toList], ["0px 0px".toList, "0px 0px".toList], [[], []]⟩ :=
  ⟨by decide, by decide, by decide⟩

end Everlax
